import Mathlib

/-!
GReflectionGeneratorTool: annotation parser and metadata model

A shallow embedding of `src/src/ReflectionAST.h`, of the annotation helpers
of `src/src/ClassParser.cpp` (`SplitString`, `TrimWhitespace`,
`ParseMacroArguments`, `ParseClassFlags`, `ParsePropertyFlags`,
`ParseFunctionFlags`, the `Visit*` callbacks and the traversal), of the
argument loop of `src/src/main.cpp` and of `src/src/FileScanner.cpp`,
followed by theorems about them.

Conventions of the embedding
* a `std::string` is a `List Char` (`Str`); `std::string::npos` is `none`;
* a call that may throw returns `Except Exception _`; a routine that mutates
  an entity through a reference returns an `Outcome`: the entity as it is
  when control leaves the routine, and the exception that escaped, if any;
* `uint32_t` is a `Nat` reduced `% 2 ^ 32` where a wider value is stored;
  the width of `unsigned long` is a parameter `w` of `stoul`;
* a loop or recursion that need not end carries a bound (`fuel`, `depth`)
  and gives `none` when the bound is reached.
-/

namespace ReflectionGenerator

/-! ## Strings -/

/-- A `std::string`, as its sequence of characters. -/
abbrev Str := List Char

/-- The standard exceptions thrown by the library calls the parser uses. -/
inductive Exception where
  | invalid_argument
  | out_of_range
  deriving DecidableEq, Repr

/-- The result of running a routine that updates an entity in place:
`state` is the entity when control leaves the routine, `thrown` the
exception that propagated out of it (`none` on a normal return). -/
structure Outcome (α : Type) where
  state : α
  thrown : Option Exception
  deriving DecidableEq, Repr

/-- Position of the first occurrence of a character: `str.find(c)`. -/
def find (c : Char) : Str → Option Nat
  | [] => none
  | x :: xs => if x = c then some 0 else (find c xs).map (· + 1)

/-- Position of the last occurrence of a character: `str.rfind(c)`. -/
def rfind (c : Char) : Str → Option Nat
  | [] => none
  | x :: xs =>
    match rfind c xs with
    | some i => some (i + 1)
    | none => if x = c then some 0 else none

/-- Position of the first occurrence of a substring: `str.find(pat)`. -/
def findStr (pat : Str) : Str → Option Nat
  | [] => if pat.isPrefixOf [] then some 0 else none
  | x :: xs =>
    if pat.isPrefixOf (x :: xs) then some 0 else (findStr pat xs).map (· + 1)

/-- Position of the first character not in `set`: `str.find_first_not_of(set)`. -/
def find_first_not_of (set : Str) : Str → Option Nat
  | [] => none
  | x :: xs =>
    if x ∈ set then (find_first_not_of set xs).map (· + 1) else some 0

/-- Position of the last character not in `set`: `str.find_last_not_of(set)`. -/
def find_last_not_of (set : Str) : Str → Option Nat
  | [] => none
  | x :: xs =>
    match find_last_not_of set xs with
    | some i => some (i + 1)
    | none => if x ∈ set then none else some 0

/-- The two-argument `str.substr(pos, len)`: throws `std::out_of_range` when
`pos > size()`, else the at most `len` characters from `pos`. -/
def substr (s : Str) (pos len : Nat) : Except Exception Str :=
  if pos > s.length then .error .out_of_range else .ok ((s.drop pos).take len)

/-- The one-argument `str.substr(pos)`: everything from `pos` to the end. -/
def substrFrom (s : Str) (pos : Nat) : Except Exception Str :=
  if pos > s.length then .error .out_of_range else .ok (s.drop pos)

/-- One call `std::getline(ss, item, delimiter)` on the unread part of the
stream. At end of input nothing is extracted and the call fails (`none`);
otherwise the characters up to the next delimiter (or to the end of input)
are the item and the delimiter, when there is one, is consumed. -/
def getline (delimiter : Char) : Str → Option (Str × Str)
  | [] => none
  | x :: xs =>
    if x = delimiter then some ([], xs)
    else
      match getline delimiter xs with
      | some (item, rest) => some (x :: item, rest)
      | none => some ([x], [])

/-- The loop `while (std::getline(ss, item, delimiter)) result.push_back(item)`
run for at most `fuel` iterations on the unread part `ss` of the stream. -/
def SplitStringLoop (delimiter : Char) : Nat → Str → List Str
  | 0, _ => []
  | fuel + 1, ss =>
    match getline delimiter ss with
    | none => []
    | some (item, rest) => item :: SplitStringLoop delimiter fuel rest

/-- Embedding of `ReflectionASTVisitor::SplitString` (ClassParser.cpp 418-428). Every
successful `getline` consumes at least one character, so `str.length + 1`
iterations exhaust the stream (see `SplitStringLoop_fuel`). -/
def SplitString (str : Str) (delimiter : Char) : List Str :=
  SplitStringLoop delimiter (str.length + 1) str

/-- The whitespace set `" \t\n\r"` of `TrimWhitespace`. -/
def whitespaceChars : Str := [' ', '\t', '\n', '\r']

/-- Embedding of `ReflectionASTVisitor::TrimWhitespace` (ClassParser.cpp 408-416). -/
def TrimWhitespace (str : Str) : Except Exception Str :=
  match find_first_not_of whitespaceChars str with
  | none => .ok []
  | some start =>
    -- `end` is not `npos` here (`find_last_not_of_isSome`)
    let stop := (find_last_not_of whitespaceChars str).getD 0
    substr str start (stop - start + 1)

/-- The loop `for (auto& arg : args) arg = TrimWhitespace(arg);`. -/
def trimAll : List Str → Except Exception (List Str)
  | [] => .ok []
  | arg :: rest =>
    match TrimWhitespace arg with
    | .error e => .error e
    | .ok t =>
      match trimAll rest with
      | .error e => .error e
      | .ok ts => .ok (t :: ts)

/-- Embedding of `ReflectionASTVisitor::ParseMacroArguments` (ClassParser.cpp 285-310). -/
def ParseMacroArguments (macroText : Str) : Except Exception (List Str) :=
  match find '(' macroText with
  | none => .ok []
  | some start =>
    match rfind ')' macroText with
    | none => .ok []
    | some stop =>
      if stop ≤ start then .ok []
      else
        match substr macroText (start + 1) (stop - start - 1) with
        | .error e => .error e
        | .ok argsText => trimAll (SplitString argsText ',')

/-! ## The metadata model (ReflectionAST.h) -/

/-- The `struct PropertyInfo` (ReflectionAST.h 13-36) with its default member
initialisers. -/
structure PropertyInfo where
  name : Str := []
  type : Str := []
  qualifiedType : Str := []
  offset : Nat := 0
  save : Bool := false
  edit : Bool := false
  transient : Bool := false
  editorOnly : Bool := false
  readOnly : Bool := false
  category : Str := []
  tooltip : Str := []
  defaultValue : Str := []
  clampMin : Str := []
  clampMax : Str := []
  fileName : Str := []
  lineNumber : Int := 0
  deriving DecidableEq, Repr

/-- The `struct FunctionInfo` (ReflectionAST.h 41-59). -/
structure FunctionInfo where
  name : Str := []
  returnType : Str := []
  parameters : List Str := []
  parameterTypes : List Str := []
  callable : Bool := false
  blueprintEvent : Bool := false
  blueprintCallable : Bool := false
  category : Str := []
  tooltip : Str := []
  fileName : Str := []
  lineNumber : Int := 0
  deriving DecidableEq, Repr

/-- The `struct ClassInfo` (ReflectionAST.h 64-115); `version` is a `uint32_t`. -/
structure ClassInfo where
  name : Str := []
  qualifiedName : Str := []
  baseClass : Str := []
  namespaceName : Str := []
  blueprintable : Bool := false
  serializable : Bool := false
  abstract : Bool := false
  defaultToInstanced : Bool := false
  version : Nat := 1
  properties : List PropertyInfo := []
  functions : List FunctionInfo := []
  fileName : Str := []
  lineNumber : Int := 0
  deriving DecidableEq, Repr

/-! ## Flag parsers (ClassParser.cpp 312-402) -/

/-- The C `isspace` of the default locale, used by `strtoul`. -/
def isspace (c : Char) : Bool :=
  c = ' ' || c = '\t' || c = '\n' || c = '\x0b' || c = '\x0c' || c = '\r'

/-- Value of a run of decimal digits, most significant first. -/
def digitsValue (ds : Str) : Nat :=
  ds.foldl (fun acc c => 10 * acc + (c.toNat - 48)) 0

/-- The optional sign `strtoul` accepts in front of the digits: whether it
is a minus, and the text after it. -/
def signOf (body : Str) : Bool × Str :=
  match body with
  | '-' :: t => (true, t)
  | '+' :: t => (false, t)
  | _ => (false, body)

/-- The call `std::stoul(str)` (base 10) for an `unsigned long` of `w` bits: skip
leading white space, accept one optional sign, read the longest run of
decimal digits; no digit throws `std::invalid_argument`, a magnitude above
`ULONG_MAX` throws `std::out_of_range`, a minus sign negates in the unsigned
type. Text after the digits is not looked at. -/
def stoul (w : Nat) (str : Str) : Except Exception Nat :=
  let signed := signOf (str.dropWhile isspace)
  let ds := signed.2.takeWhile Char.isDigit
  if ds = [] then .error .invalid_argument
  else if digitsValue ds ≥ 2 ^ w then .error .out_of_range
  else .ok (if signed.1 then (2 ^ w - digitsValue ds) % 2 ^ w else digitsValue ds)

/-- The range-for loop `for (const auto& arg : args) body` of the three flag
parsers: the body is run on each argument in turn and an exception leaving
the body leaves the loop and the routine. -/
def forEachArg {α : Type} (body : Str → α → Outcome α) : List Str → α → Outcome α
  | [], e => ⟨e, none⟩
  | arg :: rest, e =>
    match body arg e with
    | ⟨e1, none⟩ => forEachArg body rest e1
    | ⟨e1, some ex⟩ => ⟨e1, some ex⟩

/-- Body of the loop of `ParseClassFlags` (ClassParser.cpp 314-325). -/
def ClassFlag (w : Nat) (arg : Str) (classInfo : ClassInfo) : Outcome ClassInfo :=
  if arg = "Blueprintable".toList then ⟨{ classInfo with blueprintable := true }, none⟩
  else if arg = "Serializable".toList then ⟨{ classInfo with serializable := true }, none⟩
  else if arg = "Abstract".toList then ⟨{ classInfo with abstract := true }, none⟩
  else if arg = "DefaultToInstanced".toList then
    ⟨{ classInfo with defaultToInstanced := true }, none⟩
  else if findStr "Version=".toList arg = some 0 then
    match substrFrom arg 8 with
    | .error ex => ⟨classInfo, some ex⟩
    | .ok versionStr =>
      match stoul w versionStr with
      | .error ex => ⟨classInfo, some ex⟩
      | .ok v => ⟨{ classInfo with version := v % 2 ^ 32 }, none⟩
  else ⟨classInfo, none⟩

/-- Embedding of `ReflectionASTVisitor::ParseClassFlags` (ClassParser.cpp 312-327), for an
`unsigned long` of `w` bits. -/
def ParseClassFlags (w : Nat) (args : List Str) (classInfo : ClassInfo) : Outcome ClassInfo :=
  forEachArg (ClassFlag w) args classInfo

/-- The guard and extraction shared by the `Category`, `Tooltip`, `Clamp`
and `Default` branches, for the delimiters `first` and `last`:
`start = arg.find(first); end = arg.rfind(last);` then, under the guard
`start != npos && end != npos && end > start`, the call
`arg.substr(start + 1, end - start - 1)`. `none` when the guard fails. -/
def delimitedText (first last : Char) (arg : Str) : Option (Except Exception Str) :=
  match find first arg, rfind last arg with
  | some start, some stop =>
    if stop > start then some (substr arg (start + 1) (stop - start - 1)) else none
  | _, _ => none

/-- The text between the first and the last double quote of an argument
(`Category("...")`, `Tooltip("...")`). -/
def quotedText (arg : Str) : Option (Except Exception Str) :=
  delimitedText '"' '"' arg

/-- The text between the first `(` and the last `)` of an argument
(`Clamp(...)`, `Default(...)`). -/
def parenText (arg : Str) : Option (Except Exception Str) :=
  delimitedText '(' ')' arg

/-- Body of the loop of `ParsePropertyFlags` (ClassParser.cpp 331-374). -/
def PropertyFlag (arg : Str) (propertyInfo : PropertyInfo) : Outcome PropertyInfo :=
  if arg = "Save".toList then ⟨{ propertyInfo with save := true }, none⟩
  else if arg = "Edit".toList then ⟨{ propertyInfo with edit := true }, none⟩
  else if arg = "Transient".toList then ⟨{ propertyInfo with transient := true }, none⟩
  else if arg = "EditorOnly".toList then ⟨{ propertyInfo with editorOnly := true }, none⟩
  else if arg = "ReadOnly".toList then ⟨{ propertyInfo with readOnly := true }, none⟩
  else if findStr "Category(".toList arg = some 0 then
    match quotedText arg with
    | none => ⟨propertyInfo, none⟩
    | some (.error ex) => ⟨propertyInfo, some ex⟩
    | some (.ok text) => ⟨{ propertyInfo with category := text }, none⟩
  else if findStr "Clamp(".toList arg = some 0 then
    match parenText arg with
    | none => ⟨propertyInfo, none⟩
    | some (.error ex) => ⟨propertyInfo, some ex⟩
    | some (.ok clampText) =>
      match SplitString clampText ',' with
      | a0 :: a1 :: _ =>
        match TrimWhitespace a0 with
        | .error ex => ⟨propertyInfo, some ex⟩
        | .ok lo =>
          match TrimWhitespace a1 with
          | .error ex => ⟨{ propertyInfo with clampMin := lo }, some ex⟩
          | .ok hi => ⟨{ propertyInfo with clampMin := lo, clampMax := hi }, none⟩
      | _ => ⟨propertyInfo, none⟩
  else if findStr "Default(".toList arg = some 0 then
    match parenText arg with
    | none => ⟨propertyInfo, none⟩
    | some (.error ex) => ⟨propertyInfo, some ex⟩
    | some (.ok text) => ⟨{ propertyInfo with defaultValue := text }, none⟩
  else if findStr "Tooltip(".toList arg = some 0 then
    match quotedText arg with
    | none => ⟨propertyInfo, none⟩
    | some (.error ex) => ⟨propertyInfo, some ex⟩
    | some (.ok text) => ⟨{ propertyInfo with tooltip := text }, none⟩
  else ⟨propertyInfo, none⟩

/-- Embedding of `ReflectionASTVisitor::ParsePropertyFlags` (ClassParser.cpp 329-376). -/
def ParsePropertyFlags (args : List Str) (propertyInfo : PropertyInfo) : Outcome PropertyInfo :=
  forEachArg PropertyFlag args propertyInfo

/-- Body of the loop of `ParseFunctionFlags` (ClassParser.cpp 380-400). -/
def FunctionFlag (arg : Str) (functionInfo : FunctionInfo) : Outcome FunctionInfo :=
  if arg = "Callable".toList then ⟨{ functionInfo with callable := true }, none⟩
  else if arg = "BlueprintEvent".toList then ⟨{ functionInfo with blueprintEvent := true }, none⟩
  else if arg = "BlueprintCallable".toList then
    ⟨{ functionInfo with blueprintCallable := true }, none⟩
  else if findStr "Category(".toList arg = some 0 then
    match quotedText arg with
    | none => ⟨functionInfo, none⟩
    | some (.error ex) => ⟨functionInfo, some ex⟩
    | some (.ok text) => ⟨{ functionInfo with category := text }, none⟩
  else if findStr "Tooltip(".toList arg = some 0 then
    match quotedText arg with
    | none => ⟨functionInfo, none⟩
    | some (.error ex) => ⟨functionInfo, some ex⟩
    | some (.ok text) => ⟨{ functionInfo with tooltip := text }, none⟩
  else ⟨functionInfo, none⟩

/-- Embedding of `ReflectionASTVisitor::ParseFunctionFlags` (ClassParser.cpp 378-402). -/
def ParseFunctionFlags (args : List Str) (functionInfo : FunctionInfo) : Outcome FunctionInfo :=
  forEachArg FunctionFlag args functionInfo

/-! ## The tokens each grammar recognises -/

/-- The tokens the property grammar recognises: the five flag keywords and
the four metadata forms. -/
def isPropertyToken (arg : Str) : Bool :=
  decide (arg = "Save".toList) || decide (arg = "Edit".toList) ||
  decide (arg = "Transient".toList) || decide (arg = "EditorOnly".toList) ||
  decide (arg = "ReadOnly".toList) || "Category(".toList.isPrefixOf arg ||
  "Clamp(".toList.isPrefixOf arg || "Default(".toList.isPrefixOf arg ||
  "Tooltip(".toList.isPrefixOf arg

/-- The tokens the function grammar recognises. -/
def isFunctionToken (arg : Str) : Bool :=
  decide (arg = "Callable".toList) || decide (arg = "BlueprintEvent".toList) ||
  decide (arg = "BlueprintCallable".toList) || "Category(".toList.isPrefixOf arg ||
  "Tooltip(".toList.isPrefixOf arg

/-- The tokens the class grammar recognises. -/
def isClassToken (arg : Str) : Bool :=
  decide (arg = "Blueprintable".toList) || decide (arg = "Serializable".toList) ||
  decide (arg = "Abstract".toList) || decide (arg = "DefaultToInstanced".toList) ||
  "Version=".toList.isPrefixOf arg

/-! ## The AST visitor (ClassParser.cpp 73-283)

What the visitor reads from a clang declaration is kept as a record of
exactly those values; the clang accessor is named at each field. -/

/-- A `clang::QualType` as `GetTypeAsString` sees it: null (`none`), or the
spelling `getCanonicalType().getAsString()` gives. -/
abbrev QualType := Option Str

/-- One link of the chain `getDeclContext()`, `getParent()`, ... that
`GetQualifiedName` walks: a namespace, or any other kind of context
(translation unit, record, function, linkage specification). -/
inductive DeclContext where
  | namespaceDecl (name : Str) (isAnonymousNamespace : Bool)
  | other
  deriving DecidableEq, Repr

/-- A `clang::NamedDecl`: `getNameAsString()` and its enclosing contexts,
innermost first. -/
structure NamedDecl where
  name : Str
  declContexts : List DeclContext
  deriving DecidableEq, Repr

/-- A `clang::FieldDecl`: name, `getType()`, the texts of its `AnnotateAttr`
attributes in order, file and spelling line of `getLocation()`, and
`getFieldOffset(getFieldIndex())` of the parent layout when the parent is a
complete `CXXRecordDecl`. -/
structure FieldDecl where
  name : Str
  type : QualType
  annotations : List Str
  fileName : Str
  lineNumber : Int
  fieldOffset : Option Nat
  deriving DecidableEq, Repr

/-- A `clang::ParmVarDecl`. -/
structure ParmVarDecl where
  name : Str
  type : QualType
  deriving DecidableEq, Repr

/-- A `clang::CXXMethodDecl`. -/
structure CXXMethodDecl where
  name : Str
  returnType : QualType
  parameters : List ParmVarDecl
  annotations : List Str
  isImplicit : Bool
  fileName : Str
  lineNumber : Int
  deriving DecidableEq, Repr

/-- The loop of `GetQualifiedName` over the context chain (ClassParser.cpp
193-200): the names of the named namespaces, innermost first. -/
def namespaceParts : List DeclContext → List Str
  | [] => []
  | DeclContext.namespaceDecl name isAnonymousNamespace :: parents =>
    if isAnonymousNamespace then namespaceParts parents else name :: namespaceParts parents
  | DeclContext.other :: parents => namespaceParts parents

/-- Embedding of `ReflectionASTVisitor::GetQualifiedName` (ClassParser.cpp 183-211). -/
def GetQualifiedName (decl : Option NamedDecl) : Str :=
  match decl with
  | none => []
  | some d =>
    let nameParts := (namespaceParts d.declContexts).reverse
    nameParts.foldl (fun qualifiedName part => qualifiedName ++ (part ++ "::".toList)) []
      ++ d.name

/-- The clean-up loop of `GetTypeAsString` (ClassParser.cpp 226-246) on the
characters still to read, with the loop variables `inTemplate` and
`templateDepth`. -/
def cleanTypeName : Str → Bool → Int → Str
  | [], _, _ => []
  | c :: cs, inTemplate, templateDepth =>
    let st : Bool × Int :=
      if c = '<' then (true, templateDepth + 1)
      else if c = '>' then
        (if templateDepth - 1 = 0 then false else inTemplate, templateDepth - 1)
      else (inTemplate, templateDepth)
    if st.1 = false ∧ c = ' ' then cleanTypeName cs st.1 st.2
    else c :: cleanTypeName cs st.1 st.2

/-- Embedding of `ReflectionASTVisitor::GetTypeAsString` (ClassParser.cpp 213-249). -/
def GetTypeAsString (type : QualType) : Str :=
  match type with
  | none => []
  | some typeName => cleanTypeName typeName false 0

/-- Embedding of `ReflectionASTVisitor::ParseGClassMacro` (ClassParser.cpp 265-270); the
`expansion` argument is not read. -/
def ParseGClassMacro (classInfo : ClassInfo) : ClassInfo :=
  { classInfo with blueprintable := true, serializable := true }

/-- Embedding of `ReflectionASTVisitor::ParseGPropertyMacro` (ClassParser.cpp 272-277);
the `expansion` argument is not read. -/
def ParseGPropertyMacro (propertyInfo : PropertyInfo) : PropertyInfo :=
  { propertyInfo with save := true, edit := true }

/-- Embedding of `ReflectionASTVisitor::ParseGFunctionMacro` (ClassParser.cpp 279-283);
the `expansion` argument is not read. -/
def ParseGFunctionMacro (functionInfo : FunctionInfo) : FunctionInfo :=
  { functionInfo with callable := true }

/-- The test `annotation.find(macroName) != std::string::npos` run over the
annotations of a declaration. -/
def hasAnnotation (macroName : Str) (annotations : List Str) : Bool :=
  annotations.any (fun annotation => (findStr macroName annotation).isSome)

/-- Embedding of `ReflectionASTVisitor::VisitFieldDecl` (ClassParser.cpp 73-120), as a
function of the class `m_currentClass` points to (`none` for `nullptr`) that
returns that class after the call. -/
def VisitFieldDecl (currentClass : Option ClassInfo) (decl : Option FieldDecl) :
    Option ClassInfo :=
  match currentClass, decl with
  | some cls, some d =>
    if hasAnnotation "GPROPERTY".toList d.annotations then
      let propertyInfo : PropertyInfo :=
        { name := d.name
          type := GetTypeAsString d.type
          qualifiedType := GetTypeAsString d.type
          fileName := d.fileName
          lineNumber := d.lineNumber }
      let withOffset : PropertyInfo :=
        match d.fieldOffset with
        | some offset => { propertyInfo with offset := offset }
        | none => propertyInfo
      -- the second loop: `ParseGPropertyMacro` at the first annotation that
      -- names GPROPERTY, then `break`
      let parsed :=
        if hasAnnotation "GPROPERTY".toList d.annotations then ParseGPropertyMacro withOffset
        else withOffset
      some { cls with properties := cls.properties ++ [parsed] }
    else some cls
  | _, _ => currentClass

/-- Embedding of `ReflectionASTVisitor::VisitCXXMethodDecl` (ClassParser.cpp 122-166), in
the same style. -/
def VisitCXXMethodDecl (currentClass : Option ClassInfo) (decl : Option CXXMethodDecl) :
    Option ClassInfo :=
  match currentClass, decl with
  | some cls, some d =>
    if d.isImplicit then some cls
    else if hasAnnotation "GFUNCTION".toList d.annotations then
      let functionInfo : FunctionInfo :=
        { name := d.name
          returnType := GetTypeAsString d.returnType
          fileName := d.fileName
          lineNumber := d.lineNumber
          parameters := d.parameters.map (fun param => param.name)
          parameterTypes := d.parameters.map (fun param => GetTypeAsString param.type) }
      let parsed :=
        if hasAnnotation "GFUNCTION".toList d.annotations then ParseGFunctionMacro functionInfo
        else functionInfo
      some { cls with functions := cls.functions ++ [parsed] }
    else some cls
  | _, _ => currentClass

/-! ## The code generator (CodeGenerator.h) -/

/-- One statement of an emitted serialize routine: the write of the version
marker, or the write of one property. -/
inductive SerializeStmt where
  | writeVersion (version : Nat)
  | writeProperty (property : PropertyInfo)
  deriving DecidableEq, Repr

/-- Modelled from the spec: the property loop of
`CodeGenerator::WriteSerializationCode`, which is declared in
CodeGenerator.h (70) and defined in CodeGenerator.cpp, a file that is not
among the sources. Section 4.2: "in property declaration order, writes each
property whose `save` flag is true and `transient` flag is false". -/
def writeProperties : List PropertyInfo → List SerializeStmt
  | [] => []
  | property :: rest =>
    if property.save = true ∧ property.transient = false then
      SerializeStmt.writeProperty property :: writeProperties rest
    else writeProperties rest

/-- Modelled from the spec: `CodeGenerator::WriteSerializationCode`
(declared in CodeGenerator.h 70, definition not among the sources).
Section 4.2: "for a `serializable` class, emits a serialize routine" that
"writes the class `version` value before the property stream". -/
def WriteSerializationCode (classInfo : ClassInfo) : List SerializeStmt :=
  if classInfo.serializable then
    SerializeStmt.writeVersion classInfo.version :: writeProperties classInfo.properties
  else []

/-- The properties an emitted routine writes, in the order it writes them. -/
def writtenProperties : List SerializeStmt → List PropertyInfo
  | [] => []
  | SerializeStmt.writeProperty property :: rest => property :: writtenProperties rest
  | SerializeStmt.writeVersion _ :: rest => writtenProperties rest

/-! ## Notions of the specification used to state the claims -/

/-- The tokenizer the specification describes (section 4.1) splits at the
commas that are outside every parenthesis pair and outside every quoted
string literal; this counts them, reading left to right with the number of
open parentheses and whether a string literal is open. -/
def specTopLevelCommas : Str → Nat → Bool → Nat
  | [], _, _ => 0
  | c :: cs, depth, inQuote =>
    if inQuote then specTopLevelCommas cs depth (decide (c ≠ '"'))
    else if c = '"' then specTopLevelCommas cs depth true
    else if c = '(' then specTopLevelCommas cs (depth + 1) false
    else if c = ')' then specTopLevelCommas cs (depth - 1) false
    else if c = ',' ∧ depth = 0 then 1 + specTopLevelCommas cs depth false
    else specTopLevelCommas cs depth false

/-- Balanced parentheses and balanced double quotes, read the same way. -/
def specBalanced : Str → Nat → Bool → Bool
  | [], depth, inQuote => decide (depth = 0) && !inQuote
  | c :: cs, depth, inQuote =>
    if inQuote then specBalanced cs depth (decide (c ≠ '"'))
    else if c = '"' then specBalanced cs depth true
    else if c = '(' then specBalanced cs (depth + 1) false
    else if c = ')' then (decide (0 < depth) && specBalanced cs (depth - 1) false)
    else specBalanced cs depth false

/-- A token of the form `Version=<unsigned integer>` whose integer is `m`:
`Version=` followed by a non-empty run of decimal digits of value `m`. -/
def IsVersionToken (tok : Str) (m : Nat) : Prop :=
  ∃ ds : Str, tok = "Version=".toList ++ ds ∧ ds ≠ [] ∧ (∀ c ∈ ds, c.isDigit = true) ∧
    digitsValue ds = m

/-! ## Inputs of the concrete scenarios -/

/-- The annotation of the comma-nesting law, as the text of the macro call. -/
def commaNestingText : Str := "GPROPERTY(Save, Clamp(0,100), Category(\"Stats\"))".toList

/-- The field `health` of the end-to-end scenario: type `int`, annotated
`Save, Edit, Clamp(0,100)`. -/
def healthDecl : FieldDecl :=
  { name := "health".toList
    type := some "int".toList
    annotations := ["GPROPERTY(Save, Edit, Clamp(0,100))".toList]
    fileName := "Player.h".toList
    lineNumber := 12
    fieldOffset := some 0 }

/-- The method `TakeDamage` of the end-to-end scenario: returns `void`, one
parameter `amount` of type `int`, annotated `Callable`. -/
def takeDamageDecl : CXXMethodDecl :=
  { name := "TakeDamage".toList
    returnType := some "void".toList
    parameters := [{ name := "amount".toList, type := some "int".toList }]
    annotations := ["GFUNCTION(Callable)".toList]
    isImplicit := false
    fileName := "Player.h".toList
    lineNumber := 15 }

/-- The class `Player` of the end-to-end scenario, declared in namespace
`Game` of the translation unit. -/
def playerDecl : NamedDecl :=
  { name := "Player".toList
    declContexts := [DeclContext.namespaceDecl "Game".toList false, DeclContext.other] }

/-- A serializable class with a saved property, a saved but transient
property and a property that is not saved. -/
def serializeSample : ClassInfo :=
  { name := "Sample".toList
    serializable := true
    version := 3
    properties :=
      [{ name := "kept".toList, save := true },
       { name := "cache".toList, save := true, transient := true, editorOnly := true },
       { name := "scratch".toList }] }

/-! ## More notions of the specification -/

/-- The text `tok` is `piece` with its leading and trailing whitespace
(space, tab, newline, carriage return) removed and nothing else changed:
`piece` is whitespace, then `tok`, then whitespace, and `tok` neither starts
nor ends with a whitespace character. An all-whitespace `piece` has the
empty `tok`. -/
def IsTrimOf (piece tok : Str) : Prop :=
  ∃ l r : Str, piece = l ++ tok ++ r ∧ (∀ c ∈ l, c ∈ whitespaceChars) ∧
    (∀ c ∈ r, c ∈ whitespaceChars) ∧ (∀ c, tok.head? = some c → c ∉ whitespaceChars) ∧
    (∀ c, tok.getLast? = some c → c ∉ whitespaceChars)

/-- The named namespaces among the enclosing contexts of a declaration,
outermost first; `contexts` is the chain innermost first. Anonymous
namespaces and contexts that are not namespaces are skipped. -/
def specNamedNamespaces (contexts : List DeclContext) : List Str :=
  contexts.reverse.filterMap fun context =>
    match context with
    | DeclContext.namespaceDecl name false => some name
    | _ => none

/-- The qualified name of the specification (section 3 and 8): the text
`s1 :: s2 :: ... :: sk :: n` for the namespace path `s1 .. sk` and the short
name `n`. -/
def specQualifiedName (namespaces : List Str) (n : Str) : Str :=
  namespaces.foldr (fun s rest => s ++ "::".toList ++ rest) n

/-- The canonical type string of the specification (section 3): the
spelling with the spaces outside every `<...>` type-argument list removed
and every other character kept; `depth` is the number of `<` still open. -/
def specCleanTypeName : Str → Nat → Str
  | [], _ => []
  | c :: cs, depth =>
    if c = '<' then c :: specCleanTypeName cs (depth + 1)
    else if c = '>' then c :: specCleanTypeName cs (depth - 1)
    else if c = ' ' ∧ depth = 0 then specCleanTypeName cs depth
    else c :: specCleanTypeName cs depth

/-- Angle brackets balanced and properly nested: no `>` without an open `<`
before it, and none left open at the end. -/
def specAngleBalanced : Str → Nat → Bool
  | [], depth => decide (depth = 0)
  | c :: cs, depth =>
    if c = '<' then specAngleBalanced cs (depth + 1)
    else if c = '>' then decide (0 < depth) && specAngleBalanced cs (depth - 1)
    else specAngleBalanced cs depth

/-! ## The command line (main.cpp 25-82) -/

/-- The variables `scanDirs`, `inputFiles`, `outputDir` and `verbose` of
`main`, with their initial values (main.cpp 26-29). -/
structure Options where
  scanDirs : List Str := []
  inputFiles : List Str := []
  outputDir : Str := "Build/Generated".toList
  verbose : Bool := false
  deriving DecidableEq, Repr

/-- How the argument loop of `main` ends: with a `return` of an exit code,
or by running off the end of `argv` with the variables as they then are. -/
inductive ArgsResult where
  | exit (code : Int)
  | proceed (options : Options)
  deriving DecidableEq, Repr

/-- The loop that cuts the value of `--scan-dirs` / `--input-files` at its
commas (main.cpp 44-53 and 57-66), run for at most `fuel` iterations on
`rest`, the part of the value from `pos` on: the loop ends when `pos` has
reached the length, a part without a comma is pushed whole (`break`), and
otherwise the text up to the comma is pushed and `pos` moves past it. -/
def commaListLoop : Nat → Str → List Str
  | 0, _ => []
  | fuel + 1, rest =>
    if rest.length = 0 then []
    else
      match find ',' rest with
      | none => [rest]
      | some k => rest.take k :: commaListLoop fuel (rest.drop (k + 1))

/-- The entries one `--scan-dirs` / `--input-files` value adds. Every
iteration moves `pos` forward, so `length + 1` iterations are enough. -/
def commaList (value : Str) : List Str :=
  commaListLoop (value.length + 1) value

/-- The argument loop of `main` (main.cpp 32-76) on the arguments still to
read, `argv[i], argv[i+1], ...`; the test `i + 1 < argc` is that a further
argument exists. -/
def parseArguments : List Str → Options → ArgsResult
  | [], options => ArgsResult.proceed options
  | arg :: rest, options =>
    if arg = "--help".toList ∨ arg = "-h".toList then ArgsResult.exit 0
    else if arg = "--verbose".toList ∨ arg = "-v".toList then
      parseArguments rest { options with verbose := true }
    else
      match rest with
      | value :: rest2 =>
        if arg = "--scan-dirs".toList then
          parseArguments rest2 { options with scanDirs := options.scanDirs ++ commaList value }
        else if arg = "--input-files".toList then
          parseArguments rest2
            { options with inputFiles := options.inputFiles ++ commaList value }
        else if arg = "--output-dir".toList then
          parseArguments rest2 { options with outputDir := value }
        else ArgsResult.exit 1
      | [] => ArgsResult.exit 1

/-- The function `main` (main.cpp 25-147) up to its `try` block: the exit
code for `argv`, where `tryBlock` stands for lines 84-146 (create the output
directory, scan, parse, generate) as a function of the variables it reads. -/
def main (argv : List Str) (tryBlock : Options → Int) : Int :=
  match parseArguments (argv.drop 1) {} with
  | ArgsResult.exit code => code
  | ArgsResult.proceed options =>
    if options.scanDirs = [] ∧ options.inputFiles = [] then 1 else tryBlock options

/-- The command lines of the specification (section 6): a sequence of
`--verbose` (or `-v`) and of `--scan-dirs`, `--input-files`, `--output-dir`
each followed by its value. -/
def specWellFormedArgs : List Str → Bool
  | [] => true
  | arg :: rest =>
    if arg = "--verbose".toList ∨ arg = "-v".toList then specWellFormedArgs rest
    else if arg = "--scan-dirs".toList ∨ arg = "--input-files".toList ∨
        arg = "--output-dir".toList then
      match rest with
      | _ :: rest2 => specWellFormedArgs rest2
      | [] => false
    else false

/-! ## The file scanner (FileScanner.cpp)

A `std::filesystem::path` is kept as the sequence of its elements: the root
directory `/` as a first element when the path is absolute, then the names;
a trailing separator shows as an empty last element. -/

/-- A `std::filesystem::path`, as its elements. -/
abbrev FsPath := List Str

/-- The root-directory element of an absolute path. -/
def rootDirectory : Str := "/".toList

/-- The call `p.parent_path()`: the path without its last element; the root
directory is its own parent. -/
def parent_path (p : FsPath) : FsPath :=
  if p = [rootDirectory] then p else p.dropLast

/-- The call `p.has_parent_path()`: `parent_path()` is not empty. -/
def has_parent_path (p : FsPath) : Bool :=
  decide (parent_path p ≠ [])

/-- The call `p.filename()`: the last element, empty for the root directory
and for the empty path. -/
def filename (p : FsPath) : Str :=
  if p = [rootDirectory] then [] else p.getLast?.getD []

/-- The call `p.extension()` on a file name: the text from its last dot on,
empty when there is no dot, when the only dot is the first character, and
for the names `.` and `..`. -/
def extension (name : Str) : Str :=
  if name = ".".toList ∨ name = "..".toList then []
  else
    match rfind '.' name with
    | none => []
    | some 0 => []
    | some k => name.drop k

/-- The path `dir / rel` of an entry found below `dir`: a trailing separator
of `dir` is not doubled. -/
def pathAppend (dir rel : FsPath) : FsPath :=
  (if dir.getLast? = some [] then dir.dropLast else dir) ++ rel

/-- The table `FileScanner::s_excludedDirectories` (FileScanner.cpp 8-22). -/
def s_excludedDirectories : List Str :=
  ["External".toList, "Build".toList, "bin".toList, "lib".toList, "obj".toList,
   "Debug".toList, "Release".toList, "x64".toList, "x86".toList, ".git".toList,
   ".vs".toList, "CMakeFiles".toList, "node_modules".toList]

/-- The table `FileScanner::s_headerExtensions` (FileScanner.cpp 24-29). -/
def s_headerExtensions : List Str :=
  [".h".toList, ".hpp".toList, ".hxx".toList, ".hh".toList]

/-- The default value of the parameter `extensions` of `GetHeaderFiles`
(FileScanner.h 39). -/
def defaultExtensions : List Str := [".h".toList, ".hpp".toList]

/-- Embedding of `FileScanner::ShouldExcludeDirectory` (FileScanner.cpp
157-164). -/
def ShouldExcludeDirectory (dirPath : Str) : Bool :=
  s_excludedDirectories.any fun excluded => decide (dirPath = excluded)

/-- One entry of the `recursive_directory_iterator`: `entry.path()` and
`entry.is_regular_file()`. -/
structure DirectoryEntry where
  path : FsPath
  isRegularFile : Bool
  deriving DecidableEq, Repr

/-- The loop of `GetHeaderFiles` that looks at the parent directories of an
entry (FileScanner.cpp 105-113), from `currentPath`, for at most `fuel`
iterations: `some shouldExclude` when the loop ends, `none` when it is still
running after `fuel` iterations. -/
def excludedWalk (dirPath : FsPath) : Nat → FsPath → Option Bool
  | 0, _ => none
  | fuel + 1, currentPath =>
    if has_parent_path currentPath = true ∧ currentPath ≠ dirPath then
      if ShouldExcludeDirectory (filename (parent_path currentPath)) = true then some true
      else excludedWalk dirPath fuel (parent_path currentPath)
    else some false

/-- Embedding of `FileScanner::GetHeaderFiles` (FileScanner.cpp 77-127) on
the entries the directory iterator yields, in order; each parent-directory
loop may take `fuel` iterations, and the result is `none` when one of them
does not end within that bound. An exception thrown by the iterator ends the
loop over the entries early, which is the run on a shorter list. -/
def GetHeaderFiles (fuel : Nat) (dirPath : FsPath) (extensions : List Str) :
    List DirectoryEntry → Option (List FsPath)
  | [] => some []
  | entry :: rest =>
    if entry.isRegularFile = true ∧ extension (filename entry.path) ∈ extensions then
      match excludedWalk dirPath fuel entry.path with
      | none => none
      | some shouldExclude =>
        match GetHeaderFiles fuel dirPath extensions rest with
        | none => none
        | some result => some (if shouldExclude then result else entry.path :: result)
    else GetHeaderFiles fuel dirPath extensions rest

/-- Embedding of `FileScanner::ShouldProcessFile` (FileScanner.cpp 56-75);
`containsReflectionMacros` stands for `ContainsReflectionMacros`, which
reads the file. -/
def ShouldProcessFile (containsReflectionMacros : FsPath → Bool) (filePath : FsPath) : Bool :=
  if extension (filename filePath) ∈ s_headerExtensions then containsReflectionMacros filePath
  else false

/-- Embedding of `FileScanner::ScanDirectory` (FileScanner.cpp 31-54);
`isDirectory` is the result of the test `exists(dirPath) &&
is_directory(dirPath)`. -/
def ScanDirectory (fuel : Nat) (isDirectory : Bool) (directory : FsPath)
    (entries : List DirectoryEntry) (containsReflectionMacros : FsPath → Bool) :
    Option (List FsPath) :=
  if isDirectory = false then some []
  else
    match GetHeaderFiles fuel directory defaultExtensions entries with
    | none => none
    | some headerFiles => some (headerFiles.filter (ShouldProcessFile containsReflectionMacros))

/-- The entries of a sample tree below `Engine`: two headers to keep, one
header below `External/GLM`, a directory and a source file. -/
def sampleEntries : List DirectoryEntry :=
  [{ path := ["Engine".toList, "Player.h".toList], isRegularFile := true },
   { path := ["Engine".toList, "External".toList], isRegularFile := false },
   { path := ["Engine".toList, "External".toList, "GLM".toList, "glm.hpp".toList],
     isRegularFile := true },
   { path := ["Engine".toList, "Core".toList, "Actor.hpp".toList], isRegularFile := true },
   { path := ["Engine".toList, "Core".toList, "Actor.cpp".toList], isRegularFile := true }]

/-- The entries below a root named `Build`: a header directly in the root and
a header one level down. -/
def buildEntries : List DirectoryEntry :=
  [{ path := ["Build".toList, "Generated.h".toList], isRegularFile := true },
   { path := ["Build".toList, "Gen".toList, "Types.hpp".toList], isRegularFile := true }]

/-! ## The traversal of a translation unit (ClassParser.cpp 18-71, 436-438)

`RecursiveASTVisitor::TraverseDecl` is clang's: for a declaration that is
not implicit it first walks up the class hierarchy of the node, which calls
the `Visit...` callback of the derived visitor, and then traverses the
child declarations. -/

/-- A `clang::CXXRecordDecl`, as `VisitCXXRecordDecl` reads it: name and
enclosing contexts, `isImplicit()`, `isCompleteDefinition()`, the texts of
its `AnnotateAttr` attributes, `isInAnonymousNamespace()`, the types of its
base specifiers, file and spelling line of `getLocation()`. -/
structure CXXRecordDecl where
  named : NamedDecl
  isImplicit : Bool
  isCompleteDefinition : Bool
  annotations : List Str
  isInAnonymousNamespace : Bool
  bases : List QualType
  fileName : Str
  lineNumber : Int
  deriving DecidableEq, Repr

/-- The declarations `TraverseDecl` walks: a translation unit or a namespace
with its declarations, a class with its member declarations, a field, a
method, or any other declaration. -/
inductive Decl where
  | translationUnit (decls : List Decl)
  | namespaceScope (name : Str) (decls : List Decl)
  | cxxRecord (record : CXXRecordDecl) (members : List Decl)
  | field (decl : FieldDecl)
  | cxxMethod (decl : CXXMethodDecl)
  | other

/-- The state of a `ReflectionASTVisitor`: `m_data.classes`, the locals
`classInfo` of the calls of `VisitCXXRecordDecl` that are active (outermost
first), and `m_currentClass` as the position of the local it points to
(`none` for `nullptr`). -/
structure VisitorState where
  classes : List ClassInfo := []
  frames : List ClassInfo := []
  currentClass : Option Nat := none
  deriving DecidableEq, Repr

/-- The callback `VisitFieldDecl` on the visitor state: the class
`m_currentClass` points to is updated in place. -/
def visitField (state : VisitorState) (decl : FieldDecl) : VisitorState :=
  match state.currentClass with
  | none => state
  | some slot =>
    match VisitFieldDecl (state.frames.get? slot) (some decl) with
    | none => state
    | some cls => { state with frames := state.frames.set slot cls }

/-- The callback `VisitCXXMethodDecl` on the visitor state. -/
def visitMethod (state : VisitorState) (decl : CXXMethodDecl) : VisitorState :=
  match state.currentClass with
  | none => state
  | some slot =>
    match VisitCXXMethodDecl (state.frames.get? slot) (some decl) with
    | none => state
    | some cls => { state with frames := state.frames.set slot cls }

/-- The fields `VisitCXXRecordDecl` fills in before it traverses the class
(ClassParser.cpp 38-58). -/
def newClassInfo (decl : CXXRecordDecl) : ClassInfo :=
  { name := decl.named.name
    qualifiedName := GetQualifiedName (some decl.named)
    fileName := decl.fileName
    lineNumber := decl.lineNumber
    namespaceName :=
      if decl.isInAnonymousNamespace then []
      else
        match decl.named.declContexts.head? with
        | some (DeclContext.namespaceDecl name false) => name
        | _ => []
    baseClass :=
      match decl.bases with
      | base :: _ => GetTypeAsString base
      | [] => [] }

/-- Embedding of `ReflectionASTVisitor::VisitCXXRecordDecl` (ClassParser.cpp
18-71); `traverse` is the call `TraverseDecl(decl)` of line 64, which gives
`none` when it does not return. -/
def VisitCXXRecordDecl (traverse : VisitorState → Option VisitorState) (decl : CXXRecordDecl)
    (state : VisitorState) : Option VisitorState :=
  if decl.isImplicit = true ∨ decl.isCompleteDefinition = false then some state
  else if hasAnnotation "GCLASS".toList decl.annotations = false then some state
  else
    let classInfo := newClassInfo decl
    let slot := state.frames.length
    match traverse { state with frames := state.frames ++ [classInfo],
                                currentClass := some slot } with
    | none => none
    | some after =>
      some { classes := after.classes ++ [after.frames.getD slot classInfo]
             frames := after.frames.take slot
             currentClass := none }

/-- The traversal of a list of child declarations, in order. -/
def traverseAll (traverse : Decl → VisitorState → Option VisitorState) :
    List Decl → VisitorState → Option VisitorState
  | [], state => some state
  | decl :: rest, state =>
    match traverse decl state with
    | none => none
    | some next => traverseAll traverse rest next

/-- The call `TraverseDecl(decl)` of the visitor, with at most `depth`
nested calls of `TraverseDecl`: `none` when that nesting is exceeded. A
class that is not implicit is first handed to `VisitCXXRecordDecl` (whose
own `TraverseDecl(decl)` is this traversal again, one call deeper), then its
members are traversed. -/
def TraverseDecl : Nat → Decl → VisitorState → Option VisitorState
  | 0, _, _ => none
  | depth + 1, decl, state =>
    match decl with
    | Decl.translationUnit decls => traverseAll (TraverseDecl depth) decls state
    | Decl.namespaceScope _ decls => traverseAll (TraverseDecl depth) decls state
    | Decl.cxxRecord record members =>
      if record.isImplicit then some state
      else
        match VisitCXXRecordDecl (TraverseDecl depth (Decl.cxxRecord record members)) record
            state with
        | none => none
        | some visited => traverseAll (TraverseDecl depth) members visited
    | Decl.field fieldDecl => some (visitField state fieldDecl)
    | Decl.cxxMethod methodDecl =>
      if methodDecl.isImplicit then some state else some (visitMethod state methodDecl)
    | Decl.other => some state

/-- Embedding of `ReflectionASTConsumer::HandleTranslationUnit`
(ClassParser.cpp 436-438) on a fresh visitor: the classes collected, or
`none` when the traversal does not return within `depth` nested calls. -/
def HandleTranslationUnit (depth : Nat) (translationUnit : Decl) : Option (List ClassInfo) :=
  (TraverseDecl depth translationUnit {}).map fun state => state.classes

/-- The class of the end-to-end scenario as a declaration: `Player` in
namespace `Game`, complete, annotated `GCLASS`, base `Actor`, with the
field `health` and the method `TakeDamage`. -/
def playerRecord : CXXRecordDecl :=
  { named := playerDecl
    isImplicit := false
    isCompleteDefinition := true
    annotations := ["GCLASS(Serializable)".toList]
    isInAnonymousNamespace := false
    bases := [some "Game::Actor".toList]
    fileName := "Player.h".toList
    lineNumber := 8 }

/-- The translation unit of the end-to-end scenario. -/
def playerUnit : Decl :=
  Decl.translationUnit
    [Decl.namespaceScope "Game".toList
      [Decl.cxxRecord playerRecord [Decl.field healthDecl, Decl.cxxMethod takeDamageDecl]]]

/-- The same translation unit with the `GCLASS` annotation left out. -/
def plainUnit : Decl :=
  Decl.translationUnit
    [Decl.namespaceScope "Game".toList
      [Decl.cxxRecord { playerRecord with annotations := [] }
        [Decl.field healthDecl, Decl.cxxMethod takeDamageDecl]]]

/-! ## Patches

The effect of a token list on an entity, as data: which flags it sets and
which values it assigns last. Used to show that parsing twice is parsing
once. -/

/-- The later of two optional assignments to one field. -/
def laterValue {β : Type} (first second : Option β) : Option β :=
  match second with
  | some v => some v
  | none => first

/-- What tokens can do to a `PropertyInfo`: set flags, assign metadata. -/
structure PropertyPatch where
  save : Bool := false
  edit : Bool := false
  transient : Bool := false
  editorOnly : Bool := false
  readOnly : Bool := false
  category : Option Str := none
  tooltip : Option Str := none
  defaultValue : Option Str := none
  clampMin : Option Str := none
  clampMax : Option Str := none

/-- The `PropertyInfo` after the flags of the patch are set and its values
assigned. -/
def applyPropertyPatch (patch : PropertyPatch) (p : PropertyInfo) : PropertyInfo :=
  { p with
    save := p.save || patch.save
    edit := p.edit || patch.edit
    transient := p.transient || patch.transient
    editorOnly := p.editorOnly || patch.editorOnly
    readOnly := p.readOnly || patch.readOnly
    category := patch.category.getD p.category
    tooltip := patch.tooltip.getD p.tooltip
    defaultValue := patch.defaultValue.getD p.defaultValue
    clampMin := patch.clampMin.getD p.clampMin
    clampMax := patch.clampMax.getD p.clampMax }

/-- The patch that does what `first` and then `second` do. -/
def composePropertyPatch (first second : PropertyPatch) : PropertyPatch :=
  { save := first.save || second.save
    edit := first.edit || second.edit
    transient := first.transient || second.transient
    editorOnly := first.editorOnly || second.editorOnly
    readOnly := first.readOnly || second.readOnly
    category := laterValue first.category second.category
    tooltip := laterValue first.tooltip second.tooltip
    defaultValue := laterValue first.defaultValue second.defaultValue
    clampMin := laterValue first.clampMin second.clampMin
    clampMax := laterValue first.clampMax second.clampMax }

/-- What tokens can do to a `FunctionInfo`. -/
structure FunctionPatch where
  callable : Bool := false
  blueprintEvent : Bool := false
  blueprintCallable : Bool := false
  category : Option Str := none
  tooltip : Option Str := none

/-- The `FunctionInfo` after the flags of the patch are set and its values
assigned. -/
def applyFunctionPatch (patch : FunctionPatch) (f : FunctionInfo) : FunctionInfo :=
  { f with
    callable := f.callable || patch.callable
    blueprintEvent := f.blueprintEvent || patch.blueprintEvent
    blueprintCallable := f.blueprintCallable || patch.blueprintCallable
    category := patch.category.getD f.category
    tooltip := patch.tooltip.getD f.tooltip }

/-- The patch that does what `first` and then `second` do. -/
def composeFunctionPatch (first second : FunctionPatch) : FunctionPatch :=
  { callable := first.callable || second.callable
    blueprintEvent := first.blueprintEvent || second.blueprintEvent
    blueprintCallable := first.blueprintCallable || second.blueprintCallable
    category := laterValue first.category second.category
    tooltip := laterValue first.tooltip second.tooltip }

/-- What tokens can do to a `ClassInfo`. -/
structure ClassPatch where
  blueprintable : Bool := false
  serializable : Bool := false
  abstract : Bool := false
  defaultToInstanced : Bool := false
  version : Option Nat := none

/-- The `ClassInfo` after the flags of the patch are set and its version
assigned. -/
def applyClassPatch (patch : ClassPatch) (c : ClassInfo) : ClassInfo :=
  { c with
    blueprintable := c.blueprintable || patch.blueprintable
    serializable := c.serializable || patch.serializable
    abstract := c.abstract || patch.abstract
    defaultToInstanced := c.defaultToInstanced || patch.defaultToInstanced
    version := patch.version.getD c.version }

/-- The patch that does what `first` and then `second` do. -/
def composeClassPatch (first second : ClassPatch) : ClassPatch :=
  { blueprintable := first.blueprintable || second.blueprintable
    serializable := first.serializable || second.serializable
    abstract := first.abstract || second.abstract
    defaultToInstanced := first.defaultToInstanced || second.defaultToInstanced
    version := laterValue first.version second.version }

/-! ## Library-level facts about the string primitives -/

theorem findStr_eq_zero_iff (pat s : Str) : findStr pat s = some 0 ↔ pat <+: s := by
  cases s with
  | nil =>
    by_cases h : pat.isPrefixOf ([] : Str) = true
    · simp [findStr, h, List.isPrefixOf_iff_prefix.mp h]
    · have h2 : ¬ pat <+: ([] : Str) := fun hp => h (List.isPrefixOf_iff_prefix.mpr hp)
      simpa [findStr, h] using h2
  | cons x xs =>
    by_cases h : pat.isPrefixOf (x :: xs) = true
    · simp [findStr, h, List.isPrefixOf_iff_prefix.mp h]
    · have h2 : ¬ pat <+: (x :: xs) := fun hp => h (List.isPrefixOf_iff_prefix.mpr hp)
      simp [findStr, h, h2]

theorem find_eq_none_iff (c : Char) (s : Str) : find c s = none ↔ c ∉ s := by
  induction s with
  | nil => simp [find]
  | cons x xs ih =>
    by_cases h : x = c
    · simp [find, h]
    · have h2 : ¬ c = x := fun e => h e.symm
      simp [find, h, h2, ih]

theorem find_append_cons (c : Char) (a r : Str) (h : c ∉ a) :
    find c (a ++ c :: r) = some a.length := by
  induction a with
  | nil => simp [find]
  | cons x xs ih =>
    have hx : ¬ x = c := fun e => h (by simp [e])
    have hxs : c ∉ xs := fun e => h (by simp [e])
    simp [find, hx, ih hxs]

theorem find_eq_some (c : Char) (s : Str) (i : Nat) (h : find c s = some i) :
    ∃ a r, s = a ++ c :: r ∧ c ∉ a ∧ a.length = i := by
  induction s generalizing i with
  | nil => simp [find] at h
  | cons x xs ih =>
    by_cases hx : x = c
    · simp [find, hx] at h
      exact ⟨[], xs, by simp [hx], by simp, by simpa using h⟩
    · simp only [find, hx, if_false, Option.map_eq_some'] at h
      obtain ⟨k, hk, rfl⟩ := h
      obtain ⟨a, r, hs, ha, hl⟩ := ih k hk
      refine ⟨x :: a, r, by simp [hs], ?_, by simp [hl]⟩
      intro hm
      rcases List.mem_cons.mp hm with e | e
      · exact hx e.symm
      · exact ha e

theorem rfind_eq_none_iff (c : Char) (s : Str) : rfind c s = none ↔ c ∉ s := by
  induction s with
  | nil => simp [rfind]
  | cons x xs ih =>
    cases hr : rfind c xs with
    | none =>
      have hn := ih.mp hr
      by_cases h : x = c
      · simp [rfind, hr, h]
      · have h2 : ¬ c = x := fun e => h e.symm
        simp [rfind, hr, h, h2, hn]
    | some j =>
      have hm : c ∈ xs := by
        by_contra hc
        rw [ih.mpr hc] at hr
        exact Option.noConfusion hr
      simp [rfind, hr, hm]

theorem rfind_append_cons (c : Char) (l b : Str) (h : c ∉ b) :
    rfind c (l ++ c :: b) = some l.length := by
  induction l with
  | nil => simp [rfind, (rfind_eq_none_iff c b).mpr h]
  | cons x xs ih => simp [rfind, ih]

theorem rfind_eq_some (c : Char) (s : Str) (j : Nat) (h : rfind c s = some j) :
    ∃ l b, s = l ++ c :: b ∧ c ∉ b ∧ l.length = j := by
  induction s generalizing j with
  | nil => simp [rfind] at h
  | cons x xs ih =>
    cases hr : rfind c xs with
    | none =>
      by_cases hx : x = c
      · simp [rfind, hr, hx] at h
        exact ⟨[], xs, by simp [hx], (rfind_eq_none_iff c xs).mp hr, by simpa using h⟩
      · simp [rfind, hr, hx] at h
    | some k =>
      simp only [rfind, hr, Option.some.injEq] at h
      obtain ⟨l, b, hs, hb, hl⟩ := ih k hr
      exact ⟨x :: l, b, by simp [hs], hb, by simp [hl, h]⟩

/-- Splitting one list in two ways: the shorter left part is a left part of
the longer one. -/
theorem split_between (c d : Char) (a r l b : Str) (h : a ++ c :: r = l ++ d :: b)
    (hlt : a.length < l.length) : ∃ mid, l = a ++ c :: mid ∧ r = mid ++ d :: b := by
  induction a generalizing l with
  | nil =>
    cases l with
    | nil => simp at hlt
    | cons y ys =>
      simp only [List.nil_append, List.cons_append, List.cons.injEq] at h
      exact ⟨ys, by simp [h.1], h.2⟩
  | cons x xs ih =>
    cases l with
    | nil => simp at hlt
    | cons y ys =>
      simp only [List.cons_append, List.cons.injEq] at h
      have hlt2 : xs.length < ys.length := by simpa using hlt
      obtain ⟨mid, h1, h2⟩ := ih ys h.2 hlt2
      exact ⟨mid, by simp [h.1, h1], h2⟩

theorem substr_between (a mid b : Str) (c d : Char) :
    substr (a ++ c :: mid ++ d :: b) (a.length + 1) ((a ++ c :: mid).length - a.length - 1)
      = .ok mid := by
  have hle : ¬ a.length + 1 > (a ++ c :: mid ++ d :: b).length := by
    simp only [List.length_append, List.length_cons]; omega
  have hdrop : List.drop (a.length + 1) (a ++ c :: mid ++ d :: b) = mid ++ d :: b := by
    have : a ++ c :: mid ++ d :: b = (a ++ [c]) ++ (mid ++ d :: b) := by simp
    rw [this, List.drop_append_of_le_length (by simp)]
    simp
  have hlen : (a ++ c :: mid).length - a.length - 1 = mid.length := by
    simp only [List.length_append, List.length_cons]; omega
  simp only [substr, hle, if_false, hdrop, hlen]
  simp

theorem delimitedText_between (c d : Char) (a mid b : Str) (ha : c ∉ a) (hb : d ∉ b) :
    delimitedText c d (a ++ c :: mid ++ d :: b) = some (.ok mid) := by
  have hf : find c (a ++ c :: mid ++ d :: b) = some a.length := by
    have : a ++ c :: mid ++ d :: b = a ++ c :: (mid ++ d :: b) := by simp
    rw [this]; exact find_append_cons c a _ ha
  have hr : rfind d (a ++ c :: mid ++ d :: b) = some (a ++ c :: mid).length :=
    rfind_append_cons d (a ++ c :: mid) b hb
  have hgt : (a ++ c :: mid).length > a.length := by simp
  simp only [delimitedText, hf, hr, hgt, if_true]
  rw [substr_between]

theorem delimitedText_cases (c d : Char) (arg : Str) :
    delimitedText c d arg = none ∨
      ∃ a mid b, arg = a ++ c :: mid ++ d :: b ∧ c ∉ a ∧ d ∉ b ∧
        delimitedText c d arg = some (.ok mid) := by
  cases hf : find c arg with
  | none => left; simp [delimitedText, hf]
  | some i =>
    cases hr : rfind d arg with
    | none => left; simp [delimitedText, hf, hr]
    | some j =>
      by_cases hlt : j > i
      · right
        obtain ⟨a, r, hs, ha, hal⟩ := find_eq_some c arg i hf
        obtain ⟨l, b, hs2, hb, hll⟩ := rfind_eq_some d arg j hr
        have hlen : a.length < l.length := by omega
        obtain ⟨mid, hl, _⟩ := split_between c d a r l b (hs ▸ hs2) hlen
        have harg : arg = a ++ c :: mid ++ d :: b := by rw [hs2, hl]
        exact ⟨a, mid, b, harg, ha, hb, harg ▸ delimitedText_between c d a mid b ha hb⟩
      · left; simp [delimitedText, hf, hr, hlt]

theorem delimitedText_of_not_mem (c d : Char) (arg : Str) (h : d ∉ arg) :
    delimitedText c d arg = none := by
  have hr := (rfind_eq_none_iff d arg).mpr h
  cases hf : find c arg <;> simp [delimitedText, hf, hr]

theorem quotedText_of_count_lt (arg : Str) (h : arg.count '"' < 2) : quotedText arg = none := by
  rcases delimitedText_cases '"' '"' arg with h0 | ⟨a, mid, b, harg, _, _, _⟩
  · exact h0
  · exfalso
    rw [harg] at h
    simp only [List.count_append, List.count_cons_self] at h
    omega

theorem find_first_not_of_lt (set s : Str) (i : Nat) (h : find_first_not_of set s = some i) :
    i < s.length := by
  induction s generalizing i with
  | nil => simp [find_first_not_of] at h
  | cons x xs ih =>
    by_cases hx : x ∈ set
    · simp only [find_first_not_of, hx, if_true, Option.map_eq_some'] at h
      obtain ⟨k, hk, rfl⟩ := h
      have := ih k hk
      simp only [List.length_cons]; omega
    · simp only [find_first_not_of, hx, if_false, Option.some.injEq] at h
      simp only [List.length_cons]; omega

/-- Where a first character outside `set` exists, a last one exists too: in
`TrimWhitespace` the position `end` is not `npos` once `start` is not. -/
theorem find_last_not_of_isSome (set s : Str) (i : Nat)
    (h : find_first_not_of set s = some i) : (find_last_not_of set s).isSome = true := by
  induction s generalizing i with
  | nil => simp [find_first_not_of] at h
  | cons x xs ih =>
    cases hl : find_last_not_of set xs with
    | some j => simp [find_last_not_of, hl]
    | none =>
      by_cases hx : x ∈ set
      · simp only [find_first_not_of, hx, if_true, Option.map_eq_some'] at h
        obtain ⟨k, hk, _⟩ := h
        have := ih k hk
        rw [hl] at this
        exact absurd this (by simp)
      · simp [find_last_not_of, hl, hx]

/-- The routine `TrimWhitespace` never throws: its `substr` starts inside the string. -/
theorem TrimWhitespace_ok (str : Str) : ∃ t, TrimWhitespace str = .ok t := by
  cases hf : find_first_not_of whitespaceChars str with
  | none => exact ⟨[], by simp [TrimWhitespace, hf]⟩
  | some i =>
    have hlt := find_first_not_of_lt _ _ _ hf
    have hle : ¬ i > str.length := by omega
    exact ⟨((str.drop i).take ((find_last_not_of whitespaceChars str).getD 0 - i + 1)),
      by simp only [TrimWhitespace, hf, substr, hle, if_false]⟩

/-! ## The argument loop -/

theorem forEachArg_append {α : Type} (body : Str → α → Outcome α) (xs ys : List Str) (e : α) :
    forEachArg body (xs ++ ys) e =
      match forEachArg body xs e with
      | ⟨e1, none⟩ => forEachArg body ys e1
      | ⟨e1, some ex⟩ => ⟨e1, some ex⟩ := by
  induction xs generalizing e with
  | nil => simp [forEachArg]
  | cons x xs ih =>
    rcases hb : body x e with ⟨e1, _ | ex⟩
    · simp [forEachArg, hb, ih]
    · simp [forEachArg, hb]

theorem forEachArg_thrown {α : Type} (body : Str → α → Outcome α)
    (hbody : ∀ arg e, (body arg e).thrown = none) (args : List Str) (e : α) :
    (forEachArg body args e).thrown = none := by
  induction args generalizing e with
  | nil => simp [forEachArg]
  | cons x xs ih =>
    rcases hb : body x e with ⟨e1, _ | ex⟩
    · simp [forEachArg, hb, ih]
    · have := hbody x e
      rw [hb] at this
      simp at this

theorem quotedText_ok (arg : Str) :
    quotedText arg = none ∨ ∃ t, quotedText arg = some (.ok t) := by
  rcases delimitedText_cases '"' '"' arg with h | ⟨_, mid, _, _, _, _, h⟩
  · exact Or.inl h
  · exact Or.inr ⟨mid, h⟩

theorem parenText_ok (arg : Str) :
    parenText arg = none ∨ ∃ t, parenText arg = some (.ok t) := by
  rcases delimitedText_cases '(' ')' arg with h | ⟨_, mid, _, _, _, _, h⟩
  · exact Or.inl h
  · exact Or.inr ⟨mid, h⟩

/-- Two texts of which neither starts the other are not both at the start
of one argument. -/
theorem not_prefix_of_incomparable (p q arg : Str) (h1 : ¬ p <+: q) (h2 : ¬ q <+: p)
    (hp : p <+: arg) : ¬ findStr q arg = some 0 := by
  rw [findStr_eq_zero_iff]
  intro hq
  rcases List.prefix_or_prefix_of_prefix hp hq with h | h
  · exact h1 h
  · exact h2 h

/-- An argument that starts with a text a keyword does not start with is not
that keyword. -/
theorem ne_of_startsWith (p kw arg : Str) (h : ¬ p <+: kw) (hp : p <+: arg) : ¬ arg = kw := by
  rintro rfl
  exact h hp

/-! ## One iteration of each flag parser -/

theorem findStr_ne_zero_of_not_isPrefixOf (pat arg : Str) (h : pat.isPrefixOf arg = false) :
    ¬ findStr pat arg = some 0 := by
  rw [findStr_eq_zero_iff]
  intro hp
  rw [List.isPrefixOf_iff_prefix.mpr hp] at h
  exact Bool.noConfusion h

theorem PropertyFlag_flags (arg : Str) (p : PropertyInfo) :
    (PropertyFlag arg p).state.save = (p.save || decide (arg = "Save".toList)) ∧
    (PropertyFlag arg p).state.edit = (p.edit || decide (arg = "Edit".toList)) ∧
    (PropertyFlag arg p).state.transient = (p.transient || decide (arg = "Transient".toList)) ∧
    (PropertyFlag arg p).state.editorOnly
      = (p.editorOnly || decide (arg = "EditorOnly".toList)) ∧
    (PropertyFlag arg p).state.readOnly = (p.readOnly || decide (arg = "ReadOnly".toList)) := by
  unfold PropertyFlag
  by_cases h1 : arg = "Save".toList
  · rw [if_pos h1]; subst h1; simp +decide
  rw [if_neg h1]
  by_cases h2 : arg = "Edit".toList
  · rw [if_pos h2]; subst h2; simp +decide
  rw [if_neg h2]
  by_cases h3 : arg = "Transient".toList
  · rw [if_pos h3]; subst h3; simp +decide
  rw [if_neg h3]
  by_cases h4 : arg = "EditorOnly".toList
  · rw [if_pos h4]; subst h4; simp +decide
  rw [if_neg h4]
  by_cases h5 : arg = "ReadOnly".toList
  · rw [if_pos h5]; subst h5; simp +decide
  rw [if_neg h5]
  simp only [h1, h2, h3, h4, h5, decide_False, Bool.or_false]
  repeat' split
  all_goals simp only [and_self]

theorem PropertyFlag_thrown (arg : Str) (p : PropertyInfo) :
    (PropertyFlag arg p).thrown = none := by
  unfold PropertyFlag
  by_cases h1 : arg = "Save".toList
  · rw [if_pos h1]
  rw [if_neg h1]
  by_cases h2 : arg = "Edit".toList
  · rw [if_pos h2]
  rw [if_neg h2]
  by_cases h3 : arg = "Transient".toList
  · rw [if_pos h3]
  rw [if_neg h3]
  by_cases h4 : arg = "EditorOnly".toList
  · rw [if_pos h4]
  rw [if_neg h4]
  by_cases h5 : arg = "ReadOnly".toList
  · rw [if_pos h5]
  rw [if_neg h5]
  by_cases h6 : findStr "Category(".toList arg = some 0
  · rw [if_pos h6]
    rcases quotedText_ok arg with hq | ⟨q, hq⟩ <;> simp only [hq]
  rw [if_neg h6]
  by_cases h7 : findStr "Clamp(".toList arg = some 0
  · rw [if_pos h7]
    rcases parenText_ok arg with hq | ⟨q, hq⟩
    · simp only [hq]
    · simp only [hq]
      split
      · rename_i a0 a1 _ _
        obtain ⟨t0, h0⟩ := TrimWhitespace_ok a0
        obtain ⟨t1, h1⟩ := TrimWhitespace_ok a1
        simp only [h0, h1]
      · rfl
  rw [if_neg h7]
  by_cases h8 : findStr "Default(".toList arg = some 0
  · rw [if_pos h8]
    rcases parenText_ok arg with hq | ⟨q, hq⟩ <;> simp only [hq]
  rw [if_neg h8]
  by_cases h9 : findStr "Tooltip(".toList arg = some 0
  · rw [if_pos h9]
    rcases quotedText_ok arg with hq | ⟨q, hq⟩ <;> simp only [hq]
  rw [if_neg h9]

theorem PropertyFlag_unknown (arg : Str) (p : PropertyInfo) (h : isPropertyToken arg = false) :
    PropertyFlag arg p = ⟨p, none⟩ := by
  simp only [isPropertyToken, Bool.or_eq_false_iff, decide_eq_false_iff_not] at h
  obtain ⟨⟨⟨⟨⟨⟨⟨⟨h1, h2⟩, h3⟩, h4⟩, h5⟩, h6⟩, h7⟩, h8⟩, h9⟩ := h
  unfold PropertyFlag
  rw [if_neg h1, if_neg h2, if_neg h3, if_neg h4, if_neg h5,
    if_neg (findStr_ne_zero_of_not_isPrefixOf _ _ h6),
    if_neg (findStr_ne_zero_of_not_isPrefixOf _ _ h7),
    if_neg (findStr_ne_zero_of_not_isPrefixOf _ _ h8),
    if_neg (findStr_ne_zero_of_not_isPrefixOf _ _ h9)]

theorem PropertyFlag_category (arg : Str) (p : PropertyInfo)
    (h : "Category(".toList <+: arg) :
    PropertyFlag arg p =
      match quotedText arg with
      | none => ⟨p, none⟩
      | some (.error ex) => ⟨p, some ex⟩
      | some (.ok text) => ⟨{ p with category := text }, none⟩ := by
  unfold PropertyFlag
  rw [if_neg (ne_of_startsWith _ _ _ (by decide) h), if_neg (ne_of_startsWith _ _ _ (by decide) h),
    if_neg (ne_of_startsWith _ _ _ (by decide) h), if_neg (ne_of_startsWith _ _ _ (by decide) h),
    if_neg (ne_of_startsWith _ _ _ (by decide) h), if_pos ((findStr_eq_zero_iff _ _).mpr h)]

theorem PropertyFlag_clamp (arg : Str) (p : PropertyInfo) (h : "Clamp(".toList <+: arg) :
    PropertyFlag arg p =
      match parenText arg with
      | none => ⟨p, none⟩
      | some (.error ex) => ⟨p, some ex⟩
      | some (.ok clampText) =>
        match SplitString clampText ',' with
        | a0 :: a1 :: _ =>
          match TrimWhitespace a0 with
          | .error ex => ⟨p, some ex⟩
          | .ok lo =>
            match TrimWhitespace a1 with
            | .error ex => ⟨{ p with clampMin := lo }, some ex⟩
            | .ok hi => ⟨{ p with clampMin := lo, clampMax := hi }, none⟩
        | _ => ⟨p, none⟩ := by
  unfold PropertyFlag
  rw [if_neg (ne_of_startsWith _ _ _ (by decide) h), if_neg (ne_of_startsWith _ _ _ (by decide) h),
    if_neg (ne_of_startsWith _ _ _ (by decide) h), if_neg (ne_of_startsWith _ _ _ (by decide) h),
    if_neg (ne_of_startsWith _ _ _ (by decide) h),
    if_neg (not_prefix_of_incomparable _ _ _ (by decide) (by decide) h),
    if_pos ((findStr_eq_zero_iff _ _).mpr h)]

theorem PropertyFlag_default (arg : Str) (p : PropertyInfo) (h : "Default(".toList <+: arg) :
    PropertyFlag arg p =
      match parenText arg with
      | none => ⟨p, none⟩
      | some (.error ex) => ⟨p, some ex⟩
      | some (.ok text) => ⟨{ p with defaultValue := text }, none⟩ := by
  unfold PropertyFlag
  rw [if_neg (ne_of_startsWith _ _ _ (by decide) h), if_neg (ne_of_startsWith _ _ _ (by decide) h),
    if_neg (ne_of_startsWith _ _ _ (by decide) h), if_neg (ne_of_startsWith _ _ _ (by decide) h),
    if_neg (ne_of_startsWith _ _ _ (by decide) h),
    if_neg (not_prefix_of_incomparable _ _ _ (by decide) (by decide) h),
    if_neg (not_prefix_of_incomparable _ _ _ (by decide) (by decide) h),
    if_pos ((findStr_eq_zero_iff _ _).mpr h)]

theorem PropertyFlag_tooltip (arg : Str) (p : PropertyInfo) (h : "Tooltip(".toList <+: arg) :
    PropertyFlag arg p =
      match quotedText arg with
      | none => ⟨p, none⟩
      | some (.error ex) => ⟨p, some ex⟩
      | some (.ok text) => ⟨{ p with tooltip := text }, none⟩ := by
  unfold PropertyFlag
  rw [if_neg (ne_of_startsWith _ _ _ (by decide) h), if_neg (ne_of_startsWith _ _ _ (by decide) h),
    if_neg (ne_of_startsWith _ _ _ (by decide) h), if_neg (ne_of_startsWith _ _ _ (by decide) h),
    if_neg (ne_of_startsWith _ _ _ (by decide) h),
    if_neg (not_prefix_of_incomparable _ _ _ (by decide) (by decide) h),
    if_neg (not_prefix_of_incomparable _ _ _ (by decide) (by decide) h),
    if_neg (not_prefix_of_incomparable _ _ _ (by decide) (by decide) h),
    if_pos ((findStr_eq_zero_iff _ _).mpr h)]

theorem FunctionFlag_flags (arg : Str) (f : FunctionInfo) :
    (FunctionFlag arg f).state.callable = (f.callable || decide (arg = "Callable".toList)) ∧
    (FunctionFlag arg f).state.blueprintEvent
      = (f.blueprintEvent || decide (arg = "BlueprintEvent".toList)) ∧
    (FunctionFlag arg f).state.blueprintCallable
      = (f.blueprintCallable || decide (arg = "BlueprintCallable".toList)) := by
  unfold FunctionFlag
  by_cases h1 : arg = "Callable".toList
  · rw [if_pos h1]; subst h1; simp +decide
  rw [if_neg h1]
  by_cases h2 : arg = "BlueprintEvent".toList
  · rw [if_pos h2]; subst h2; simp +decide
  rw [if_neg h2]
  by_cases h3 : arg = "BlueprintCallable".toList
  · rw [if_pos h3]; subst h3; simp +decide
  rw [if_neg h3]
  simp only [h1, h2, h3, decide_False, Bool.or_false]
  repeat' split
  all_goals simp only [and_self]

theorem FunctionFlag_thrown (arg : Str) (f : FunctionInfo) :
    (FunctionFlag arg f).thrown = none := by
  unfold FunctionFlag
  by_cases h1 : arg = "Callable".toList
  · rw [if_pos h1]
  rw [if_neg h1]
  by_cases h2 : arg = "BlueprintEvent".toList
  · rw [if_pos h2]
  rw [if_neg h2]
  by_cases h3 : arg = "BlueprintCallable".toList
  · rw [if_pos h3]
  rw [if_neg h3]
  by_cases h6 : findStr "Category(".toList arg = some 0
  · rw [if_pos h6]
    rcases quotedText_ok arg with hq | ⟨q, hq⟩ <;> simp only [hq]
  rw [if_neg h6]
  by_cases h9 : findStr "Tooltip(".toList arg = some 0
  · rw [if_pos h9]
    rcases quotedText_ok arg with hq | ⟨q, hq⟩ <;> simp only [hq]
  rw [if_neg h9]

theorem FunctionFlag_unknown (arg : Str) (f : FunctionInfo) (h : isFunctionToken arg = false) :
    FunctionFlag arg f = ⟨f, none⟩ := by
  simp only [isFunctionToken, Bool.or_eq_false_iff, decide_eq_false_iff_not] at h
  obtain ⟨⟨⟨⟨h1, h2⟩, h3⟩, h4⟩, h5⟩ := h
  unfold FunctionFlag
  rw [if_neg h1, if_neg h2, if_neg h3,
    if_neg (findStr_ne_zero_of_not_isPrefixOf _ _ h4),
    if_neg (findStr_ne_zero_of_not_isPrefixOf _ _ h5)]

theorem FunctionFlag_category (arg : Str) (f : FunctionInfo)
    (h : "Category(".toList <+: arg) :
    FunctionFlag arg f =
      match quotedText arg with
      | none => ⟨f, none⟩
      | some (.error ex) => ⟨f, some ex⟩
      | some (.ok text) => ⟨{ f with category := text }, none⟩ := by
  unfold FunctionFlag
  rw [if_neg (ne_of_startsWith _ _ _ (by decide) h), if_neg (ne_of_startsWith _ _ _ (by decide) h),
    if_neg (ne_of_startsWith _ _ _ (by decide) h), if_pos ((findStr_eq_zero_iff _ _).mpr h)]

theorem FunctionFlag_tooltip (arg : Str) (f : FunctionInfo) (h : "Tooltip(".toList <+: arg) :
    FunctionFlag arg f =
      match quotedText arg with
      | none => ⟨f, none⟩
      | some (.error ex) => ⟨f, some ex⟩
      | some (.ok text) => ⟨{ f with tooltip := text }, none⟩ := by
  unfold FunctionFlag
  rw [if_neg (ne_of_startsWith _ _ _ (by decide) h), if_neg (ne_of_startsWith _ _ _ (by decide) h),
    if_neg (ne_of_startsWith _ _ _ (by decide) h),
    if_neg (not_prefix_of_incomparable _ _ _ (by decide) (by decide) h),
    if_pos ((findStr_eq_zero_iff _ _).mpr h)]

/-! ## `stoul` on a run of decimal digits -/

theorem isspace_of_isDigit (c : Char) (h : c.isDigit = true) : isspace c = false := by
  cases hs : isspace c with
  | false => rfl
  | true =>
    exfalso
    simp only [isspace, Bool.or_eq_true, decide_eq_true_eq] at hs
    rcases hs with ((((rfl | rfl) | rfl) | rfl) | rfl) | rfl <;> exact absurd h (by decide)

theorem signOf_of_isDigit (c : Char) (cs : Str) (h : c.isDigit = true) :
    signOf (c :: cs) = (false, c :: cs) := by
  unfold signOf
  split
  · rename_i heq
    simp only [List.cons.injEq] at heq
    rw [heq.1] at h
    exact absurd h (by decide)
  · rename_i heq
    simp only [List.cons.injEq] at heq
    rw [heq.1] at h
    exact absurd h (by decide)
  · rfl

theorem stoul_digits (w : Nat) (ds : Str) (hne : ds ≠ [])
    (hd : ∀ c ∈ ds, c.isDigit = true) (hlt : digitsValue ds < 2 ^ w) :
    stoul w ds = .ok (digitsValue ds) := by
  cases ds with
  | nil => exact absurd rfl hne
  | cons c cs =>
    have hc : c.isDigit = true := hd c (by simp)
    have hdrop : List.dropWhile isspace (c :: cs) = c :: cs := by
      simp [List.dropWhile, isspace_of_isDigit c hc]
    have htake : List.takeWhile Char.isDigit (c :: cs) = c :: cs :=
      List.takeWhile_eq_self_iff.mpr hd
    have hge : ¬ digitsValue (c :: cs) ≥ 2 ^ w := by omega
    simp only [stoul, hdrop, signOf_of_isDigit c cs hc, htake, hge, if_false]
    simp

theorem digitsValue_append (xs ys : Str) :
    digitsValue (xs ++ ys) = ys.foldl (fun acc c => 10 * acc + (c.toNat - 48)) (digitsValue xs) := by
  simp [digitsValue, List.foldl_append]

theorem digitChar_isDigit (k : Nat) (h : k < 10) :
    (Nat.digitChar k).isDigit = true ∧ (Nat.digitChar k).toNat - 48 = k := by
  interval_cases k <;> exact ⟨by decide, by decide⟩

theorem toDigitsCore_decimal (fuel n : Nat) (ds : Str) (h : n < fuel) :
    ∃ pre, Nat.toDigitsCore 10 fuel n ds = pre ++ ds ∧ pre ≠ [] ∧
      (∀ c ∈ pre, c.isDigit = true) ∧ digitsValue pre = n := by
  induction fuel generalizing n ds with
  | zero => omega
  | succ fuel ih =>
    have hd := digitChar_isDigit (n % 10) (Nat.mod_lt n (by omega))
    by_cases hq : n / 10 = 0
    · refine ⟨[Nat.digitChar (n % 10)], by simp [Nat.toDigitsCore, hq], by simp, ?_, ?_⟩
      · intro c hc
        rw [List.mem_singleton.mp hc]; exact hd.1
      · simp only [digitsValue, List.foldl_cons, List.foldl_nil, hd.2]
        omega
    · have hlt : n / 10 < fuel := by omega
      obtain ⟨pre, hpre, _, hall, hval⟩ := ih (n / 10) (Nat.digitChar (n % 10) :: ds) hlt
      refine ⟨pre ++ [Nat.digitChar (n % 10)], by simp [Nat.toDigitsCore, hq, hpre], by simp,
        ?_, ?_⟩
      · intro c hc
        rcases List.mem_append.mp hc with h1 | h1
        · exact hall c h1
        · rw [List.mem_singleton.mp h1]; exact hd.1
      · rw [digitsValue_append, hval]
        simp only [List.foldl_cons, List.foldl_nil, hd.2]
        omega

/-- The decimal digits of `n`, as `Nat.repr` prints them, are a non-empty run
of digit characters of value `n`. -/
theorem toDigits_decimal (n : Nat) :
    Nat.toDigits 10 n ≠ [] ∧ (∀ c ∈ Nat.toDigits 10 n, c.isDigit = true) ∧
      digitsValue (Nat.toDigits 10 n) = n := by
  obtain ⟨pre, hpre, hne, hall, hval⟩ := toDigitsCore_decimal (n + 1) n [] (by omega)
  have : Nat.toDigits 10 n = pre := by simpa [Nat.toDigits] using hpre
  rw [this]
  exact ⟨hne, hall, hval⟩

/-! ## One iteration of `ParseClassFlags` -/

theorem ClassFlag_flags (w : Nat) (arg : Str) (c : ClassInfo) :
    (ClassFlag w arg c).state.blueprintable
      = (c.blueprintable || decide (arg = "Blueprintable".toList)) ∧
    (ClassFlag w arg c).state.serializable
      = (c.serializable || decide (arg = "Serializable".toList)) ∧
    (ClassFlag w arg c).state.abstract = (c.abstract || decide (arg = "Abstract".toList)) ∧
    (ClassFlag w arg c).state.defaultToInstanced
      = (c.defaultToInstanced || decide (arg = "DefaultToInstanced".toList)) := by
  unfold ClassFlag
  by_cases h1 : arg = "Blueprintable".toList
  · rw [if_pos h1]; subst h1; simp +decide
  rw [if_neg h1]
  by_cases h2 : arg = "Serializable".toList
  · rw [if_pos h2]; subst h2; simp +decide
  rw [if_neg h2]
  by_cases h3 : arg = "Abstract".toList
  · rw [if_pos h3]; subst h3; simp +decide
  rw [if_neg h3]
  by_cases h4 : arg = "DefaultToInstanced".toList
  · rw [if_pos h4]; subst h4; simp +decide
  rw [if_neg h4]
  simp only [h1, h2, h3, h4, decide_False, Bool.or_false]
  repeat' split
  all_goals simp only [and_self]

theorem ClassFlag_unknown (w : Nat) (arg : Str) (c : ClassInfo) (h : isClassToken arg = false) :
    ClassFlag w arg c = ⟨c, none⟩ := by
  simp only [isClassToken, Bool.or_eq_false_iff, decide_eq_false_iff_not] at h
  obtain ⟨⟨⟨⟨h1, h2⟩, h3⟩, h4⟩, h5⟩ := h
  unfold ClassFlag
  rw [if_neg h1, if_neg h2, if_neg h3, if_neg h4,
    if_neg (findStr_ne_zero_of_not_isPrefixOf _ _ h5)]

/-- A token that does not start with `Version=` never throws and leaves the
version alone. -/
theorem ClassFlag_not_version (w : Nat) (arg : Str) (c : ClassInfo)
    (h : ¬ "Version=".toList <+: arg) :
    (ClassFlag w arg c).thrown = none ∧ (ClassFlag w arg c).state.version = c.version := by
  have h5 : ¬ findStr "Version=".toList arg = some 0 := fun e => h ((findStr_eq_zero_iff _ _).mp e)
  unfold ClassFlag
  rw [if_neg h5]
  repeat' split
  all_goals exact ⟨rfl, rfl⟩

/-- A token `Version=` ++ `r`: the version is whatever `stoul` makes of `r`. -/
theorem ClassFlag_version (w : Nat) (r : Str) (c : ClassInfo) :
    ClassFlag w ("Version=".toList ++ r) c =
      match stoul w r with
      | .error ex => ⟨c, some ex⟩
      | .ok v => ⟨{ c with version := v % 2 ^ 32 }, none⟩ := by
  have h : "Version=".toList <+: "Version=".toList ++ r := List.prefix_append _ _
  have hsub : substrFrom ("Version=".toList ++ r) 8 = .ok r := by
    have hlen : ¬ 8 > ("Version=".toList ++ r).length := by
      simp only [List.length_append]
      have : "Version=".toList.length = 8 := by decide
      omega
    have hdrop : List.drop 8 ("Version=".toList ++ r) = r :=
      List.drop_left' (by decide)
    simp only [substrFrom, hlen, if_false, hdrop]
  unfold ClassFlag
  rw [if_neg (ne_of_startsWith _ _ _ (by decide) h), if_neg (ne_of_startsWith _ _ _ (by decide) h),
    if_neg (ne_of_startsWith _ _ _ (by decide) h), if_neg (ne_of_startsWith _ _ _ (by decide) h),
    if_pos ((findStr_eq_zero_iff _ _).mpr h)]
  simp only [hsub]

/-! ## Facts about the loops -/

theorem forEachArg_flag {α : Type} (body : Str → α → Outcome α) (flag : α → Bool) (kw : Str)
    (hstep : ∀ arg e, flag (body arg e).state = (flag e || decide (arg = kw)))
    (args : List Str) (e : α) (hok : (forEachArg body args e).thrown = none) :
    flag (forEachArg body args e).state = true ↔ (flag e = true ∨ kw ∈ args) := by
  induction args generalizing e with
  | nil => simp [forEachArg]
  | cons x xs ih =>
    rcases hb : body x e with ⟨e1, _ | ex⟩
    · have hs := hstep x e
      rw [hb] at hs
      simp only [forEachArg, hb] at hok ⊢
      rw [ih e1 hok, hs]
      simp only [Bool.or_eq_true, decide_eq_true_eq, List.mem_cons]
      constructor
      · rintro ((h | h) | h)
        · exact Or.inl h
        · exact Or.inr (Or.inl h.symm)
        · exact Or.inr (Or.inr h)
      · rintro (h | h | h)
        · exact Or.inl (Or.inl h)
        · exact Or.inl (Or.inr h.symm)
        · exact Or.inr h
    · simp [forEachArg, hb] at hok

theorem forEachArg_filter {α : Type} (body : Str → α → Outcome α) (keep : Str → Bool)
    (hskip : ∀ arg e, keep arg = false → body arg e = ⟨e, none⟩) (args : List Str) (e : α) :
    forEachArg body (args.filter keep) e = forEachArg body args e := by
  induction args generalizing e with
  | nil => rfl
  | cons x xs ih =>
    cases hk : keep x with
    | false =>
      rw [List.filter_cons_of_neg (by simp [hk])]
      simp only [forEachArg, hskip x e hk]
      exact ih e
    | true =>
      rw [List.filter_cons_of_pos hk]
      rcases hb : body x e with ⟨e1, _ | ex⟩
      · simp only [forEachArg, hb]
        exact ih e1
      · simp only [forEachArg, hb]

theorem getline_length (d : Char) (s item rest : Str) (h : getline d s = some (item, rest)) :
    rest.length < s.length := by
  induction s generalizing item rest with
  | nil => simp [getline] at h
  | cons x xs ih =>
    by_cases hx : x = d
    · simp only [getline, hx, if_true, Option.some.injEq, Prod.mk.injEq] at h
      rw [← h.2]; simp
    · simp only [getline, hx, if_false] at h
      cases hg : getline d xs with
      | none =>
        simp only [hg, Option.some.injEq, Prod.mk.injEq] at h
        rw [← h.2]; simp
      | some pr =>
        obtain ⟨it, rs⟩ := pr
        simp only [hg, Option.some.injEq, Prod.mk.injEq] at h
        have := ih it rs hg
        rw [← h.2]
        simp only [List.length_cons]; omega

/-- More iterations than the stream has characters change nothing: the loop
of `SplitString` has stopped by itself before the bound is reached. -/
theorem SplitStringLoop_fuel (d : Char) (fuel1 fuel2 : Nat) (s : Str)
    (h1 : s.length < fuel1) (h2 : s.length < fuel2) :
    SplitStringLoop d fuel1 s = SplitStringLoop d fuel2 s := by
  induction fuel1 generalizing fuel2 s with
  | zero => omega
  | succ f1 ih =>
    cases fuel2 with
    | zero => omega
    | succ f2 =>
      cases hg : getline d s with
      | none => simp [SplitStringLoop, hg]
      | some pr =>
        obtain ⟨item, rest⟩ := pr
        have hlt := getline_length d s item rest hg
        simp only [SplitStringLoop, hg]
        rw [ih f2 rest (by omega) (by omega)]

/-! ## The serialize routine -/

theorem writtenProperties_writeProperties (ps : List PropertyInfo) :
    writtenProperties (writeProperties ps) = ps.filter (fun p => p.save && !p.transient) := by
  induction ps with
  | nil => rfl
  | cons p ps ih =>
    by_cases h : p.save = true ∧ p.transient = false
    · have hf : (p.save && !p.transient) = true := by simp [h.1, h.2]
      simp only [writeProperties, h, and_self, if_true, writtenProperties, ih]
      rw [List.filter_cons_of_pos (by simpa using hf)]
    · have hf : ¬ (p.save && !p.transient) = true := by
        intro hc
        apply h
        simpa using hc
      simp only [writeProperties, h, if_false, ih]
      rw [List.filter_cons_of_neg (by simpa using hf)]

theorem mem_writeProperties (ps : List PropertyInfo) (p : PropertyInfo)
    (h : SerializeStmt.writeProperty p ∈ writeProperties ps) :
    p ∈ ps ∧ p.save = true ∧ p.transient = false := by
  induction ps with
  | nil => simp [writeProperties] at h
  | cons q qs ih =>
    by_cases hq : q.save = true ∧ q.transient = false
    · simp only [writeProperties, hq, and_self, if_true, List.mem_cons,
        SerializeStmt.writeProperty.injEq] at h
      rcases h with rfl | h
      · exact ⟨by simp, hq.1, hq.2⟩
      · have := ih h
        exact ⟨List.mem_cons_of_mem _ this.1, this.2⟩
    · simp only [writeProperties, hq, if_false] at h
      have := ih h
      exact ⟨List.mem_cons_of_mem _ this.1, this.2⟩

/-! ## `ParseClassFlags` and the version -/

theorem ParseClassFlags_no_version (w : Nat) (args : List Str) (c : ClassInfo)
    (h : ∀ tok ∈ args, ¬ "Version=".toList <+: tok) :
    (ParseClassFlags w args c).thrown = none ∧
      (ParseClassFlags w args c).state.version = c.version := by
  unfold ParseClassFlags
  induction args generalizing c with
  | nil => exact ⟨rfl, rfl⟩
  | cons x xs ih =>
    have hx := ClassFlag_not_version w x c (h x (by simp))
    rcases hb : ClassFlag w x c with ⟨c1, _ | ex⟩
    · rw [hb] at hx
      simp only [forEachArg, hb]
      have := ih c1 (fun tok ht => h tok (List.mem_cons_of_mem _ ht))
      exact ⟨this.1, this.2.trans hx.2⟩
    · rw [hb] at hx
      exact absurd hx.1 (by simp)

theorem ClassFlag_version_token (w : Nat) (tok : Str) (m : Nat) (hm : m < 2 ^ w)
    (h : IsVersionToken tok m) (c : ClassInfo) :
    ClassFlag w tok c = ⟨{ c with version := m % 2 ^ 32 }, none⟩ := by
  obtain ⟨ds, rfl, hne, hd, hv⟩ := h
  have hst : stoul w ds = .ok m := by
    rw [← hv]
    exact stoul_digits w ds hne hd (by omega)
  rw [ClassFlag_version, hst]

theorem ParseClassFlags_wellformed (w : Nat) (args : List Str) (c : ClassInfo)
    (h : ∀ tok ∈ args, "Version=".toList <+: tok → ∃ m, m < 2 ^ w ∧ IsVersionToken tok m) :
    (ParseClassFlags w args c).thrown = none := by
  unfold ParseClassFlags
  induction args generalizing c with
  | nil => rfl
  | cons x xs ih =>
    have hxs : ∀ tok ∈ xs, "Version=".toList <+: tok → ∃ m, m < 2 ^ w ∧ IsVersionToken tok m :=
      fun tok ht => h tok (List.mem_cons_of_mem _ ht)
    by_cases hv : "Version=".toList <+: x
    · obtain ⟨m, hm, hx⟩ := h x (by simp) hv
      simp only [forEachArg, ClassFlag_version_token w x m hm hx c]
      exact ih _ hxs
    · have hx := ClassFlag_not_version w x c hv
      rcases hb : ClassFlag w x c with ⟨c1, _ | ex⟩
      · simp only [forEachArg, hb]
        exact ih c1 hxs
      · rw [hb] at hx
        exact absurd hx.1 (by simp)

theorem ParseClassFlags_parsable (w : Nat) (args : List Str) (c : ClassInfo)
    (h : ∀ tok ∈ args, ∀ r, tok = "Version=".toList ++ r → ∃ v, stoul w r = .ok v) :
    (ParseClassFlags w args c).thrown = none := by
  unfold ParseClassFlags
  induction args generalizing c with
  | nil => rfl
  | cons x xs ih =>
    have hxs : ∀ tok ∈ xs, ∀ r, tok = "Version=".toList ++ r → ∃ v, stoul w r = .ok v :=
      fun tok ht => h tok (List.mem_cons_of_mem _ ht)
    by_cases hv : "Version=".toList <+: x
    · obtain ⟨r, rfl⟩ := hv
      obtain ⟨v, hst⟩ := h _ (by simp) r rfl
      simp only [forEachArg, ClassFlag_version, hst]
      exact ih _ hxs
    · have hx := ClassFlag_not_version w x c hv
      rcases hb : ClassFlag w x c with ⟨c1, _ | ex⟩
      · simp only [forEachArg, hb]
        exact ih c1 hxs
      · rw [hb] at hx
        exact absurd hx.1 (by simp)

/-- A token on which the body does nothing can be dropped from the list. -/
theorem forEachArg_skip {α : Type} (body : Str → α → Outcome α) (tok : Str)
    (hskip : ∀ e, body tok e = ⟨e, none⟩) (before after : List Str) (e : α) :
    forEachArg body (before ++ tok :: after) e = forEachArg body (before ++ after) e := by
  rw [forEachArg_append, forEachArg_append]
  rcases forEachArg body before e with ⟨e1, _ | ex⟩
  · simp only [forEachArg, hskip e1]
  · rfl

theorem quotedText_of_two_le_count (tok : Str) (h : 2 ≤ tok.count '"') :
    ∃ a mid b, tok = a ++ '"' :: mid ++ '"' :: b ∧ '"' ∉ a ∧ '"' ∉ b ∧
      quotedText tok = some (.ok mid) := by
  rcases delimitedText_cases '"' '"' tok with h0 | ⟨a, mid, b, h1, h2, h3, h4⟩
  · exfalso
    cases hf : find '"' tok with
    | none =>
      have := List.count_eq_zero.mpr ((find_eq_none_iff _ _).mp hf)
      omega
    | some i =>
      cases hr : rfind '"' tok with
      | none =>
        have := List.count_eq_zero.mpr ((rfind_eq_none_iff _ _).mp hr)
        omega
      | some j =>
        obtain ⟨a, r, hs, ha, hal⟩ := find_eq_some _ _ _ hf
        obtain ⟨l, b, hs2, hb, hll⟩ := rfind_eq_some _ _ _ hr
        by_cases hgt : j > i
        · simp [delimitedText, hf, hr, hgt] at h0
        · by_cases hlt : l.length < a.length
          · obtain ⟨mid, hl, _⟩ := split_between '"' '"' l b a r (hs2 ▸ hs) hlt
            exact ha (by simp [hl])
          · have hlen : a.length = l.length := by omega
            have happ : a ++ '"' :: r = l ++ '"' :: b := hs ▸ hs2
            have hal2 := List.append_inj happ hlen
            have hrb : r = b := by
              have := hal2.2
              simp only [List.cons.injEq, true_and] at this
              exact this
            have hca : List.count '"' a = 0 := List.count_eq_zero.mpr ha
            have hcb : List.count '"' b = 0 := List.count_eq_zero.mpr hb
            rw [hs, hrb] at h
            simp only [List.count_append, List.count_cons_self, hca, hcb] at h
            omega
  · exact ⟨a, mid, b, h1, h2, h3, h4⟩

/-- A metadata token whose closing delimiter is missing does nothing in
`ParsePropertyFlags`. -/
theorem PropertyFlag_unbalanced (tok : Str) (p : PropertyInfo)
    (h : (("Category(".toList <+: tok ∨ "Tooltip(".toList <+: tok) ∧ tok.count '"' < 2) ∨
      (("Clamp(".toList <+: tok ∨ "Default(".toList <+: tok) ∧ ')' ∉ tok)) :
    PropertyFlag tok p = ⟨p, none⟩ := by
  rcases h with ⟨h1 | h1, hq⟩ | ⟨h1 | h1, hq⟩
  · rw [PropertyFlag_category tok p h1, quotedText_of_count_lt tok hq]
  · rw [PropertyFlag_tooltip tok p h1, quotedText_of_count_lt tok hq]
  · have hp : parenText tok = none := delimitedText_of_not_mem '(' ')' tok hq
    rw [PropertyFlag_clamp tok p h1, hp]
  · have hp : parenText tok = none := delimitedText_of_not_mem '(' ')' tok hq
    rw [PropertyFlag_default tok p h1, hp]

/-- The same tokens do nothing in `ParseFunctionFlags`: `Clamp(` and
`Default(` are not part of the function grammar at all. -/
theorem FunctionFlag_unbalanced (tok : Str) (f : FunctionInfo)
    (h : (("Category(".toList <+: tok ∨ "Tooltip(".toList <+: tok) ∧ tok.count '"' < 2) ∨
      (("Clamp(".toList <+: tok ∨ "Default(".toList <+: tok) ∧ ')' ∉ tok)) :
    FunctionFlag tok f = ⟨f, none⟩ := by
  rcases h with ⟨h1 | h1, hq⟩ | ⟨h1 | h1, _⟩
  · rw [FunctionFlag_category tok f h1, quotedText_of_count_lt tok hq]
  · rw [FunctionFlag_tooltip tok f h1, quotedText_of_count_lt tok hq]
  · unfold FunctionFlag
    rw [if_neg (ne_of_startsWith _ _ _ (by decide) h1), if_neg (ne_of_startsWith _ _ _ (by decide) h1),
      if_neg (ne_of_startsWith _ _ _ (by decide) h1),
      if_neg (not_prefix_of_incomparable _ _ _ (by decide) (by decide) h1),
      if_neg (not_prefix_of_incomparable _ _ _ (by decide) (by decide) h1)]
  · unfold FunctionFlag
    rw [if_neg (ne_of_startsWith _ _ _ (by decide) h1), if_neg (ne_of_startsWith _ _ _ (by decide) h1),
      if_neg (ne_of_startsWith _ _ _ (by decide) h1),
      if_neg (not_prefix_of_incomparable _ _ _ (by decide) (by decide) h1),
      if_neg (not_prefix_of_incomparable _ _ _ (by decide) (by decide) h1)]

/-! ## The claims -/

/-- C1 (code at the failing input): `ParseMacroArguments` cuts the
annotation `Save, Clamp(0,100), Category("Stats")` at every comma, into the
four tokens `Save`, `Clamp(0`, `100)`, `Category("Stats")`, and
`ParsePropertyFlags` on these tokens sets `save` and `category = "Stats"` but
leaves `clampMin` and `clampMax` empty: `Clamp` does not arrive as a single
token and the clamp range `("0", "100")` is not recorded. -/
theorem C1_comma_nesting_loses_clamp :
    ParseMacroArguments commaNestingText
      = .ok ["Save".toList, "Clamp(0".toList, "100)".toList, "Category(\"Stats\")".toList] ∧
    ParsePropertyFlags
        ["Save".toList, "Clamp(0".toList, "100)".toList, "Category(\"Stats\")".toList] {}
      = ⟨{ save := true, category := "Stats".toList }, none⟩ ∧
    (ParsePropertyFlags
        ["Save".toList, "Clamp(0".toList, "100)".toList, "Category(\"Stats\")".toList]
        {}).state.clampMin = [] ∧
    (ParsePropertyFlags
        ["Save".toList, "Clamp(0".toList, "100)".toList, "Category(\"Stats\")".toList]
        {}).state.clampMax = [] := by
  refine ⟨rfl, by decide, by decide, by decide⟩

/-- C2 (code at the failing input): the argument texts `Clamp(0,100)` and
`Tooltip("a, b")` have balanced parentheses and quotes and no comma outside
parentheses and quotes, yet `ParseMacroArguments` returns two tokens for
each (`Clamp(0` and `100)`; `Tooltip("a` and `b")`): it splits at nested
commas too. -/
theorem C2_tokenizer_splits_nested_commas :
    specBalanced "Clamp(0,100)".toList 0 false = true ∧
    specTopLevelCommas "Clamp(0,100)".toList 0 false = 0 ∧
    ParseMacroArguments "GPROPERTY(Clamp(0,100))".toList
      = .ok ["Clamp(0".toList, "100)".toList] ∧
    specBalanced "Tooltip(\"a, b\")".toList 0 false = true ∧
    specTopLevelCommas "Tooltip(\"a, b\")".toList 0 false = 0 ∧
    ParseMacroArguments "GPROPERTY(Tooltip(\"a, b\"))".toList
      = .ok ["Tooltip(\"a".toList, "b\")".toList] := by
  refine ⟨by decide, by decide, rfl, by decide, by decide, rfl⟩

/-- C3 (code at the failing input): for the class `Player` of the scenario
the qualified name is `Game::Player` and `VisitCXXMethodDecl` records
`TakeDamage` with parameters [amount], parameter types [int] and callable
set, as the claim says; but `VisitFieldDecl` records `health` with save and
edit set and with `clampMin` and `clampMax` empty, not "0" and "100": the
annotation text is never read. -/
theorem C3_end_to_end_clamp_not_recorded :
    GetQualifiedName (some playerDecl) = "Game::Player".toList ∧
    VisitFieldDecl (some { name := "Player".toList }) (some healthDecl)
      = some { name := "Player".toList,
               properties := [{ name := "health".toList, type := "int".toList,
                                qualifiedType := "int".toList, save := true, edit := true,
                                clampMin := [], clampMax := [],
                                fileName := "Player.h".toList, lineNumber := 12 }] } ∧
    VisitCXXMethodDecl (some { name := "Player".toList }) (some takeDamageDecl)
      = some { name := "Player".toList,
               functions := [{ name := "TakeDamage".toList, returnType := "void".toList,
                               parameters := ["amount".toList],
                               parameterTypes := ["int".toList], callable := true,
                               fileName := "Player.h".toList, lineNumber := 15 }] } := by
  refine ⟨by decide, by decide, by decide⟩

/-- C4: for a serializable class the emitted serialize routine writes, in
declaration order, exactly the properties with `save` set and `transient`
clear, and it writes no property whose `transient` flag is set, whatever its
other flags. -/
theorem C4_serialize_writes_saved_non_transient (c : ClassInfo)
    (hs : c.serializable = true) :
    writtenProperties (WriteSerializationCode c)
      = c.properties.filter (fun p => p.save && !p.transient) ∧
    (∀ p : PropertyInfo, p.transient = true →
      SerializeStmt.writeProperty p ∉ WriteSerializationCode c) := by
  constructor
  · simp only [WriteSerializationCode, hs, if_true, writtenProperties]
    exact writtenProperties_writeProperties c.properties
  · intro p hp hmem
    simp only [WriteSerializationCode, hs, if_true, List.mem_cons] at hmem
    rcases hmem with h | h
    · exact SerializeStmt.noConfusion h
    · have := (mem_writeProperties c.properties p h).2.2
      rw [hp] at this
      exact Bool.noConfusion this

/-- C4 at a sample class: of three properties only the saved, non-transient
one is written. -/
theorem C4_serialize_witness :
    serializeSample.serializable = true ∧
    writtenProperties (WriteSerializationCode serializeSample)
      = [{ name := "kept".toList, save := true }] :=
  ⟨rfl, (C4_serialize_writes_saved_non_transient serializeSample rfl).1.trans (by decide)⟩

/-- C5: after a successful `ParseClassFlags`, and after any
`ParsePropertyFlags` or `ParseFunctionFlags`, each boolean flag is set
exactly when it was set before or its keyword is one of the tokens; the
comparison is on the whole token, so `BlueprintCallable` alone leaves
`callable` clear. -/
theorem C5_flag_set_iff_keyword (w : Nat) (cargs pargs fargs : List Str) (c : ClassInfo)
    (p : PropertyInfo) (f : FunctionInfo) (hc : (ParseClassFlags w cargs c).thrown = none) :
    (((ParseClassFlags w cargs c).state.blueprintable = true ↔
        (c.blueprintable = true ∨ "Blueprintable".toList ∈ cargs)) ∧
     ((ParseClassFlags w cargs c).state.serializable = true ↔
        (c.serializable = true ∨ "Serializable".toList ∈ cargs)) ∧
     ((ParseClassFlags w cargs c).state.abstract = true ↔
        (c.abstract = true ∨ "Abstract".toList ∈ cargs)) ∧
     ((ParseClassFlags w cargs c).state.defaultToInstanced = true ↔
        (c.defaultToInstanced = true ∨ "DefaultToInstanced".toList ∈ cargs))) ∧
    ((ParsePropertyFlags pargs p).thrown = none ∧
     ((ParsePropertyFlags pargs p).state.save = true ↔
        (p.save = true ∨ "Save".toList ∈ pargs)) ∧
     ((ParsePropertyFlags pargs p).state.edit = true ↔
        (p.edit = true ∨ "Edit".toList ∈ pargs)) ∧
     ((ParsePropertyFlags pargs p).state.transient = true ↔
        (p.transient = true ∨ "Transient".toList ∈ pargs)) ∧
     ((ParsePropertyFlags pargs p).state.editorOnly = true ↔
        (p.editorOnly = true ∨ "EditorOnly".toList ∈ pargs)) ∧
     ((ParsePropertyFlags pargs p).state.readOnly = true ↔
        (p.readOnly = true ∨ "ReadOnly".toList ∈ pargs))) ∧
    ((ParseFunctionFlags fargs f).thrown = none ∧
     ((ParseFunctionFlags fargs f).state.callable = true ↔
        (f.callable = true ∨ "Callable".toList ∈ fargs)) ∧
     ((ParseFunctionFlags fargs f).state.blueprintEvent = true ↔
        (f.blueprintEvent = true ∨ "BlueprintEvent".toList ∈ fargs)) ∧
     ((ParseFunctionFlags fargs f).state.blueprintCallable = true ↔
        (f.blueprintCallable = true ∨ "BlueprintCallable".toList ∈ fargs))) ∧
    (ParseFunctionFlags ["BlueprintCallable".toList] {}).state.callable = false := by
  have hp : (ParsePropertyFlags pargs p).thrown = none :=
    forEachArg_thrown PropertyFlag PropertyFlag_thrown pargs p
  have hf : (ParseFunctionFlags fargs f).thrown = none :=
    forEachArg_thrown FunctionFlag FunctionFlag_thrown fargs f
  refine ⟨⟨?_, ?_, ?_, ?_⟩, ⟨hp, ?_, ?_, ?_, ?_, ?_⟩, ⟨hf, ?_, ?_, ?_⟩, by decide⟩
  · exact forEachArg_flag (ClassFlag w) (fun e => e.blueprintable) _
      (fun a e => (ClassFlag_flags w a e).1) cargs c hc
  · exact forEachArg_flag (ClassFlag w) (fun e => e.serializable) _
      (fun a e => (ClassFlag_flags w a e).2.1) cargs c hc
  · exact forEachArg_flag (ClassFlag w) (fun e => e.abstract) _
      (fun a e => (ClassFlag_flags w a e).2.2.1) cargs c hc
  · exact forEachArg_flag (ClassFlag w) (fun e => e.defaultToInstanced) _
      (fun a e => (ClassFlag_flags w a e).2.2.2) cargs c hc
  · exact forEachArg_flag PropertyFlag (fun e => e.save) _
      (fun a e => (PropertyFlag_flags a e).1) pargs p hp
  · exact forEachArg_flag PropertyFlag (fun e => e.edit) _
      (fun a e => (PropertyFlag_flags a e).2.1) pargs p hp
  · exact forEachArg_flag PropertyFlag (fun e => e.transient) _
      (fun a e => (PropertyFlag_flags a e).2.2.1) pargs p hp
  · exact forEachArg_flag PropertyFlag (fun e => e.editorOnly) _
      (fun a e => (PropertyFlag_flags a e).2.2.2.1) pargs p hp
  · exact forEachArg_flag PropertyFlag (fun e => e.readOnly) _
      (fun a e => (PropertyFlag_flags a e).2.2.2.2) pargs p hp
  · exact forEachArg_flag FunctionFlag (fun e => e.callable) _
      (fun a e => (FunctionFlag_flags a e).1) fargs f hf
  · exact forEachArg_flag FunctionFlag (fun e => e.blueprintEvent) _
      (fun a e => (FunctionFlag_flags a e).2.1) fargs f hf
  · exact forEachArg_flag FunctionFlag (fun e => e.blueprintCallable) _
      (fun a e => (FunctionFlag_flags a e).2.2) fargs f hf

/-- C5 at concrete token lists: `Abstract` among class tokens that parse
sets `abstract`, and `Serializable` not among them leaves `serializable`
clear. -/
theorem C5_flag_set_iff_keyword_witness :
    (ParseClassFlags 64 ["Abstract".toList, "Version=2".toList, "Other".toList] {}).thrown
      = none ∧
    (ParseClassFlags 64 ["Abstract".toList, "Version=2".toList, "Other".toList]
      {}).state.abstract = true ∧
    ¬ (ParseClassFlags 64 ["Abstract".toList, "Version=2".toList, "Other".toList]
      {}).state.serializable = true :=
  ⟨by decide,
   (C5_flag_set_iff_keyword 64 ["Abstract".toList, "Version=2".toList, "Other".toList]
      ["Save".toList] ["Callable".toList] {} {} {} (by decide)).1.2.2.1.mpr
      (Or.inr (by decide)),
   fun h => absurd
     ((C5_flag_set_iff_keyword 64 ["Abstract".toList, "Version=2".toList, "Other".toList]
        ["Save".toList] ["Callable".toList] {} {} {} (by decide)).1.2.1.mp h)
     (by decide)⟩

/-- C6: for `n < 2^32`, when every `Version=` token of the list is
`Version=` followed by an unsigned integer (one that fits `unsigned long`,
of `w >= 32` bits) and the last of them is `Version=` followed by the
decimal digits of `n`, `ParseClassFlags` returns normally with
`version = n`; a list without a `Version=` token leaves the version as it
was, which is 1 on a default `ClassInfo`. -/
theorem C6_version_of_last_token (w : Nat) (hw : 32 ≤ w) (n : Nat) (hn : n < 2 ^ 32)
    (before after : List Str) (c : ClassInfo)
    (hbefore : ∀ tok ∈ before, "Version=".toList <+: tok →
      ∃ m, m < 2 ^ w ∧ IsVersionToken tok m)
    (hafter : ∀ tok ∈ after, ¬ "Version=".toList <+: tok) :
    (ParseClassFlags w (before ++ ("Version=".toList ++ Nat.toDigits 10 n) :: after)
      c).thrown = none ∧
    (ParseClassFlags w (before ++ ("Version=".toList ++ Nat.toDigits 10 n) :: after)
      c).state.version = n ∧
    (ParseClassFlags w after c).state.version = c.version ∧
    (ParseClassFlags w after {}).state.version = 1 := by
  have htok : IsVersionToken ("Version=".toList ++ Nat.toDigits 10 n) n :=
    ⟨Nat.toDigits 10 n, rfl, (toDigits_decimal n).1, (toDigits_decimal n).2.1,
      (toDigits_decimal n).2.2⟩
  have hle : 2 ^ 32 ≤ 2 ^ w := Nat.pow_le_pow_right (by omega) hw
  have hnw : n < 2 ^ w := by omega
  have hmod : n % 2 ^ 32 = n := Nat.mod_eq_of_lt hn
  have h1 := ParseClassFlags_wellformed w before c hbefore
  have hsplit : ParseClassFlags w (before ++ ("Version=".toList ++ Nat.toDigits 10 n) :: after) c
      = ParseClassFlags w after { (ParseClassFlags w before c).state with version := n } := by
    unfold ParseClassFlags at h1 ⊢
    rw [forEachArg_append]
    rcases hb : forEachArg (ClassFlag w) before c with ⟨c1, _ | ex⟩
    · simp only [forEachArg, ClassFlag_version_token w _ n hnw htok c1, hmod]
    · rw [hb] at h1
      exact absurd h1 (by simp)
  have h2 := ParseClassFlags_no_version w after
    { (ParseClassFlags w before c).state with version := n } hafter
  refine ⟨?_, ?_, (ParseClassFlags_no_version w after c hafter).2,
    (ParseClassFlags_no_version w after {} hafter).2⟩
  · rw [hsplit]
    exact h2.1
  · rw [hsplit]
    exact h2.2

/-- C6 at a concrete list: `Version=2`, then `Version=7`, then a flag. -/
theorem C6_version_of_last_token_witness :
    (ParseClassFlags 64 ["Version=2".toList, "Version=7".toList, "Abstract".toList]
      {}).state.version = 7 :=
  (C6_version_of_last_token 64 (by decide) 7 (by decide) ["Version=2".toList]
    ["Abstract".toList] {}
    (fun tok ht _ => by
      rw [List.mem_singleton.mp ht]
      exact ⟨2, by decide, "2".toList, by decide, by decide, by decide, by decide⟩)
    (fun tok ht => by
      rw [List.mem_singleton.mp ht]
      decide)).2.1

/-- C7: when the tokens before it all parse and the text after `Version=`
is one `std::stoul` rejects, `ParseClassFlags` leaves with that exception at
this token; the `ClassInfo` is then exactly what parsing the earlier tokens
alone gives (so the flags they name are set) and does not depend on the
tokens that follow. `Version=abc` and `Version=` are such tokens. -/
theorem C7_malformed_version_stops_parsing (w : Nat) (before after : List Str) (r : Str)
    (ex : Exception) (c : ClassInfo)
    (hbefore : ∀ tok ∈ before, ∀ r1, tok = "Version=".toList ++ r1 → ∃ v, stoul w r1 = .ok v)
    (hbad : stoul w r = .error ex) :
    ParseClassFlags w (before ++ ("Version=".toList ++ r) :: after) c
      = ⟨(ParseClassFlags w before c).state, some ex⟩ ∧
    (ParseClassFlags w before c).thrown = none ∧
    ("Blueprintable".toList ∈ before →
      (ParseClassFlags w (before ++ ("Version=".toList ++ r) :: after) c).state.blueprintable
        = true) ∧
    ("Serializable".toList ∈ before →
      (ParseClassFlags w (before ++ ("Version=".toList ++ r) :: after) c).state.serializable
        = true) ∧
    ("Abstract".toList ∈ before →
      (ParseClassFlags w (before ++ ("Version=".toList ++ r) :: after) c).state.abstract
        = true) ∧
    ("DefaultToInstanced".toList ∈ before →
      (ParseClassFlags w (before ++ ("Version=".toList ++ r) :: after)
        c).state.defaultToInstanced = true) ∧
    stoul w "abc".toList = .error .invalid_argument ∧
    stoul w [] = .error .invalid_argument := by
  have h1 := ParseClassFlags_parsable w before c hbefore
  have hsplit : ParseClassFlags w (before ++ ("Version=".toList ++ r) :: after) c
      = ⟨(ParseClassFlags w before c).state, some ex⟩ := by
    unfold ParseClassFlags at h1 ⊢
    rw [forEachArg_append]
    rcases hb : forEachArg (ClassFlag w) before c with ⟨c1, _ | ex1⟩
    · simp only [forEachArg, ClassFlag_version, hbad]
    · rw [hb] at h1
      exact absurd h1 (by simp)
  refine ⟨hsplit, h1, ?_, ?_, ?_, ?_, rfl, rfl⟩
  · intro hm
    rw [hsplit]
    exact (forEachArg_flag (ClassFlag w) (fun e => e.blueprintable) _
      (fun a e => (ClassFlag_flags w a e).1) before c h1).mpr (Or.inr hm)
  · intro hm
    rw [hsplit]
    exact (forEachArg_flag (ClassFlag w) (fun e => e.serializable) _
      (fun a e => (ClassFlag_flags w a e).2.1) before c h1).mpr (Or.inr hm)
  · intro hm
    rw [hsplit]
    exact (forEachArg_flag (ClassFlag w) (fun e => e.abstract) _
      (fun a e => (ClassFlag_flags w a e).2.2.1) before c h1).mpr (Or.inr hm)
  · intro hm
    rw [hsplit]
    exact (forEachArg_flag (ClassFlag w) (fun e => e.defaultToInstanced) _
      (fun a e => (ClassFlag_flags w a e).2.2.2) before c h1).mpr (Or.inr hm)

/-- C7 at a concrete list: `Abstract`, `Version=abc`, `Serializable` stops
at the second token with `abstract` set and `serializable` clear. -/
theorem C7_malformed_version_stops_parsing_witness :
    ParseClassFlags 64 ["Abstract".toList, "Version=abc".toList, "Serializable".toList] {}
      = ⟨{ abstract := true }, some .invalid_argument⟩ :=
  (C7_malformed_version_stops_parsing 64 ["Abstract".toList] ["Serializable".toList]
    "abc".toList .invalid_argument {}
    (fun tok ht r1 hr => by
      rw [List.mem_singleton.mp ht] at hr
      exact absurd hr (by
        intro hc
        have := congrArg List.head? hc
        simp at this))
    rfl).1

/-- C8 (the claim fails here): the tokens `Clamp(0`, `Default(1` and
`Category("abc`, each after one flag keyword, are passed over without any
error; the outcome is the one of the flag keyword alone. -/
theorem C8_unbalanced_token_reports_nothing :
    ParsePropertyFlags ["Save".toList, "Clamp(0".toList] {} = ⟨{ save := true }, none⟩ ∧
    ParsePropertyFlags ["Save".toList, "Default(1".toList] {} = ⟨{ save := true }, none⟩ ∧
    ParsePropertyFlags ["Save".toList, "Category(\"abc".toList] {}
      = ⟨{ save := true }, none⟩ ∧
    ParseFunctionFlags ["Callable".toList, "Category(\"abc".toList] {}
      = ⟨{ callable := true }, none⟩ := by
  refine ⟨by decide, by decide, by decide, by decide⟩

/-- C8 as amended: a `Category(` or `Tooltip(` token with fewer than two
double quotes, and a `Clamp(` or `Default(` token without a closing
parenthesis, is passed over silently by `ParsePropertyFlags` and by
`ParseFunctionFlags`: no error is reported, and the outcome is the one of
the list without that token, so the tokens before it keep their effect and
the tokens after it are still applied. -/
theorem C8_unbalanced_token_skipped (before after : List Str) (tok : Str) (p : PropertyInfo)
    (f : FunctionInfo)
    (h : (("Category(".toList <+: tok ∨ "Tooltip(".toList <+: tok) ∧ tok.count '"' < 2) ∨
      (("Clamp(".toList <+: tok ∨ "Default(".toList <+: tok) ∧ ')' ∉ tok)) :
    ParsePropertyFlags (before ++ tok :: after) p = ParsePropertyFlags (before ++ after) p ∧
    (ParsePropertyFlags (before ++ tok :: after) p).thrown = none ∧
    ParseFunctionFlags (before ++ tok :: after) f = ParseFunctionFlags (before ++ after) f ∧
    (ParseFunctionFlags (before ++ tok :: after) f).thrown = none :=
  ⟨forEachArg_skip PropertyFlag tok (fun e => PropertyFlag_unbalanced tok e h) before after p,
   forEachArg_thrown PropertyFlag PropertyFlag_thrown _ p,
   forEachArg_skip FunctionFlag tok (fun e => FunctionFlag_unbalanced tok e h) before after f,
   forEachArg_thrown FunctionFlag FunctionFlag_thrown _ f⟩

/-- C8 as amended, at a concrete list: `Clamp(0` between `Save` and `Edit`
is skipped. -/
theorem C8_unbalanced_token_skipped_witness :
    ParsePropertyFlags ["Save".toList, "Clamp(0".toList, "Edit".toList] {}
      = ParsePropertyFlags ["Save".toList, "Edit".toList] {} :=
  (C8_unbalanced_token_skipped ["Save".toList] ["Edit".toList] "Clamp(0".toList {} {}
    (Or.inr ⟨Or.inl (by decide), by decide⟩)).1

/-- C9: for each of the three parsers, removing from the token list every
token the grammar does not recognise leaves the outcome (entity and error
state) unchanged; on such a token one iteration changes nothing and raises
nothing. In particular `Save, FutureFlag` on a default `PropertyInfo` gives
`save = true`, every other field at its default, and no error. -/
theorem C9_unknown_tokens_ignored (w : Nat) (cargs pargs fargs : List Str) (c : ClassInfo)
    (p : PropertyInfo) (f : FunctionInfo) :
    ParseClassFlags w (cargs.filter isClassToken) c = ParseClassFlags w cargs c ∧
    ParsePropertyFlags (pargs.filter isPropertyToken) p = ParsePropertyFlags pargs p ∧
    ParseFunctionFlags (fargs.filter isFunctionToken) f = ParseFunctionFlags fargs f ∧
    (∀ tok, isClassToken tok = false → ParseClassFlags w [tok] c = ⟨c, none⟩) ∧
    (∀ tok, isPropertyToken tok = false → ParsePropertyFlags [tok] p = ⟨p, none⟩) ∧
    (∀ tok, isFunctionToken tok = false → ParseFunctionFlags [tok] f = ⟨f, none⟩) ∧
    isPropertyToken "FutureFlag".toList = false ∧
    ParsePropertyFlags ["Save".toList, "FutureFlag".toList] {} = ⟨{ save := true }, none⟩ := by
  refine ⟨?_, ?_, ?_, ?_, ?_, ?_, by decide, by decide⟩
  · exact forEachArg_filter (ClassFlag w) isClassToken
      (fun a e h => ClassFlag_unknown w a e h) cargs c
  · exact forEachArg_filter PropertyFlag isPropertyToken
      (fun a e h => PropertyFlag_unknown a e h) pargs p
  · exact forEachArg_filter FunctionFlag isFunctionToken
      (fun a e h => FunctionFlag_unknown a e h) fargs f
  · intro tok h
    simp only [ParseClassFlags, forEachArg, ClassFlag_unknown w tok c h]
  · intro tok h
    simp only [ParsePropertyFlags, forEachArg, PropertyFlag_unknown tok p h]
  · intro tok h
    simp only [ParseFunctionFlags, forEachArg, FunctionFlag_unknown tok f h]

/-- C9 at concrete lists: the unknown tokens `Future` and `Other(1)` drop
out of a class, a property and a function token list. -/
theorem C9_unknown_tokens_ignored_witness :
    ParsePropertyFlags ["Future".toList, "Edit".toList, "Other(1)".toList] {}
      = ParsePropertyFlags ["Edit".toList] {} ∧
    ParseClassFlags 64 ["Future".toList] {} = ⟨{}, none⟩ :=
  ⟨((C9_unknown_tokens_ignored 64 [] ["Future".toList, "Edit".toList, "Other(1)".toList] []
      {} {} {}).2.1).symm,
   (C9_unknown_tokens_ignored 64 [] [] [] {} {} {}).2.2.2.1 "Future".toList (by decide)⟩

/-- C10: a token that starts with `Category(` (resp. `Tooltip(`) and has at
least two double quotes splits as `a ++ " ++ mid ++ " ++ b` with no double
quote in `a` or `b`, and `ParsePropertyFlags` and `ParseFunctionFlags` on it
set `category` (resp. `tooltip`) to `mid`, inner quotes included, and
nothing else; with fewer than two double quotes the entity is unchanged. -/
theorem C10_quoted_text_between_first_and_last_quote (tok : Str) (p : PropertyInfo)
    (f : FunctionInfo) (h : "Category(".toList <+: tok ∨ "Tooltip(".toList <+: tok) :
    ("Category(".toList <+: tok → 2 ≤ tok.count '"' →
      ∃ a mid b, tok = a ++ '"' :: mid ++ '"' :: b ∧ '"' ∉ a ∧ '"' ∉ b ∧
        ParsePropertyFlags [tok] p = ⟨{ p with category := mid }, none⟩ ∧
        ParseFunctionFlags [tok] f = ⟨{ f with category := mid }, none⟩) ∧
    ("Tooltip(".toList <+: tok → 2 ≤ tok.count '"' →
      ∃ a mid b, tok = a ++ '"' :: mid ++ '"' :: b ∧ '"' ∉ a ∧ '"' ∉ b ∧
        ParsePropertyFlags [tok] p = ⟨{ p with tooltip := mid }, none⟩ ∧
        ParseFunctionFlags [tok] f = ⟨{ f with tooltip := mid }, none⟩) ∧
    (tok.count '"' < 2 →
      ParsePropertyFlags [tok] p = ⟨p, none⟩ ∧ ParseFunctionFlags [tok] f = ⟨f, none⟩) := by
  refine ⟨?_, ?_, ?_⟩
  · intro hc h2
    obtain ⟨a, mid, b, htok, ha, hb, hq⟩ := quotedText_of_two_le_count tok h2
    refine ⟨a, mid, b, htok, ha, hb, ?_, ?_⟩
    · simp only [ParsePropertyFlags, forEachArg, PropertyFlag_category tok p hc, hq]
    · simp only [ParseFunctionFlags, forEachArg, FunctionFlag_category tok f hc, hq]
  · intro hc h2
    obtain ⟨a, mid, b, htok, ha, hb, hq⟩ := quotedText_of_two_le_count tok h2
    refine ⟨a, mid, b, htok, ha, hb, ?_, ?_⟩
    · simp only [ParsePropertyFlags, forEachArg, PropertyFlag_tooltip tok p hc, hq]
    · simp only [ParseFunctionFlags, forEachArg, FunctionFlag_tooltip tok f hc, hq]
  · intro hlt
    constructor
    · simp only [ParsePropertyFlags, forEachArg,
        PropertyFlag_unbalanced tok p (Or.inl ⟨h, hlt⟩)]
    · simp only [ParseFunctionFlags, forEachArg,
        FunctionFlag_unbalanced tok f (Or.inl ⟨h, hlt⟩)]

/-- C10 at the token `Category("St"ats")`: some text between a first and a
last double quote becomes the category, and evaluating the parser shows it
is the text with the inner quote. -/
theorem C10_quoted_text_witness :
    (∃ a mid b, "Category(\"St\"ats\")".toList = a ++ '"' :: mid ++ '"' :: b ∧ '"' ∉ a ∧
      '"' ∉ b ∧
      ParsePropertyFlags ["Category(\"St\"ats\")".toList] {} = ⟨{ category := mid }, none⟩ ∧
      ParseFunctionFlags ["Category(\"St\"ats\")".toList] {} = ⟨{ category := mid }, none⟩) ∧
    ParsePropertyFlags ["Category(\"St\"ats\")".toList] {}
      = ⟨{ category := "St\"ats".toList }, none⟩ :=
  ⟨(C10_quoted_text_between_first_and_last_quote "Category(\"St\"ats\")".toList {} {}
      (Or.inl (by decide))).1 (by decide) (by decide),
   by decide⟩

/-! ## `TrimWhitespace` removes the surrounding whitespace -/

theorem find_first_not_of_append (set l rest : Str) (x : Char) (hl : ∀ c ∈ l, c ∈ set)
    (hx : x ∉ set) : find_first_not_of set (l ++ x :: rest) = some l.length := by
  induction l with
  | nil => simp [find_first_not_of, hx]
  | cons c cs ih =>
    have hc : c ∈ set := hl c (by simp)
    have hcs : ∀ c ∈ cs, c ∈ set := fun d hd => hl d (List.mem_cons_of_mem _ hd)
    simp [find_first_not_of, hc, ih hcs]

theorem find_first_not_of_all (set s : Str) (h : ∀ c ∈ s, c ∈ set) :
    find_first_not_of set s = none := by
  induction s with
  | nil => rfl
  | cons c cs ih =>
    have hc : c ∈ set := h c (by simp)
    have hcs : ∀ c ∈ cs, c ∈ set := fun d hd => h d (List.mem_cons_of_mem _ hd)
    simp [find_first_not_of, hc, ih hcs]

theorem find_last_not_of_all (set s : Str) (h : ∀ c ∈ s, c ∈ set) :
    find_last_not_of set s = none := by
  induction s with
  | nil => rfl
  | cons c cs ih =>
    have hc : c ∈ set := h c (by simp)
    have hcs : ∀ c ∈ cs, c ∈ set := fun d hd => h d (List.mem_cons_of_mem _ hd)
    simp [find_last_not_of, hc, ih hcs]

theorem find_last_not_of_append (set pre r : Str) (y : Char) (hy : y ∉ set)
    (hr : ∀ c ∈ r, c ∈ set) : find_last_not_of set (pre ++ y :: r) = some pre.length := by
  induction pre with
  | nil => simp [find_last_not_of, find_last_not_of_all set r hr, hy]
  | cons c cs ih => simp [find_last_not_of, ih]

/-- Every text is whitespace, then a core that neither starts nor ends with
whitespace, then whitespace. -/
theorem exists_trim (set s : Str) :
    ∃ l t r : Str, s = l ++ t ++ r ∧ (∀ c ∈ l, c ∈ set) ∧ (∀ c ∈ r, c ∈ set) ∧
      (∀ c, t.head? = some c → c ∉ set) ∧ (∀ c, t.getLast? = some c → c ∉ set) := by
  induction s with
  | nil => exact ⟨[], [], [], rfl, by simp, by simp, by simp, by simp⟩
  | cons x xs ih =>
    obtain ⟨l, t, r, hs, hl, hr, hh, hg⟩ := ih
    by_cases hx : x ∈ set
    · cases t with
      | nil =>
        -- all of `xs` is whitespace
        refine ⟨x :: l ++ r, [], [], by simp [hs], ?_, by simp, by simp, by simp⟩
        intro c hc
        simp only [List.cons_append, List.mem_cons, List.mem_append] at hc
        rcases hc with rfl | hc | hc
        · exact hx
        · exact hl c hc
        · exact hr c hc
      | cons y ys =>
        refine ⟨x :: l, y :: ys, r, by simp [hs], ?_, hr, hh, hg⟩
        intro c hc
        rcases List.mem_cons.mp hc with rfl | hc
        · exact hx
        · exact hl c hc
    · cases t with
      | nil =>
        refine ⟨[], [x], l ++ r, by simp [hs], by simp, ?_, ?_, ?_⟩
        · intro c hc
          rcases List.mem_append.mp hc with hc | hc
          · exact hl c hc
          · exact hr c hc
        · intro c hc
          simp only [List.head?_cons, Option.some.injEq] at hc
          exact hc ▸ hx
        · intro c hc
          simp only [List.getLast?_singleton, Option.some.injEq] at hc
          exact hc ▸ hx
      | cons y ys =>
        refine ⟨[], x :: l ++ y :: ys, r, by simp [hs], by simp, hr, ?_, ?_⟩
        · intro c hc
          simp only [List.cons_append, List.head?_cons, Option.some.injEq] at hc
          exact hc ▸ hx
        · intro c hc
          apply hg c
          have : x :: l ++ y :: ys = (x :: l) ++ (y :: ys) := rfl
          rw [this, List.getLast?_append_of_ne_nil _ (by simp)] at hc
          exact hc

theorem TrimWhitespace_of_parts (l t r : Str) (hl : ∀ c ∈ l, c ∈ whitespaceChars)
    (hr : ∀ c ∈ r, c ∈ whitespaceChars) (hh : ∀ c, t.head? = some c → c ∉ whitespaceChars)
    (hg : ∀ c, t.getLast? = some c → c ∉ whitespaceChars) :
    TrimWhitespace (l ++ t ++ r) = .ok t := by
  rcases List.eq_nil_or_concat t with rfl | ⟨pre, y, rfl⟩
  · have hall : ∀ c ∈ l ++ [] ++ r, c ∈ whitespaceChars := by
      intro c hc
      simp only [List.append_nil, List.mem_append] at hc
      rcases hc with hc | hc
      · exact hl c hc
      · exact hr c hc
    simp only [TrimWhitespace, find_first_not_of_all _ _ hall]
  · simp only [List.concat_eq_append] at hh hg ⊢
    have hy : y ∉ whitespaceChars := hg y (by simp)
    have hlast : find_last_not_of whitespaceChars (l ++ (pre ++ [y]) ++ r)
        = some (l ++ pre).length := by
      have : l ++ (pre ++ [y]) ++ r = (l ++ pre) ++ y :: r := by simp
      rw [this]
      exact find_last_not_of_append _ _ _ _ hy hr
    obtain ⟨x, m, hxm⟩ : ∃ x m, pre ++ [y] = x :: m := by
      cases pre with
      | nil => exact ⟨y, [], rfl⟩
      | cons a as => exact ⟨a, as ++ [y], rfl⟩
    have hx : x ∉ whitespaceChars := hh x (by rw [hxm]; rfl)
    have hfirst : find_first_not_of whitespaceChars (l ++ (pre ++ [y]) ++ r)
        = some l.length := by
      have : l ++ (pre ++ [y]) ++ r = l ++ x :: (m ++ r) := by rw [hxm]; simp
      rw [this]
      exact find_first_not_of_append _ _ _ _ hl hx
    have hle : ¬ l.length > (l ++ (pre ++ [y]) ++ r).length := by
      simp only [List.length_append]; omega
    have hdrop : List.drop l.length (l ++ (pre ++ [y]) ++ r) = (pre ++ [y]) ++ r := by
      rw [List.append_assoc, List.drop_left]
    have hlen : (l ++ pre).length - l.length + 1 = (pre ++ [y]).length := by
      simp only [List.length_append, List.length_singleton]; omega
    simp only [TrimWhitespace, hfirst, hlast, Option.getD_some, substr, hle, if_false, hdrop,
      hlen, List.take_left']

/-- The routine `TrimWhitespace` returns its argument with the surrounding
whitespace removed. -/
theorem TrimWhitespace_spec (s : Str) : ∃ t, TrimWhitespace s = .ok t ∧ IsTrimOf s t := by
  obtain ⟨l, t, r, hs, hl, hr, hh, hg⟩ := exists_trim whitespaceChars s
  exact ⟨t, hs ▸ TrimWhitespace_of_parts l t r hl hr hh hg, l, r, hs, hl, hr, hh, hg⟩

/-! ## `getline` and `SplitString` on a text with one delimiter -/

theorem getline_of_not_mem (d : Char) (s : Str) (hs : s ≠ []) (h : d ∉ s) :
    getline d s = some (s, []) := by
  induction s with
  | nil => exact absurd rfl hs
  | cons x xs ih =>
    have hx : ¬ x = d := fun e => h (by simp [e])
    have hxs : d ∉ xs := fun e => h (List.mem_cons_of_mem _ e)
    cases xs with
    | nil => simp [getline, hx]
    | cons y ys =>
      have e := ih (by simp) hxs
      rw [getline, if_neg hx, e]

theorem getline_append_delim (d : Char) (a b : Str) (h : d ∉ a) :
    getline d (a ++ d :: b) = some (a, b) := by
  induction a with
  | nil => simp [getline]
  | cons x xs ih =>
    have hx : ¬ x = d := fun e => h (by simp [e])
    have hxs : d ∉ xs := fun e => h (List.mem_cons_of_mem _ e)
    simp [getline, hx, ih hxs]

theorem SplitString_two (d : Char) (a b : Str) (ha : d ∉ a) (hb : d ∉ b) (hne : b ≠ []) :
    SplitString (a ++ d :: b) d = [a, b] := by
  obtain ⟨k, hk⟩ : ∃ k, (a ++ d :: b).length + 1 = k + 3 := by
    cases b with
    | nil => exact absurd rfl hne
    | cons y ys =>
      exact ⟨a.length + ys.length, by simp only [List.length_append, List.length_cons]; omega⟩
  rw [SplitString, hk]
  simp only [SplitStringLoop, getline_append_delim d a b ha, getline_of_not_mem d b hne hb,
    getline]

/-! ## The claims on `Clamp`, `Default`, names and types -/

theorem parenText_of_wrapped (head inner : Str) (h : '(' ∉ head) :
    parenText (head ++ '(' :: inner ++ [')']) = some (.ok inner) :=
  delimitedText_between '(' ')' head inner [] h (by simp)

/-- C11: for the single token `Clamp(` ++ `inner` ++ `)` on any
`PropertyInfo` (so also a default one): when the inner list splits into
exactly two sub-tokens `a` and `b`, `ParsePropertyFlags` sets `clampMin` to
`a` trimmed and `clampMax` to `b` trimmed and nothing else; when it splits
into fewer than two, the `PropertyInfo` is unchanged, so both stay empty on
a default one. An inner text `a,b` without further commas and with `b` not
empty has exactly the two sub-tokens `a` and `b`. -/
theorem C11_clamp_sub_tokens (inner : Str) (p : PropertyInfo) :
    (∀ a b : Str, SplitString inner ',' = [a, b] →
      ∃ lo hi : Str, IsTrimOf a lo ∧ IsTrimOf b hi ∧
        ParsePropertyFlags ["Clamp(".toList ++ inner ++ [')']] p
          = ⟨{ p with clampMin := lo, clampMax := hi }, none⟩) ∧
    ((SplitString inner ',').length < 2 →
      ParsePropertyFlags ["Clamp(".toList ++ inner ++ [')']] p = ⟨p, none⟩ ∧
      (ParsePropertyFlags ["Clamp(".toList ++ inner ++ [')']] {}).state.clampMin = [] ∧
      (ParsePropertyFlags ["Clamp(".toList ++ inner ++ [')']] {}).state.clampMax = []) ∧
    (∀ a b : Str, inner = a ++ ',' :: b → ',' ∉ a → ',' ∉ b → b ≠ [] →
      SplitString inner ',' = [a, b]) := by
  have hstart : "Clamp(".toList <+: "Clamp(".toList ++ inner ++ [')'] :=
    ⟨inner ++ [')'], by simp⟩
  have hpt : parenText ("Clamp(".toList ++ inner ++ [')']) = some (.ok inner) :=
    parenText_of_wrapped "Clamp".toList inner (by decide)
  refine ⟨?_, ?_, ?_⟩
  · intro a b hsplit
    obtain ⟨lo, hlo, hA⟩ := TrimWhitespace_spec a
    obtain ⟨hi, hhi, hB⟩ := TrimWhitespace_spec b
    refine ⟨lo, hi, hA, hB, ?_⟩
    simp only [ParsePropertyFlags, forEachArg, PropertyFlag_clamp _ _ hstart, hpt, hsplit, hlo,
      hhi]
  · intro hlt
    have hskip : ∀ q : PropertyInfo,
        ParsePropertyFlags ["Clamp(".toList ++ inner ++ [')']] q = ⟨q, none⟩ := by
      intro q
      rcases hs : SplitString inner ',' with _ | ⟨x, _ | ⟨y, ys⟩⟩
      · simp only [ParsePropertyFlags, forEachArg, PropertyFlag_clamp _ _ hstart, hpt, hs]
      · simp only [ParsePropertyFlags, forEachArg, PropertyFlag_clamp _ _ hstart, hpt, hs]
      · rw [hs] at hlt
        simp only [List.length_cons] at hlt
        omega
    exact ⟨hskip p, by rw [hskip], by rw [hskip]⟩
  · intro a b hinner ha hb hne
    rw [hinner]
    exact SplitString_two ',' a b ha hb hne

/-- C11 at the token `Clamp( 0 , 100 )`: the two sub-tokens are trimmed. -/
theorem C11_clamp_sub_tokens_witness :
    (∃ lo hi : Str, IsTrimOf " 0 ".toList lo ∧ IsTrimOf " 100 ".toList hi ∧
      ParsePropertyFlags ["Clamp( 0 , 100 )".toList] {}
        = ⟨{ clampMin := lo, clampMax := hi }, none⟩) ∧
    ParsePropertyFlags ["Clamp( 0 , 100 )".toList] {}
      = ⟨{ clampMin := "0".toList, clampMax := "100".toList }, none⟩ ∧
    ParsePropertyFlags ["Clamp(5,)".toList] {} = ⟨{}, none⟩ :=
  ⟨(C11_clamp_sub_tokens " 0 , 100 ".toList {}).1 " 0 ".toList " 100 ".toList (by decide),
   by decide,
   ((C11_clamp_sub_tokens "5,".toList {}).2.1 (by decide)).1⟩

/-- C12: for every text `v`, `ParsePropertyFlags` on the single token
`Default(` ++ `v` ++ `)` sets `defaultValue` to `v` itself, not trimmed and
not split, inner parentheses kept, and changes no other field. -/
theorem C12_default_verbatim (v : Str) (p : PropertyInfo) :
    ParsePropertyFlags ["Default(".toList ++ v ++ [')']] p
      = ⟨{ p with defaultValue := v }, none⟩ := by
  have hstart : "Default(".toList <+: "Default(".toList ++ v ++ [')'] :=
    ⟨v ++ [')'], by simp⟩
  have hpt : parenText ("Default(".toList ++ v ++ [')']) = some (.ok v) :=
    parenText_of_wrapped "Default".toList v (by decide)
  simp only [ParsePropertyFlags, forEachArg, PropertyFlag_default _ _ hstart, hpt]

theorem namespaceParts_eq_filterMap (contexts : List DeclContext) :
    namespaceParts contexts = contexts.filterMap fun context =>
      match context with
      | DeclContext.namespaceDecl name false => some name
      | _ => none := by
  induction contexts with
  | nil => rfl
  | cons c cs ih =>
    cases c with
    | other => simp [namespaceParts, ih]
    | namespaceDecl name anon =>
      cases anon <;> simp [namespaceParts, ih]

theorem foldl_scope_append (parts : List Str) (acc n : Str) :
    parts.foldl (fun qualifiedName part => qualifiedName ++ (part ++ "::".toList)) acc ++ n
      = acc ++ specQualifiedName parts n := by
  induction parts generalizing acc with
  | nil => rfl
  | cons part rest ih =>
    simp only [List.foldl_cons, ih, specQualifiedName, List.foldr_cons, List.append_assoc]

/-- C13: the qualified name `GetQualifiedName` builds for a declaration is
`s1 :: ... :: sk :: n`, where `n` is its short name and `s1 .. sk` are its
enclosing named namespaces, outermost first (anonymous namespaces and
contexts that are not namespaces skipped). Class `Foo` in namespace `A::B`
gives `A::B::Foo`; class `Foo` in no namespace gives `Foo`. -/
theorem C13_qualified_name_law (d : NamedDecl) :
    GetQualifiedName (some d) = specQualifiedName (specNamedNamespaces d.declContexts) d.name ∧
    GetQualifiedName (some { name := "Foo".toList,
                             declContexts := [DeclContext.namespaceDecl "B".toList false,
                                              DeclContext.namespaceDecl "A".toList false,
                                              DeclContext.other] })
      = "A::B::Foo".toList ∧
    GetQualifiedName (some { name := "Foo".toList, declContexts := [DeclContext.other] })
      = "Foo".toList := by
  refine ⟨?_, by decide, by decide⟩
  simp only [GetQualifiedName, foldl_scope_append, List.nil_append, specNamedNamespaces,
    List.filterMap_reverse, namespaceParts_eq_filterMap]

/-- While the brackets read so far are balanced, the loop variables of
`GetTypeAsString` are the bracket depth: `templateDepth` is the number of
open `<` and `inTemplate` says it is positive. -/
theorem cleanTypeName_eq_spec (s : Str) (depth : Nat) (h : specAngleBalanced s depth = true) :
    cleanTypeName s (decide (0 < depth)) (depth : Int) = specCleanTypeName s depth := by
  induction s generalizing depth with
  | nil => rfl
  | cons c cs ih =>
    by_cases h1 : c = '<'
    · subst h1
      have hb : specAngleBalanced cs (depth + 1) = true := by
        simpa [specAngleBalanced] using h
      have := ih (depth + 1) hb
      have hpos : decide (0 < depth + 1) = true := by simp
      rw [hpos, Nat.cast_succ] at this
      simp only [cleanTypeName, specCleanTypeName, if_true, this]
      simp
    · by_cases h2 : c = '>'
      · subst h2
        have hb : 0 < depth ∧ specAngleBalanced cs (depth - 1) = true := by
          simpa [specAngleBalanced] using h
        have := ih (depth - 1) hb.2
        have hcast : ((depth - 1 : Nat) : Int) = (depth : Int) - 1 := by omega
        have hin : (if (depth : Int) - 1 = 0 then false else decide (0 < depth))
            = decide (0 < depth - 1) := by
          by_cases hd : depth = 1
          · subst hd; simp
          · have h3 : ¬ ((depth : Int) - 1 = 0) := by omega
            have h4 : 0 < depth - 1 := by omega
            simp [h3, h4, hb.1]
        rw [hcast] at this
        have hne : ¬ ('>' = '<') := by decide
        have hsp : ¬ ('>' = ' ') := by decide
        simp only [cleanTypeName, specCleanTypeName, hne, if_false, if_true, hin, hsp, and_false,
          false_and, this]
      · have hb : specAngleBalanced cs depth = true := by
          simpa [specAngleBalanced, h1, h2] using h
        have := ih depth hb
        by_cases h3 : c = ' '
        · subst h3
          by_cases hd : depth = 0
          · subst hd
            simp only [cleanTypeName, specCleanTypeName, h1, h2, if_false] at this ⊢
            simpa using this
          · have hpos : 0 < depth := by omega
            simp only [hpos, decide_True] at this
            simp only [cleanTypeName, specCleanTypeName, h1, h2, if_false, hd, and_false,
              hpos, decide_True, Bool.true_eq_false, false_and, this]
        · simp only [cleanTypeName, specCleanTypeName, h1, h2, h3, if_false, and_false,
            false_and, this]

/-- C14: for a type spelling with balanced, properly nested angle brackets
the clean-up loop of `GetTypeAsString` returns the spelling with exactly the
spaces outside every `<...>` removed and every other character, the spaces
inside `<...>` included, kept in order. -/
theorem C14_type_spaces_outside_brackets (typeName : Str)
    (h : specAngleBalanced typeName 0 = true) :
    GetTypeAsString (some typeName) = specCleanTypeName typeName 0 := by
  have := cleanTypeName_eq_spec typeName 0 h
  simpa [GetTypeAsString] using this

/-- C14 at `const std::map<int, unsigned long> &`: the two spaces inside the
brackets stay, the two outside go. -/
theorem C14_type_spaces_witness :
    GetTypeAsString (some "const std::map<int, unsigned long> &".toList)
      = "conststd::map<int, unsigned long>&".toList :=
  (C14_type_spaces_outside_brackets "const std::map<int, unsigned long> &".toList
    (by decide)).trans (by decide)

/-! ## The tokens of `ParseMacroArguments` -/

theorem trimAll_spec (pieces : List Str) :
    ∃ tokens, trimAll pieces = .ok tokens ∧ List.Forall₂ IsTrimOf pieces tokens := by
  induction pieces with
  | nil => exact ⟨[], rfl, List.Forall₂.nil⟩
  | cons x xs ih =>
    obtain ⟨ts, hts, hall⟩ := ih
    obtain ⟨t, ht, htrim⟩ := TrimWhitespace_spec x
    exact ⟨t :: ts, by simp only [trimAll, ht, hts], List.Forall₂.cons htrim hall⟩

theorem trimmed_of_forall₂ (pieces tokens : List Str) (h : List.Forall₂ IsTrimOf pieces tokens) :
    ∀ t ∈ tokens, (∀ c, t.head? = some c → c ∉ whitespaceChars) ∧
      (∀ c, t.getLast? = some c → c ∉ whitespaceChars) := by
  induction h with
  | nil => intro t ht; simp at ht
  | cons hx _ ih =>
    intro t ht
    rcases List.mem_cons.mp ht with rfl | ht
    · obtain ⟨_, _, _, _, _, hh, hg⟩ := hx
      exact ⟨hh, hg⟩
    · exact ih t ht

/-- The routine `ParseMacroArguments` is the text between the first `(` and
the last `)`, split at commas, each piece trimmed. -/
theorem ParseMacroArguments_eq (macroText : Str) :
    ParseMacroArguments macroText =
      match delimitedText '(' ')' macroText with
      | none => .ok []
      | some (.error e) => .error e
      | some (.ok argsText) => trimAll (SplitString argsText ',') := by
  unfold ParseMacroArguments delimitedText
  cases find '(' macroText with
  | none => rfl
  | some start =>
    cases rfind ')' macroText with
    | none => rfl
    | some stop =>
      by_cases h : stop ≤ start
      · have h2 : ¬ stop > start := by omega
        simp only [h, h2, if_true, if_false]
      · have h2 : stop > start := by omega
        simp only [h, h2, if_true, if_false]
        cases substr macroText (start + 1) (stop - start - 1) <;> rfl

/-- C15: `ParseMacroArguments` always returns, every token it returns
neither starts nor ends with a space, tab, newline or carriage return, and
for a macro text `name(args)tail` the tokens are, piece by piece, the
comma-separated pieces of `args` with only their leading and trailing
whitespace removed (an all-whitespace piece gives the empty token). -/
theorem C15_tokens_are_trimmed (macroText : Str) :
    ∃ tokens, ParseMacroArguments macroText = .ok tokens ∧
      (∀ t ∈ tokens, (∀ c, t.head? = some c → c ∉ whitespaceChars) ∧
        (∀ c, t.getLast? = some c → c ∉ whitespaceChars)) ∧
      (∀ name args tail : Str, macroText = name ++ '(' :: args ++ ')' :: tail →
        '(' ∉ name → ')' ∉ tail →
        List.Forall₂ IsTrimOf (SplitString args ',') tokens) := by
  rcases delimitedText_cases '(' ')' macroText with h | ⟨a, mid, b, htext, ha, hb, h⟩
  · refine ⟨[], by rw [ParseMacroArguments_eq, h], by simp, ?_⟩
    intro name args tail hm hn ht
    rw [hm, delimitedText_between '(' ')' name args tail hn ht] at h
    exact Option.noConfusion h
  · obtain ⟨tokens, htok, hall⟩ := trimAll_spec (SplitString mid ',')
    refine ⟨tokens, by rw [ParseMacroArguments_eq, h]; exact htok,
      trimmed_of_forall₂ _ _ hall, ?_⟩
    intro name args tail hm hn ht
    rw [hm, delimitedText_between '(' ')' name args tail hn ht] at h
    simp only [Option.some.injEq, Except.ok.injEq] at h
    rw [h]
    exact hall

/-- C15 at `GPROPERTY( Save ,  , Edit)`: three tokens, the middle one empty. -/
theorem C15_tokens_are_trimmed_witness :
    ParseMacroArguments "GPROPERTY( Save ,  , Edit)".toList
      = .ok ["Save".toList, [], "Edit".toList] ∧
    ∃ tokens, ParseMacroArguments "GPROPERTY( Save ,  , Edit)".toList = .ok tokens ∧
      List.Forall₂ IsTrimOf [" Save ".toList, "  ".toList, " Edit".toList] tokens :=
  ⟨rfl,
   (C15_tokens_are_trimmed "GPROPERTY( Save ,  , Edit)".toList).elim
     fun tokens h => ⟨tokens, h.1,
       h.2.2 "GPROPERTY".toList " Save ,  , Edit".toList [] rfl (by decide) (by simp)⟩⟩

/-! ## `stoul` stops at the first character that is not a digit -/

theorem stoul_digits_then (w : Nat) (d r : Str) (hne : d ≠ [])
    (hd : ∀ c ∈ d, c.isDigit = true) (hr : ∀ c, r.head? = some c → c.isDigit = false)
    (hlt : digitsValue d < 2 ^ w) : stoul w (d ++ r) = .ok (digitsValue d) := by
  cases d with
  | nil => exact absurd rfl hne
  | cons c cs =>
    have hc : c.isDigit = true := hd c (by simp)
    have hdrop : List.dropWhile isspace (c :: cs ++ r) = c :: cs ++ r := by
      simp [List.dropWhile, isspace_of_isDigit c hc]
    have hrest : List.takeWhile Char.isDigit r = [] := by
      cases r with
      | nil => rfl
      | cons x xs => simp [List.takeWhile, hr x rfl]
    have htake : List.takeWhile Char.isDigit (c :: cs ++ r) = c :: cs := by
      rw [List.takeWhile_append_of_pos hd, hrest, List.append_nil]
    have hge : ¬ digitsValue (c :: cs) ≥ 2 ^ w := by omega
    have hsign : signOf (c :: cs ++ r) = (false, c :: cs ++ r) :=
      signOf_of_isDigit c (cs ++ r) hc
    simp only [stoul, hdrop, hsign, htake, hge, if_false]
    simp

/-- C20: for an `unsigned long` of at least 64 bits, a token `Version=`
followed by a non-empty run of digits of value `n < 2^64` and then by any
text that does not start with a digit is accepted, and the version becomes
`n mod 2^32`: `Version=3abc` sets 3 and `Version=4294967297` sets 1. -/
theorem C20_version_lenient_modulo (w : Nat) (hw : 64 ≤ w) (d r : Str) (n : Nat)
    (hne : d ≠ []) (hd : ∀ c ∈ d, c.isDigit = true) (hval : digitsValue d = n)
    (hn : n < 2 ^ 64) (hr : ∀ c, r.head? = some c → c.isDigit = false) (c : ClassInfo) :
    ParseClassFlags w ["Version=".toList ++ (d ++ r)] c
      = ⟨{ c with version := n % 2 ^ 32 }, none⟩ ∧
    (ParseClassFlags 64 ["Version=3abc".toList] {}).state.version = 3 ∧
    (ParseClassFlags 64 ["Version=3abc".toList] {}).thrown = none ∧
    (ParseClassFlags 64 ["Version=4294967297".toList] {}).state.version = 1 ∧
    (ParseClassFlags 64 ["Version=4294967297".toList] {}).thrown = none := by
  have hle : 2 ^ 64 ≤ 2 ^ w := Nat.pow_le_pow_right (by omega) hw
  have hst : stoul w (d ++ r) = .ok n := by
    rw [← hval]
    exact stoul_digits_then w d r hne hd hr (by omega)
  refine ⟨?_, by decide, by decide, by decide, by decide⟩
  simp only [ParseClassFlags, forEachArg, ClassFlag_version, hst]

/-- C20 at the token `Version=4294967299 beta`: the version is 3. -/
theorem C20_version_lenient_modulo_witness :
    ParseClassFlags 64 ["Version=4294967299 beta".toList] {} = ⟨{ version := 3 }, none⟩ :=
  (C20_version_lenient_modulo 64 (by decide) "4294967299".toList " beta".toList 4294967299
    (by decide) (by decide) (by decide) (by decide) (by decide) {}).1

/-! ## The argument loop of `main` -/

theorem parseArguments_spec (args : List Str) (o : Options) (hh1 : "--help".toList ∉ args)
    (hh2 : "-h".toList ∉ args) :
    (specWellFormedArgs args = false → parseArguments args o = ArgsResult.exit 1) ∧
    (specWellFormedArgs args = true →
      ∃ o1, parseArguments args o = ArgsResult.proceed o1 ∧
        ("--output-dir".toList ∉ args → o1.outputDir = o.outputDir)) := by
  induction args, o using parseArguments.induct with
  | case1 o => exact ⟨fun h => by simp [specWellFormedArgs] at h, fun _ => ⟨o, rfl, fun _ => rfl⟩⟩
  | case2 arg rest o hhelp =>
    exfalso
    rcases hhelp with rfl | rfl
    · exact hh1 (by simp)
    · exact hh2 (by simp)
  | case3 arg rest o hhelp hv ih =>
    have ih := ih (fun h => hh1 (List.mem_cons_of_mem _ h)) (fun h => hh2 (List.mem_cons_of_mem _ h))
    have e1 : parseArguments (arg :: rest) o = parseArguments rest { o with verbose := true } := by
      rw [parseArguments.eq_def]
      simp only [if_neg hhelp, if_pos hv]
    have e2 : specWellFormedArgs (arg :: rest) = specWellFormedArgs rest := by
      rw [specWellFormedArgs.eq_def]
      simp only [if_pos hv]
    rw [e1, e2]
    refine ⟨ih.1, fun h => ?_⟩
    obtain ⟨o1, ho1, hout⟩ := ih.2 h
    exact ⟨o1, ho1, fun hn => hout (fun hm => hn (List.mem_cons_of_mem _ hm))⟩
  | case4 o value rest2 hhelp hv ih =>
    have ih := ih (fun h => hh1 (List.mem_cons_of_mem _ (List.mem_cons_of_mem _ h)))
      (fun h => hh2 (List.mem_cons_of_mem _ (List.mem_cons_of_mem _ h)))
    have e1 : parseArguments ("--scan-dirs".toList :: value :: rest2) o
        = parseArguments rest2 { o with scanDirs := o.scanDirs ++ commaList value } := by
      rw [parseArguments, if_neg hhelp, if_neg hv, if_pos rfl]
    have e2 : specWellFormedArgs ("--scan-dirs".toList :: value :: rest2)
        = specWellFormedArgs rest2 := by
      rw [specWellFormedArgs, if_neg hv, if_pos (Or.inl rfl)]
    rw [e1, e2]
    refine ⟨ih.1, fun h => ?_⟩
    obtain ⟨o1, ho1, hout⟩ := ih.2 h
    exact ⟨o1, ho1, fun hn =>
      hout (fun hm => hn (List.mem_cons_of_mem _ (List.mem_cons_of_mem _ hm)))⟩
  | case5 o value rest2 hhelp hv hs ih =>
    have ih := ih (fun h => hh1 (List.mem_cons_of_mem _ (List.mem_cons_of_mem _ h)))
      (fun h => hh2 (List.mem_cons_of_mem _ (List.mem_cons_of_mem _ h)))
    have e1 : parseArguments ("--input-files".toList :: value :: rest2) o
        = parseArguments rest2 { o with inputFiles := o.inputFiles ++ commaList value } := by
      rw [parseArguments, if_neg hhelp, if_neg hv, if_neg hs, if_pos rfl]
    have e2 : specWellFormedArgs ("--input-files".toList :: value :: rest2)
        = specWellFormedArgs rest2 := by
      rw [specWellFormedArgs, if_neg hv, if_pos (Or.inr (Or.inl rfl))]
    rw [e1, e2]
    refine ⟨ih.1, fun h => ?_⟩
    obtain ⟨o1, ho1, hout⟩ := ih.2 h
    exact ⟨o1, ho1, fun hn =>
      hout (fun hm => hn (List.mem_cons_of_mem _ (List.mem_cons_of_mem _ hm)))⟩
  | case6 o value rest2 hhelp hv hs hi ih =>
    have ih := ih (fun h => hh1 (List.mem_cons_of_mem _ (List.mem_cons_of_mem _ h)))
      (fun h => hh2 (List.mem_cons_of_mem _ (List.mem_cons_of_mem _ h)))
    have e1 : parseArguments ("--output-dir".toList :: value :: rest2) o
        = parseArguments rest2 { o with outputDir := value } := by
      rw [parseArguments, if_neg hhelp, if_neg hv, if_neg hs, if_neg hi, if_pos rfl]
    have e2 : specWellFormedArgs ("--output-dir".toList :: value :: rest2)
        = specWellFormedArgs rest2 := by
      rw [specWellFormedArgs, if_neg hv, if_pos (Or.inr (Or.inr rfl))]
    rw [e1, e2]
    refine ⟨ih.1, fun h => ?_⟩
    obtain ⟨o1, ho1, _⟩ := ih.2 h
    exact ⟨o1, ho1, fun hn => absurd (List.mem_cons_self _ _) hn⟩
  | case7 arg o hhelp hv value rest2 hs hi ho =>
    have e1 : parseArguments (arg :: value :: rest2) o = ArgsResult.exit 1 := by
      rw [parseArguments, if_neg hhelp, if_neg hv, if_neg hs, if_neg hi, if_neg ho]
    have e2 : specWellFormedArgs (arg :: value :: rest2) = false := by
      have : ¬ (arg = "--scan-dirs".toList ∨ arg = "--input-files".toList ∨
          arg = "--output-dir".toList) := by
        rintro (h | h | h)
        · exact hs h
        · exact hi h
        · exact ho h
      rw [specWellFormedArgs, if_neg hv, if_neg this]
    rw [e1, e2]
    exact ⟨fun _ => rfl, fun h => Bool.noConfusion h⟩
  | case8 arg o hhelp hv =>
    have e1 : parseArguments [arg] o = ArgsResult.exit 1 := by
      simp only [parseArguments, if_neg hhelp, if_neg hv]
    have e2 : specWellFormedArgs [arg] = false := by
      simp only [specWellFormedArgs, if_neg hv]
      split <;> rfl
    rw [e1, e2]
    exact ⟨fun _ => rfl, fun h => Bool.noConfusion h⟩

theorem find_lt_length (c : Char) (s : Str) (k : Nat) (h : find c s = some k) :
    k < s.length := by
  obtain ⟨a, r, hs, _, hk⟩ := find_eq_some c s k h
  rw [hs, ← hk]
  simp

/-- More iterations than the value has characters change nothing: the comma
loop of `main` has ended by itself before the bound is reached. -/
theorem commaListLoop_fuel (fuel1 fuel2 : Nat) (s : Str) (h1 : s.length < fuel1)
    (h2 : s.length < fuel2) : commaListLoop fuel1 s = commaListLoop fuel2 s := by
  induction fuel1 generalizing fuel2 s with
  | zero => omega
  | succ f1 ih =>
    cases fuel2 with
    | zero => omega
    | succ f2 =>
      by_cases h0 : s.length = 0
      · simp only [commaListLoop, h0, if_true]
      · cases hf : find ',' s with
        | none => simp only [commaListLoop, h0, if_false, hf]
        | some k =>
          have hk := find_lt_length ',' s k hf
          have hlen : (s.drop (k + 1)).length < s.length := by
            rw [List.length_drop]; omega
          simp only [commaListLoop, h0, if_false, hf]
          rw [ih f2 (s.drop (k + 1)) (by omega) (by omega)]

/-- C16: for a command line without `--help` and `-h`, `main` returns 1
whatever its `try` block would do (so before anything is scanned or parsed)
when the arguments are not a sequence of recognised options with their
values (an unknown argument, or a value-taking option at the very end), and
also when the argument loop ends with both `scanDirs` and `inputFiles`
empty; when the arguments are well formed the loop ends normally, and with
no `--output-dir` among them the output directory is `Build/Generated`. -/
theorem C16_argument_errors_exit_one (prog : Str) (args : List Str)
    (tryBlock : Options → Int) (hh1 : "--help".toList ∉ args) (hh2 : "-h".toList ∉ args) :
    (specWellFormedArgs args = false → main (prog :: args) tryBlock = 1) ∧
    (∀ o, parseArguments args {} = ArgsResult.proceed o → o.scanDirs = [] →
      o.inputFiles = [] → main (prog :: args) tryBlock = 1) ∧
    (specWellFormedArgs args = true →
      ∃ o, parseArguments args {} = ArgsResult.proceed o ∧
        ("--output-dir".toList ∉ args → o.outputDir = "Build/Generated".toList)) := by
  have hspec := parseArguments_spec args {} hh1 hh2
  refine ⟨?_, ?_, hspec.2⟩
  · intro hbad
    simp only [main, List.drop_succ_cons, List.drop_zero, hspec.1 hbad]
  · intro o ho hs hi
    simp only [main, List.drop_succ_cons, List.drop_zero, ho, hs, hi, and_self, if_true]

/-- C16 at three command lines: a value-taking option at the end, an
unknown argument, and no input at all each give exit code 1. -/
theorem C16_argument_errors_witness :
    main ["gen".toList, "--verbose".toList, "--output-dir".toList] (fun _ => 0) = 1 ∧
    main ["gen".toList, "--scan-dirs".toList, "Engine".toList, "--fast".toList] (fun _ => 0)
      = 1 ∧
    main ["gen".toList, "--output-dir".toList, "Out".toList] (fun _ => 0) = 1 :=
  ⟨(C16_argument_errors_exit_one "gen".toList ["--verbose".toList, "--output-dir".toList]
      (fun _ => 0) (by decide) (by decide)).1 (by decide),
   (C16_argument_errors_exit_one "gen".toList
      ["--scan-dirs".toList, "Engine".toList, "--fast".toList]
      (fun _ => 0) (by decide) (by decide)).1 (by decide),
   (C16_argument_errors_exit_one "gen".toList ["--output-dir".toList, "Out".toList]
      (fun _ => 0) (by decide) (by decide)).2.1
      { outputDir := "Out".toList } (by decide) rfl rfl⟩

/-! ## The parent-directory loop of `GetHeaderFiles` -/

theorem ShouldExcludeDirectory_iff (d : Str) :
    ShouldExcludeDirectory d = true ↔ d ∈ s_excludedDirectories := by
  simp [ShouldExcludeDirectory, List.any_eq_true]

/-- The paths `GetHeaderFiles` returns are paths whose parent-directory loop
ended without finding a denylisted name. -/
theorem excludedWalk_of_mem_GetHeaderFiles (fuel : Nat) (dirPath : FsPath)
    (extensions : List Str) (entries : List DirectoryEntry) (result : List FsPath)
    (h : GetHeaderFiles fuel dirPath extensions entries = some result) (p : FsPath)
    (hp : p ∈ result) : excludedWalk dirPath fuel p = some false := by
  induction entries generalizing result with
  | nil =>
    simp only [GetHeaderFiles, Option.some.injEq] at h
    rw [← h] at hp
    simp at hp
  | cons e es ih =>
    by_cases hc : e.isRegularFile = true ∧ extension (filename e.path) ∈ extensions
    · simp only [GetHeaderFiles, hc, and_self, if_true] at h
      cases hw : excludedWalk dirPath fuel e.path with
      | none => simp [hw] at h
      | some b =>
        cases hr : GetHeaderFiles fuel dirPath extensions es with
        | none => simp [hw, hr] at h
        | some res =>
          simp only [hw, hr, Option.some.injEq] at h
          cases b with
          | true =>
            simp only [if_true] at h
            exact ih res hr (h ▸ hp)
          | false =>
            simp only [Bool.false_eq_true, if_false] at h
            rw [← h] at hp
            rcases List.mem_cons.mp hp with rfl | hp
            · exact hw
            · exact ih res hr hp
    · simp only [GetHeaderFiles, hc, if_false] at h
      exact ih result h hp

/-- A path with a denylisted directory between `base` and the file name: the
loop does not end with "keep", as long as `dirPath` is not longer than
`base` plus a trailing separator. -/
theorem excludedWalk_denylisted (dirPath base : FsPath) (hlen : dirPath.length ≤ base.length + 1)
    (fuel : Nat) (dirs : List Str) (name : Str)
    (hd : ∃ d ∈ dirs, ShouldExcludeDirectory d = true) :
    excludedWalk dirPath fuel (base ++ dirs ++ [name]) ≠ some false := by
  induction fuel generalizing dirs name with
  | zero => simp [excludedWalk]
  | succ fuel ih =>
    obtain ⟨d, hdm, hde⟩ := hd
    rcases List.eq_nil_or_concat dirs with rfl | ⟨ds, last, rfl⟩
    · simp at hdm
    · simp only [List.concat_eq_append] at hdm ⊢
      have hne : base ++ (ds ++ [last]) ++ [name] ≠ [rootDirectory] := by
        intro hc
        have := congrArg List.length hc
        simp only [List.length_append, List.length_singleton] at this
        omega
      have hparent : parent_path (base ++ (ds ++ [last]) ++ [name]) = base ++ (ds ++ [last]) := by
        simp only [parent_path, hne, if_false, List.dropLast_concat]
      have hhas : has_parent_path (base ++ (ds ++ [last]) ++ [name]) = true := by
        unfold has_parent_path
        rw [hparent]
        simp
      have hnd : base ++ (ds ++ [last]) ++ [name] ≠ dirPath := by
        intro hc
        have := congrArg List.length hc
        simp only [List.length_append, List.length_singleton] at this
        omega
      simp only [excludedWalk, hhas, hnd, ne_eq, not_false_eq_true, and_self, if_true, hparent]
      by_cases hex : ShouldExcludeDirectory (filename (base ++ (ds ++ [last]))) = true
      · simp [hex]
      · simp only [hex, if_false]
        have hlast : ShouldExcludeDirectory last = false := by
          by_cases hroot : base ++ (ds ++ [last]) = [rootDirectory]
          · have hl : last = rootDirectory := by
              have := congrArg List.getLast? hroot
              rw [← List.append_assoc, List.getLast?_concat] at this
              simpa using this
            rw [hl]; decide
          · have hf : filename (base ++ (ds ++ [last])) = last := by
              unfold filename
              rw [if_neg hroot, ← List.append_assoc, List.getLast?_concat]
              rfl
            rw [hf] at hex
            simpa using hex
        have hds : d ∈ ds := by
          rcases List.mem_append.mp hdm with h1 | h1
          · exact h1
          · rw [List.mem_singleton.mp h1, hlast] at hde
            exact Bool.noConfusion hde
        have := ih ds last ⟨d, hds, hde⟩
        rw [← List.append_assoc]
        exact this

theorem pathAppend_eq (dirPath rel : FsPath) :
    ∃ base : FsPath, pathAppend dirPath rel = base ++ rel ∧ dirPath.length ≤ base.length + 1 := by
  by_cases h : dirPath.getLast? = some []
  · exact ⟨dirPath.dropLast, by simp only [pathAppend, h, if_true],
      by rw [List.length_dropLast]; omega⟩
  · exact ⟨dirPath, by simp only [pathAppend, h, if_false], by omega⟩

/-- For a root that is not the empty path, the parent-directory loop on a
path `dirPath ++ rel` ends within `rel.length + 1` iterations. -/
theorem excludedWalk_returns (dirPath : FsPath) (hne : dirPath ≠ []) (fuel : Nat) (rel : FsPath)
    (hfuel : rel.length < fuel) : ∃ b, excludedWalk dirPath fuel (dirPath ++ rel) = some b := by
  induction fuel generalizing rel with
  | zero => omega
  | succ fuel ih =>
    by_cases hg : has_parent_path (dirPath ++ rel) = true ∧ dirPath ++ rel ≠ dirPath
    · rcases List.eq_nil_or_concat rel with rfl | ⟨rs, x, rfl⟩
      · exact absurd (List.append_nil dirPath) hg.2
      · simp only [List.concat_eq_append] at hg hfuel ⊢
        have hlen : 1 ≤ dirPath.length := by
          cases dirPath with
          | nil => exact absurd rfl hne
          | cons a as => simp
        have hnr : dirPath ++ (rs ++ [x]) ≠ [rootDirectory] := by
          intro hc
          have := congrArg List.length hc
          simp only [List.length_append, List.length_singleton] at this
          omega
        have hparent : parent_path (dirPath ++ (rs ++ [x])) = dirPath ++ rs := by
          unfold parent_path
          rw [if_neg hnr, ← List.append_assoc, List.dropLast_concat]
        simp only [excludedWalk, hg, ne_eq, not_false_eq_true, and_self, if_true, hparent]
        by_cases hex : ShouldExcludeDirectory (filename (dirPath ++ rs)) = true
        · exact ⟨true, by simp only [hex, if_true]⟩
        · simp only [hex, if_false]
          exact ih rs (by simp only [List.length_append, List.length_singleton] at hfuel; omega)
    · exact ⟨false, by simp only [excludedWalk, hg, if_false]⟩

/-- For a root that is not the empty path and entries `dirPath ++ rel` below
it, `GetHeaderFiles` returns once `fuel` exceeds the length of every `rel`. -/
theorem GetHeaderFiles_returns (fuel : Nat) (dirPath : FsPath) (hne : dirPath ≠ [])
    (extensions : List Str) (entries : List DirectoryEntry)
    (h : ∀ e ∈ entries, ∃ rel : FsPath, e.path = dirPath ++ rel ∧ rel.length < fuel) :
    ∃ result, GetHeaderFiles fuel dirPath extensions entries = some result := by
  induction entries with
  | nil => exact ⟨[], rfl⟩
  | cons e es ih =>
    obtain ⟨res, hres⟩ := ih (fun e1 h1 => h e1 (List.mem_cons_of_mem _ h1))
    by_cases hc : e.isRegularFile = true ∧ extension (filename e.path) ∈ extensions
    · obtain ⟨rel, hrel, hlen⟩ := h e (by simp)
      obtain ⟨b, hb⟩ := excludedWalk_returns dirPath hne fuel rel hlen
      rw [← hrel] at hb
      exact ⟨if b = true then res else e.path :: res,
        by simp only [GetHeaderFiles, hc, and_self, if_true, hb, hres]⟩
    · exact ⟨res, by simp only [GetHeaderFiles, hc, if_false, hres]⟩

/-- C17: whatever `GetHeaderFiles` returns for a root `dirPath`, it does not
contain a path `dirPath / d1 / ... / dk / name` in which one of the
directories `d1 .. dk` between the root and the file, at any depth, has a
name on the denylist. -/
theorem C17_denylisted_directory_excludes (fuel : Nat) (dirPath : FsPath)
    (extensions : List Str) (entries : List DirectoryEntry) (result : List FsPath)
    (dirs : List Str) (name : Str)
    (hrun : GetHeaderFiles fuel dirPath extensions entries = some result)
    (hdeny : ∃ d ∈ dirs, d ∈ s_excludedDirectories) :
    pathAppend dirPath (dirs ++ [name]) ∉ result := by
  intro hmem
  obtain ⟨base, hbase, hlen⟩ := pathAppend_eq dirPath (dirs ++ [name])
  have hwalk := excludedWalk_of_mem_GetHeaderFiles fuel dirPath extensions entries result hrun
    _ hmem
  obtain ⟨d, hd, hdx⟩ := hdeny
  rw [hbase, ← List.append_assoc] at hwalk
  exact excludedWalk_denylisted dirPath base hlen fuel dirs name
    ⟨d, hd, (ShouldExcludeDirectory_iff d).mpr hdx⟩ hwalk

/-- C17 at the sample tree: the header below `Engine/External/GLM` is not
returned, the two other headers are. -/
theorem C17_denylisted_directory_witness :
    GetHeaderFiles 4 ["Engine".toList] defaultExtensions sampleEntries
      = some [["Engine".toList, "Player.h".toList],
              ["Engine".toList, "Core".toList, "Actor.hpp".toList]] ∧
    ["Engine".toList, "External".toList, "GLM".toList, "glm.hpp".toList] ∉
      [["Engine".toList, "Player.h".toList],
       ["Engine".toList, "Core".toList, "Actor.hpp".toList]] :=
  ⟨by decide,
   C17_denylisted_directory_excludes 4 ["Engine".toList] defaultExtensions sampleEntries _
     ["External".toList, "GLM".toList] "glm.hpp".toList (by decide)
     ⟨"External".toList, by decide, by decide⟩⟩

/-- When the last name of the root is denylisted, the parent-directory loop
of every entry below the root reaches the root and ends with "exclude". -/
theorem excludedWalk_root_denylisted (base : FsPath) (name : Str)
    (hname : ShouldExcludeDirectory name = true) (dirPath : FsPath)
    (hroot : dirPath = base ++ [name] ∨ dirPath = base ++ [name, []]) (fuel : Nat)
    (rel : FsPath) (hne : rel ≠ []) (hnames : [] ∉ rel) (hfuel : rel.length ≤ fuel) :
    excludedWalk dirPath fuel (base ++ [name] ++ rel) = some true := by
  induction fuel generalizing rel with
  | zero =>
    have : rel = [] := List.length_eq_zero.mp (by omega)
    exact absurd this hne
  | succ fuel ih =>
    rcases List.eq_nil_or_concat rel with rfl | ⟨rs, x, rfl⟩
    · exact absurd rfl hne
    · simp only [List.concat_eq_append] at hnames hfuel ⊢
      have hnr : base ++ [name] ++ (rs ++ [x]) ≠ [rootDirectory] := by
        intro hc
        have := congrArg List.length hc
        simp only [List.length_append, List.length_singleton] at this
        omega
      have hparent : parent_path (base ++ [name] ++ (rs ++ [x])) = base ++ [name] ++ rs := by
        unfold parent_path
        rw [if_neg hnr, ← List.append_assoc, List.dropLast_concat]
      have hhas : has_parent_path (base ++ [name] ++ (rs ++ [x])) = true := by
        unfold has_parent_path
        rw [hparent]
        simp
      have hnd : base ++ [name] ++ (rs ++ [x]) ≠ dirPath := by
        intro hc
        rcases hroot with h | h
        · rw [h] at hc
          have := congrArg List.length hc
          simp only [List.length_append, List.length_singleton] at this
          omega
        · rw [h] at hc
          have h2 : base ++ [name] ++ (rs ++ [x]) = base ++ [name] ++ [[]] := by
            rw [hc]; simp
          have h3 := List.append_cancel_left h2
          have h4 : x = [] := by
            have := congrArg List.getLast? h3
            rw [List.getLast?_concat] at this
            simpa using this
          exact hnames (by simp [h4])
      simp only [excludedWalk, hhas, hnd, ne_eq, not_false_eq_true, and_self, if_true, hparent]
      by_cases hex : ShouldExcludeDirectory (filename (base ++ [name] ++ rs)) = true
      · simp only [hex, if_true]
      · simp only [hex, if_false]
        rcases List.eq_nil_or_concat rs with rfl | ⟨rs2, y, hrs⟩
        · exfalso
          apply hex
          have hnroot : base ++ [name] ≠ [rootDirectory] := by
            intro hc
            have := congrArg List.getLast? hc
            rw [List.getLast?_concat] at this
            have hn : name = rootDirectory := by simpa using this
            rw [hn] at hname
            exact absurd hname (by decide)
          have hf : filename (base ++ [name] ++ []) = name := by
            unfold filename
            rw [List.append_nil, if_neg hnroot, List.getLast?_concat]
            rfl
          rw [hf]
          exact hname
        · have hrs_ne : rs ≠ [] := by
            rw [hrs]; simp
          exact ih rs hrs_ne (fun hm => hnames (List.mem_append_left _ hm))
            (by simp only [List.length_append, List.length_singleton] at hfuel; omega)

theorem GetHeaderFiles_root_denylisted (base : FsPath) (name : Str)
    (hname : ShouldExcludeDirectory name = true) (dirPath : FsPath)
    (hroot : dirPath = base ++ [name] ∨ dirPath = base ++ [name, []]) (fuel : Nat)
    (extensions : List Str) (entries : List DirectoryEntry)
    (h : ∀ e ∈ entries, ∃ rel : FsPath, e.path = base ++ [name] ++ rel ∧ rel ≠ [] ∧
      [] ∉ rel ∧ rel.length ≤ fuel) :
    GetHeaderFiles fuel dirPath extensions entries = some [] := by
  induction entries with
  | nil => rfl
  | cons e es ih =>
    have hres := ih (fun e1 h1 => h e1 (List.mem_cons_of_mem _ h1))
    by_cases hc : e.isRegularFile = true ∧ extension (filename e.path) ∈ extensions
    · obtain ⟨rel, hrel, hne, hnames, hlen⟩ := h e (by simp)
      have hb := excludedWalk_root_denylisted base name hname dirPath hroot fuel rel hne hnames
        hlen
      rw [← hrel] at hb
      simp only [GetHeaderFiles, hc, and_self, if_true, hb, hres]
    · simp only [GetHeaderFiles, hc, if_false, hres]

/-- C19: when the last name of the root passed to `GetHeaderFiles` is on the
denylist (root `base/name` or `base/name/`), every entry below the root is
excluded, files directly in the root included: `GetHeaderFiles` returns the
empty list, and so does `ScanDirectory`. (Entries have non-empty names, and
`fuel` is at least the depth of every entry below the root.) -/
theorem C19_denylisted_root_yields_nothing (base : FsPath) (name : Str)
    (hname : name ∈ s_excludedDirectories) (dirPath : FsPath)
    (hroot : dirPath = base ++ [name] ∨ dirPath = base ++ [name, []]) (fuel : Nat)
    (extensions : List Str) (entries : List DirectoryEntry)
    (containsReflectionMacros : FsPath → Bool)
    (h : ∀ e ∈ entries, ∃ rel : FsPath, e.path = base ++ [name] ++ rel ∧ rel ≠ [] ∧
      [] ∉ rel ∧ rel.length ≤ fuel) :
    GetHeaderFiles fuel dirPath extensions entries = some [] ∧
    ScanDirectory fuel true dirPath entries containsReflectionMacros = some [] := by
  have hx := (ShouldExcludeDirectory_iff name).mpr hname
  refine ⟨GetHeaderFiles_root_denylisted base name hx dirPath hroot fuel extensions entries h, ?_⟩
  simp only [ScanDirectory, Bool.true_eq_false, if_false,
    GetHeaderFiles_root_denylisted base name hx dirPath hroot fuel defaultExtensions entries h,
    List.filter_nil]

/-- C19 at the root `Build` with a header directly in it and one a level
below: nothing is returned. -/
theorem C19_denylisted_root_witness :
    GetHeaderFiles 2 ["Build".toList] defaultExtensions buildEntries = some [] ∧
    ScanDirectory 2 true ["Build".toList] buildEntries (fun _ => true) = some [] :=
  C19_denylisted_root_yields_nothing [] "Build".toList (by decide) ["Build".toList]
    (Or.inl rfl) 2 defaultExtensions buildEntries (fun _ => true)
    (fun e he => by
      simp only [buildEntries, List.mem_cons, List.mem_singleton, List.not_mem_nil,
        or_false] at he
      rcases he with rfl | rfl
      · exact ⟨["Generated.h".toList], rfl, by decide, by decide, by decide⟩
      · exact ⟨["Gen".toList, "Types.hpp".toList], rfl, by decide, by decide, by decide⟩)

/-! ## The traversal of an annotated class -/

theorem VisitCXXRecordDecl_of_traverse_none (traverse : VisitorState → Option VisitorState)
    (htraverse : ∀ state, traverse state = none) (record : CXXRecordDecl)
    (state : VisitorState) (h1 : record.isImplicit = false)
    (h2 : record.isCompleteDefinition = true)
    (h3 : hasAnnotation "GCLASS".toList record.annotations = true) :
    VisitCXXRecordDecl traverse record state = none := by
  have hc1 : ¬ (record.isImplicit = true ∨ record.isCompleteDefinition = false) := by
    rw [h1, h2]
    simp
  have hc2 : ¬ hasAnnotation "GCLASS".toList record.annotations = false := by
    rw [h3]
    simp
  simp only [VisitCXXRecordDecl, if_neg hc1, if_neg hc2, htraverse]

theorem TraverseDecl_cxxRecord (depth : Nat) (record : CXXRecordDecl) (members : List Decl)
    (state : VisitorState) (h1 : record.isImplicit = false) :
    TraverseDecl (depth + 1) (Decl.cxxRecord record members) state =
      match VisitCXXRecordDecl (TraverseDecl depth (Decl.cxxRecord record members)) record
          state with
      | none => none
      | some visited => traverseAll (TraverseDecl depth) members visited := by
  simp only [TraverseDecl, h1, Bool.false_eq_true, if_false]

/-- The traversal of a complete, annotated class that is not implicit does
not return, whatever nesting of calls is allowed: `VisitCXXRecordDecl` calls
`TraverseDecl` on the declaration it was called for, and `TraverseDecl`
calls `VisitCXXRecordDecl` on it first. -/
theorem TraverseDecl_annotated_class (depth : Nat) (record : CXXRecordDecl)
    (members : List Decl) (state : VisitorState) (h1 : record.isImplicit = false)
    (h2 : record.isCompleteDefinition = true)
    (h3 : hasAnnotation "GCLASS".toList record.annotations = true) :
    TraverseDecl depth (Decl.cxxRecord record members) state = none := by
  induction depth generalizing state with
  | zero => rfl
  | succ depth ih =>
    rw [TraverseDecl_cxxRecord depth record members state h1,
      VisitCXXRecordDecl_of_traverse_none _ ih record state h1 h2 h3]

theorem traverseAll_head_none (traverse : Decl → VisitorState → Option VisitorState)
    (decl : Decl) (rest : List Decl) (state : VisitorState) (h : traverse decl state = none) :
    traverseAll traverse (decl :: rest) state = none := by
  simp only [traverseAll, h]

/-- C18 (code at the failing input): for the translation unit of the
end-to-end scenario, a namespace with the complete `GCLASS`-annotated class
`Player`, `HandleTranslationUnit` does not return within any number of
nested `TraverseDecl` calls, so the traversal does not terminate and no
class is ever appended; without the annotation the same unit is traversed
within four nested calls. -/
theorem C18_annotated_class_traversal_never_returns (depth : Nat) :
    HandleTranslationUnit depth playerUnit = none ∧
    HandleTranslationUnit 4 plainUnit = some [] := by
  refine ⟨?_, by decide⟩
  rcases depth with _ | _ | _ | d
  · rfl
  · rfl
  · rfl
  · have e1 : ∀ state, TraverseDecl (d + 1)
        (Decl.cxxRecord playerRecord [Decl.field healthDecl, Decl.cxxMethod takeDamageDecl])
        state = none :=
      fun state => TraverseDecl_annotated_class _ playerRecord _ state rfl rfl (by decide)
    have e2 : ∀ state, TraverseDecl (d + 2) (Decl.namespaceScope "Game".toList
        [Decl.cxxRecord playerRecord [Decl.field healthDecl, Decl.cxxMethod takeDamageDecl]])
        state = none :=
      fun state => traverseAll_head_none _ _ _ state (e1 state)
    have e3 : TraverseDecl (d + 3) playerUnit {} = none :=
      traverseAll_head_none _ _ _ _ (e2 _)
    simp only [HandleTranslationUnit, e3, Option.map_none']

/-! ## What `SplitString` keeps and what it loses -/

/-- One `getline`: at end of input it fails; otherwise the item has no
delimiter and the input is the item, the delimiter and the rest, or, when no
delimiter is left, the item alone. -/
theorem getline_cases (d : Char) (s : Str) :
    (getline d s = none ∧ s = []) ∨
    ∃ item rest, getline d s = some (item, rest) ∧ d ∉ item ∧
      (s = item ++ d :: rest ∨ (s = item ∧ rest = [] ∧ item ≠ [])) := by
  induction s with
  | nil => exact Or.inl ⟨rfl, rfl⟩
  | cons x xs ih =>
    right
    by_cases hx : x = d
    · exact ⟨[], xs, by simp only [getline, hx, if_true], by simp, Or.inl (by simp [hx])⟩
    · have hdx : ¬ d = x := fun e => hx e.symm
      rcases ih with ⟨hg, hxs⟩ | ⟨item, rest, hg, hitem, hform⟩
      · refine ⟨[x], [], by simp only [getline, hx, if_false, hg], by simp [hdx],
          Or.inr ⟨by rw [hxs], rfl, by simp⟩⟩
      · refine ⟨x :: item, rest, by simp only [getline, hx, if_false, hg], ?_, ?_⟩
        · intro hm
          rcases List.mem_cons.mp hm with e | e
          · exact hdx e
          · exact hitem e
        · rcases hform with h | ⟨h1, h2, _⟩
          · exact Or.inl (by rw [h]; rfl)
          · exact Or.inr ⟨by rw [h1], h2, by simp⟩

theorem getLast?_cons_of_ne_nil (x : Char) (rest : Str) (h : rest ≠ []) :
    (x :: rest).getLast? = rest.getLast? := by
  cases rest with
  | nil => exact absurd rfl h
  | cons y ys => simp [List.getLast?_cons_cons]

theorem intercalate_cons_cons (d : Char) (x y : Str) (ys : List Str) :
    [d].intercalate (x :: y :: ys) = x ++ d :: [d].intercalate (y :: ys) := by
  simp [List.intercalate]

theorem intercalate_singleton (d : Char) (x : Str) : [d].intercalate [x] = x := by
  simp [List.intercalate]

/-- The loop of `SplitString`, given more iterations than the text has
characters: no piece holds the delimiter, a non-empty text gives at least
one piece, and the pieces joined by the delimiter are the text, or the text
without its last character when that is the delimiter. -/
theorem SplitStringLoop_join (d : Char) (fuel : Nat) (s : Str) (hfuel : s.length < fuel) :
    (∀ piece ∈ SplitStringLoop d fuel s, d ∉ piece) ∧
    (s ≠ [] → SplitStringLoop d fuel s ≠ []) ∧
    (s.getLast? ≠ some d → [d].intercalate (SplitStringLoop d fuel s) = s) ∧
    (s.getLast? = some d → [d].intercalate (SplitStringLoop d fuel s) = s.dropLast) := by
  induction fuel generalizing s with
  | zero => omega
  | succ fuel ih =>
    rcases getline_cases d s with ⟨hg, hs⟩ | ⟨item, rest, hg, hitem, hform⟩
    · subst hs
      simp [SplitStringLoop, getline, List.intercalate]
    · have hlen := getline_length d s item rest hg
      obtain ⟨ih1, ih2, ih3, ih4⟩ := ih rest (by omega)
      have hloop : SplitStringLoop d (fuel + 1) s = item :: SplitStringLoop d fuel rest := by
        simp only [SplitStringLoop, hg]
      rw [hloop]
      rcases hform with hs | ⟨hs, hrest, hne⟩
      · -- a delimiter was found
        refine ⟨?_, fun _ => by simp, ?_, ?_⟩
        · intro piece hp
          rcases List.mem_cons.mp hp with rfl | hp
          · exact hitem
          · exact ih1 piece hp
        · intro hlast
          rcases hps : SplitStringLoop d fuel rest with _ | ⟨y, ys⟩
          · -- no further piece: the rest is empty and the text ends with the delimiter
            exfalso
            have hr : rest = [] := by
              by_contra hc
              exact ih2 hc hps
            apply hlast
            rw [hs, hr, List.getLast?_concat]
          · have hr : rest ≠ [] := by
              intro hc
              subst hc
              cases fuel with
              | zero => simp [SplitStringLoop] at hps
              | succ f => simp [SplitStringLoop, getline] at hps
            have hlast2 : rest.getLast? ≠ some d := by
              intro hc
              apply hlast
              rw [hs, List.getLast?_append_of_ne_nil _ (by simp), getLast?_cons_of_ne_nil d rest hr]
              exact hc
            rw [intercalate_cons_cons, ← hps, ih3 hlast2, hs]
        · intro hlast
          rcases hps : SplitStringLoop d fuel rest with _ | ⟨y, ys⟩
          · have hr : rest = [] := by
              by_contra hc
              exact ih2 hc hps
            rw [intercalate_singleton, hs, hr, List.dropLast_concat]
          · have hr : rest ≠ [] := by
              intro hc
              subst hc
              cases fuel with
              | zero => simp [SplitStringLoop] at hps
              | succ f => simp [SplitStringLoop, getline] at hps
            have hlast2 : rest.getLast? = some d := by
              rw [hs, List.getLast?_append_of_ne_nil _ (by simp),
                getLast?_cons_of_ne_nil d rest hr] at hlast
              exact hlast
            rw [intercalate_cons_cons, ← hps, ih4 hlast2, hs]
            have : item ++ d :: rest = (item ++ [d]) ++ rest := by simp
            rw [this, List.dropLast_append_of_ne_nil _ hr]
            simp
      · -- no delimiter left: the text is the last piece
        subst hrest
        have hnil : SplitStringLoop d fuel [] = [] := by
          cases fuel with
          | zero => rfl
          | succ f => simp [SplitStringLoop, getline]
        rw [hnil, intercalate_singleton]
        refine ⟨?_, fun _ => by simp, fun _ => hs.symm, ?_⟩
        · intro piece hp
          rw [List.mem_singleton.mp hp]
          exact hitem
        · intro hlast
          exfalso
          apply hitem
          rw [← hs]
          exact List.mem_of_getLast?_eq_some hlast

/-- C21: for every text `s` and delimiter `d`, no piece `SplitString`
returns contains `d`; the pieces joined by `d` are `s` when `s` does not end
with `d` and are `s` without its final `d` when it does, so exactly one
trailing empty piece is lost. The empty text has no pieces, `5,` (the inner
text of `Clamp(5,)`) has the one piece `5`, and `GPROPERTY()` has no
tokens. -/
theorem C21_split_loses_one_trailing_empty_piece (s : Str) (d : Char) :
    (∀ piece ∈ SplitString s d, d ∉ piece) ∧
    (s.getLast? ≠ some d → [d].intercalate (SplitString s d) = s) ∧
    (s.getLast? = some d → [d].intercalate (SplitString s d) = s.dropLast) ∧
    SplitString [] d = [] ∧
    SplitString "5,".toList ',' = ["5".toList] ∧
    ParseMacroArguments "GPROPERTY()".toList = .ok [] := by
  have h := SplitStringLoop_join d (s.length + 1) s (by omega)
  exact ⟨h.1, h.2.2.1, h.2.2.2, rfl, by decide, rfl⟩

/-- C21 at `a,,b,,`: four pieces, the last of the two trailing empty pieces
is lost, and joining gives the text without its final comma. -/
theorem C21_split_witness :
    SplitString "a,,b,,".toList ',' = ["a".toList, [], "b".toList, []] ∧
    [','].intercalate (SplitString "a,,b,,".toList ',') = "a,,b,".toList :=
  ⟨by decide,
   (C21_split_loses_one_trailing_empty_piece "a,,b,,".toList ',').2.2.1 (by decide)⟩

/-! ## Parsing twice -/

theorem getD_laterValue {β : Type} (first second : Option β) (x : β) :
    (laterValue first second).getD x = second.getD (first.getD x) := by
  cases second <;> rfl

theorem getD_getD_self {β : Type} (o : Option β) (x : β) : o.getD (o.getD x) = o.getD x := by
  cases o <;> rfl

theorem or_or_self (a b : Bool) : (a || b || b) = (a || b) := by
  cases a <;> cases b <;> rfl

/-- A loop whose body applies, for each argument, a patch that depends on
the argument alone applies one patch that depends on the arguments alone. -/
theorem forEachArg_patch {α π : Type} (apply : π → α → α) (compose : π → π → π) (empty : π)
    (hempty : ∀ e, apply empty e = e)
    (hcompose : ∀ first second e, apply second (apply first e) = apply (compose first second) e)
    (body : Str → α → Outcome α)
    (hstep : ∀ arg, ∃ patch thrown, ∀ e, body arg e = ⟨apply patch e, thrown⟩)
    (args : List Str) :
    ∃ patch thrown, ∀ e, forEachArg body args e = ⟨apply patch e, thrown⟩ := by
  induction args with
  | nil => exact ⟨empty, none, fun e => by simp only [forEachArg, hempty]⟩
  | cons x xs ih =>
    obtain ⟨p1, t1, h1⟩ := hstep x
    obtain ⟨p2, t2, h2⟩ := ih
    cases t1 with
    | none =>
      exact ⟨compose p1 p2, t2, fun e => by simp only [forEachArg, h1, h2, hcompose]⟩
    | some ex => exact ⟨p1, some ex, fun e => by simp only [forEachArg, h1]⟩

/-- Such a loop, run again with the same arguments on the entity it
produced, produces the same entity, when applying a patch twice is applying
it once. -/
theorem forEachArg_twice {α π : Type} (apply : π → α → α) (compose : π → π → π) (empty : π)
    (hempty : ∀ e, apply empty e = e)
    (hcompose : ∀ first second e, apply second (apply first e) = apply (compose first second) e)
    (htwice : ∀ patch e, apply patch (apply patch e) = apply patch e)
    (body : Str → α → Outcome α)
    (hstep : ∀ arg, ∃ patch thrown, ∀ e, body arg e = ⟨apply patch e, thrown⟩)
    (args : List Str) (e : α) :
    forEachArg body args (forEachArg body args e).state = forEachArg body args e := by
  obtain ⟨patch, thrown, h⟩ := forEachArg_patch apply compose empty hempty hcompose body hstep args
  rw [h e, h (apply patch e), htwice]

theorem applyPropertyPatch_empty (p : PropertyInfo) : applyPropertyPatch {} p = p := by
  simp [applyPropertyPatch]

theorem applyPropertyPatch_compose (first second : PropertyPatch) (p : PropertyInfo) :
    applyPropertyPatch second (applyPropertyPatch first p)
      = applyPropertyPatch (composePropertyPatch first second) p := by
  simp only [applyPropertyPatch, composePropertyPatch, getD_laterValue, Bool.or_assoc]

theorem applyPropertyPatch_twice (patch : PropertyPatch) (p : PropertyInfo) :
    applyPropertyPatch patch (applyPropertyPatch patch p) = applyPropertyPatch patch p := by
  simp only [applyPropertyPatch, getD_getD_self, or_or_self]

theorem PropertyFlag_patch (arg : Str) :
    ∃ patch thrown, ∀ p, PropertyFlag arg p = ⟨applyPropertyPatch patch p, thrown⟩ := by
  by_cases h1 : arg = "Save".toList
  · exact ⟨{ save := true }, none, fun p => by
      unfold PropertyFlag; rw [if_pos h1]; simp [applyPropertyPatch]⟩
  by_cases h2 : arg = "Edit".toList
  · exact ⟨{ edit := true }, none, fun p => by
      unfold PropertyFlag; rw [if_neg h1, if_pos h2]; simp [applyPropertyPatch]⟩
  by_cases h3 : arg = "Transient".toList
  · exact ⟨{ transient := true }, none, fun p => by
      unfold PropertyFlag; rw [if_neg h1, if_neg h2, if_pos h3]; simp [applyPropertyPatch]⟩
  by_cases h4 : arg = "EditorOnly".toList
  · exact ⟨{ editorOnly := true }, none, fun p => by
      unfold PropertyFlag; rw [if_neg h1, if_neg h2, if_neg h3, if_pos h4]
      simp [applyPropertyPatch]⟩
  by_cases h5 : arg = "ReadOnly".toList
  · exact ⟨{ readOnly := true }, none, fun p => by
      unfold PropertyFlag; rw [if_neg h1, if_neg h2, if_neg h3, if_neg h4, if_pos h5]
      simp [applyPropertyPatch]⟩
  by_cases h6 : "Category(".toList <+: arg
  · rcases quotedText_ok arg with hq | ⟨t, hq⟩
    · exact ⟨{}, none, fun p => by
        rw [PropertyFlag_category arg p h6, hq, applyPropertyPatch_empty]⟩
    · exact ⟨{ category := some t }, none, fun p => by
        rw [PropertyFlag_category arg p h6, hq]; simp [applyPropertyPatch]⟩
  by_cases h7 : "Clamp(".toList <+: arg
  · rcases parenText_ok arg with hq | ⟨t, hq⟩
    · exact ⟨{}, none, fun p => by
        rw [PropertyFlag_clamp arg p h7, hq, applyPropertyPatch_empty]⟩
    · rcases hs : SplitString t ',' with _ | ⟨a0, _ | ⟨a1, rest⟩⟩
      · exact ⟨{}, none, fun p => by
          rw [PropertyFlag_clamp arg p h7, hq]
          simp only [hs, applyPropertyPatch_empty]⟩
      · exact ⟨{}, none, fun p => by
          rw [PropertyFlag_clamp arg p h7, hq]
          simp only [hs, applyPropertyPatch_empty]⟩
      · obtain ⟨lo, hlo⟩ := TrimWhitespace_ok a0
        obtain ⟨hi, hhi⟩ := TrimWhitespace_ok a1
        exact ⟨{ clampMin := some lo, clampMax := some hi }, none, fun p => by
          rw [PropertyFlag_clamp arg p h7, hq]
          simp only [hs, hlo, hhi]
          simp [applyPropertyPatch]⟩
  by_cases h8 : "Default(".toList <+: arg
  · rcases parenText_ok arg with hq | ⟨t, hq⟩
    · exact ⟨{}, none, fun p => by
        rw [PropertyFlag_default arg p h8, hq, applyPropertyPatch_empty]⟩
    · exact ⟨{ defaultValue := some t }, none, fun p => by
        rw [PropertyFlag_default arg p h8, hq]; simp [applyPropertyPatch]⟩
  by_cases h9 : "Tooltip(".toList <+: arg
  · rcases quotedText_ok arg with hq | ⟨t, hq⟩
    · exact ⟨{}, none, fun p => by
        rw [PropertyFlag_tooltip arg p h9, hq, applyPropertyPatch_empty]⟩
    · exact ⟨{ tooltip := some t }, none, fun p => by
        rw [PropertyFlag_tooltip arg p h9, hq]; simp [applyPropertyPatch]⟩
  have hunknown : isPropertyToken arg = false := by
    simp only [isPropertyToken, Bool.or_eq_false_iff, decide_eq_false_iff_not]
    have hp : ∀ pat : Str, ¬ pat <+: arg → pat.isPrefixOf arg = false := by
      intro pat hn
      cases hb : pat.isPrefixOf arg with
      | false => rfl
      | true => exact absurd ( List.isPrefixOf_iff_prefix.mp hb) hn
    exact ⟨⟨⟨⟨⟨⟨⟨⟨h1, h2⟩, h3⟩, h4⟩, h5⟩, hp _ h6⟩, hp _ h7⟩, hp _ h8⟩, hp _ h9⟩
  exact ⟨{}, none, fun p => by rw [PropertyFlag_unknown arg p hunknown, applyPropertyPatch_empty]⟩

theorem applyFunctionPatch_empty (f : FunctionInfo) : applyFunctionPatch {} f = f := by
  simp [applyFunctionPatch]

theorem applyFunctionPatch_compose (first second : FunctionPatch) (f : FunctionInfo) :
    applyFunctionPatch second (applyFunctionPatch first f)
      = applyFunctionPatch (composeFunctionPatch first second) f := by
  simp only [applyFunctionPatch, composeFunctionPatch, getD_laterValue, Bool.or_assoc]

theorem applyFunctionPatch_twice (patch : FunctionPatch) (f : FunctionInfo) :
    applyFunctionPatch patch (applyFunctionPatch patch f) = applyFunctionPatch patch f := by
  simp only [applyFunctionPatch, getD_getD_self, or_or_self]

theorem FunctionFlag_patch (arg : Str) :
    ∃ patch thrown, ∀ f, FunctionFlag arg f = ⟨applyFunctionPatch patch f, thrown⟩ := by
  by_cases h1 : arg = "Callable".toList
  · exact ⟨{ callable := true }, none, fun f => by
      unfold FunctionFlag; rw [if_pos h1]; simp [applyFunctionPatch]⟩
  by_cases h2 : arg = "BlueprintEvent".toList
  · exact ⟨{ blueprintEvent := true }, none, fun f => by
      unfold FunctionFlag; rw [if_neg h1, if_pos h2]; simp [applyFunctionPatch]⟩
  by_cases h3 : arg = "BlueprintCallable".toList
  · exact ⟨{ blueprintCallable := true }, none, fun f => by
      unfold FunctionFlag; rw [if_neg h1, if_neg h2, if_pos h3]; simp [applyFunctionPatch]⟩
  by_cases h6 : "Category(".toList <+: arg
  · rcases quotedText_ok arg with hq | ⟨t, hq⟩
    · exact ⟨{}, none, fun f => by
        rw [FunctionFlag_category arg f h6, hq, applyFunctionPatch_empty]⟩
    · exact ⟨{ category := some t }, none, fun f => by
        rw [FunctionFlag_category arg f h6, hq]; simp [applyFunctionPatch]⟩
  by_cases h9 : "Tooltip(".toList <+: arg
  · rcases quotedText_ok arg with hq | ⟨t, hq⟩
    · exact ⟨{}, none, fun f => by
        rw [FunctionFlag_tooltip arg f h9, hq, applyFunctionPatch_empty]⟩
    · exact ⟨{ tooltip := some t }, none, fun f => by
        rw [FunctionFlag_tooltip arg f h9, hq]; simp [applyFunctionPatch]⟩
  have hunknown : isFunctionToken arg = false := by
    simp only [isFunctionToken, Bool.or_eq_false_iff, decide_eq_false_iff_not]
    have hp : ∀ pat : Str, ¬ pat <+: arg → pat.isPrefixOf arg = false := by
      intro pat hn
      cases hb : pat.isPrefixOf arg with
      | false => rfl
      | true => exact absurd ( List.isPrefixOf_iff_prefix.mp hb) hn
    exact ⟨⟨⟨⟨h1, h2⟩, h3⟩, hp _ h6⟩, hp _ h9⟩
  exact ⟨{}, none, fun f => by rw [FunctionFlag_unknown arg f hunknown, applyFunctionPatch_empty]⟩

theorem applyClassPatch_empty (c : ClassInfo) : applyClassPatch {} c = c := by
  simp [applyClassPatch]

theorem applyClassPatch_compose (first second : ClassPatch) (c : ClassInfo) :
    applyClassPatch second (applyClassPatch first c)
      = applyClassPatch (composeClassPatch first second) c := by
  simp only [applyClassPatch, composeClassPatch, getD_laterValue, Bool.or_assoc]

theorem applyClassPatch_twice (patch : ClassPatch) (c : ClassInfo) :
    applyClassPatch patch (applyClassPatch patch c) = applyClassPatch patch c := by
  simp only [applyClassPatch, getD_getD_self, or_or_self]

theorem ClassFlag_patch (w : Nat) (arg : Str) :
    ∃ patch thrown, ∀ c, ClassFlag w arg c = ⟨applyClassPatch patch c, thrown⟩ := by
  by_cases h1 : arg = "Blueprintable".toList
  · exact ⟨{ blueprintable := true }, none, fun c => by
      unfold ClassFlag; rw [if_pos h1]; simp [applyClassPatch]⟩
  by_cases h2 : arg = "Serializable".toList
  · exact ⟨{ serializable := true }, none, fun c => by
      unfold ClassFlag; rw [if_neg h1, if_pos h2]; simp [applyClassPatch]⟩
  by_cases h3 : arg = "Abstract".toList
  · exact ⟨{ abstract := true }, none, fun c => by
      unfold ClassFlag; rw [if_neg h1, if_neg h2, if_pos h3]; simp [applyClassPatch]⟩
  by_cases h4 : arg = "DefaultToInstanced".toList
  · exact ⟨{ defaultToInstanced := true }, none, fun c => by
      unfold ClassFlag; rw [if_neg h1, if_neg h2, if_neg h3, if_pos h4]
      simp [applyClassPatch]⟩
  by_cases h5 : "Version=".toList <+: arg
  · obtain ⟨r, rfl⟩ := h5
    cases hst : stoul w r with
    | error ex =>
      exact ⟨{}, some ex, fun c => by
        rw [ClassFlag_version, hst, applyClassPatch_empty]⟩
    | ok v =>
      exact ⟨{ version := some (v % 2 ^ 32) }, none, fun c => by
        rw [ClassFlag_version, hst]; simp [applyClassPatch]⟩
  have hunknown : isClassToken arg = false := by
    simp only [isClassToken, Bool.or_eq_false_iff, decide_eq_false_iff_not]
    have hp : "Version=".toList.isPrefixOf arg = false := by
      cases hb : "Version=".toList.isPrefixOf arg with
      | false => rfl
      | true => exact absurd ( List.isPrefixOf_iff_prefix.mp hb) h5
    exact ⟨⟨⟨⟨h1, h2⟩, h3⟩, h4⟩, hp⟩
  exact ⟨{}, none, fun c => by rw [ClassFlag_unknown w arg c hunknown, applyClassPatch_empty]⟩

/-- C22: for each of `ParseClassFlags`, `ParsePropertyFlags` and
`ParseFunctionFlags`, parsing the same tokens again on the entity the first
parse produced gives the same entity (and succeeds again): what a token does
depends on the token alone, flags are only ever set, and for each metadata
field the last assignment wins both times. For the class parser this is for
token lists on which parsing succeeds; the other two always succeed. -/
theorem C22_flag_parsing_idempotent (w : Nat) (cargs pargs fargs : List Str) (c : ClassInfo)
    (p : PropertyInfo) (f : FunctionInfo) (hc : (ParseClassFlags w cargs c).thrown = none) :
    (ParseClassFlags w cargs (ParseClassFlags w cargs c).state = ParseClassFlags w cargs c ∧
      (ParseClassFlags w cargs (ParseClassFlags w cargs c).state).thrown = none) ∧
    (ParsePropertyFlags pargs (ParsePropertyFlags pargs p).state = ParsePropertyFlags pargs p ∧
      (ParsePropertyFlags pargs p).thrown = none) ∧
    (ParseFunctionFlags fargs (ParseFunctionFlags fargs f).state = ParseFunctionFlags fargs f ∧
      (ParseFunctionFlags fargs f).thrown = none) := by
  have h1 : ParseClassFlags w cargs (ParseClassFlags w cargs c).state
      = ParseClassFlags w cargs c :=
    forEachArg_twice applyClassPatch composeClassPatch {} applyClassPatch_empty
      applyClassPatch_compose applyClassPatch_twice (ClassFlag w) (ClassFlag_patch w) cargs c
  refine ⟨⟨h1, by rw [h1]; exact hc⟩, ⟨?_, ?_⟩, ⟨?_, ?_⟩⟩
  · exact forEachArg_twice applyPropertyPatch composePropertyPatch {} applyPropertyPatch_empty
      applyPropertyPatch_compose applyPropertyPatch_twice PropertyFlag PropertyFlag_patch pargs p
  · exact forEachArg_thrown PropertyFlag PropertyFlag_thrown pargs p
  · exact forEachArg_twice applyFunctionPatch composeFunctionPatch {} applyFunctionPatch_empty
      applyFunctionPatch_compose applyFunctionPatch_twice FunctionFlag FunctionFlag_patch fargs f
  · exact forEachArg_thrown FunctionFlag FunctionFlag_thrown fargs f

/-- C22 at concrete token lists: a property list with two `Category`
tokens and a `Clamp`, parsed twice, is the list parsed once. -/
theorem C22_flag_parsing_idempotent_witness :
    ParsePropertyFlags
        ["Save".toList, "Category(\"A\")".toList, "Clamp(1,2)".toList,
         "Category(\"B\")".toList]
        (ParsePropertyFlags
          ["Save".toList, "Category(\"A\")".toList, "Clamp(1,2)".toList,
           "Category(\"B\")".toList] {}).state
      = ⟨{ save := true, category := "B".toList, clampMin := "1".toList,
           clampMax := "2".toList }, none⟩ :=
  ((C22_flag_parsing_idempotent 64 ["Abstract".toList, "Version=2".toList]
      ["Save".toList, "Category(\"A\")".toList, "Clamp(1,2)".toList,
       "Category(\"B\")".toList]
      ["Callable".toList] {} {} {} (by decide)).2.1.1).trans (by decide)

end ReflectionGenerator
